import Mathlib

/-!
A verification development for the js-idb document store.

The definitions below are a shallow embedding of the TypeScript sources:
`index-store.ts` (the per-field sorted index), `collection.ts` (the
collection orchestration in its memory-cached and file/read-through
modes), `validation.ts`, `storage.ts` and `types.ts`.

Modelling conventions:
* JS numbers are modelled as `Int` (the code never produces fractions on
  the paths under study; `NaN` is rejected by validation).  String order
  is the lexicographic order of Lean strings, matching the JS code-unit
  order on the BMP.
* The JS `Number(...)` conversion is modelled by `parseNum`, restricted
  to optional-sign decimal-integer literals; the conversion of the empty
  or whitespace-only string to `0` is preserved, everything else that the
  restricted grammar does not cover is `none` (NaN).
* Object-valued fields are opaque to every algorithm in the core (they
  are not indexable and only their top-level shape is validated), so an
  object entry is flattened to a tag that remembers only whether the
  entry is itself an object.
* File I/O and the JSON round-trip of `FileAdapter` are modelled as an
  exact key-value store; a write log records each `writeData`/`writeMeta`
  call so that batching behaviour is observable.
-/

/-- One JS primitive sitting inside an object-typed field.  Only the
top-level tag is ever inspected by the code (the flatness check of
`validateRecord`), so a nested object is a bare marker. -/
inductive ObjV where
  | vstr (s : String)
  | vnum (n : Int)
  | vbool (b : Bool)
  | vobj
  deriving DecidableEq, Repr

/-- A field value: string, number, boolean or flat object
(`src/types.ts` FieldType). -/
inductive Value where
  | str (s : String)
  | num (n : Int)
  | bool (b : Bool)
  | obj (kvs : List (String × ObjV))
  deriving DecidableEq, Repr

/-- The declared type of a schema field. -/
inductive FType where
  | string
  | number
  | boolean
  | object
  deriving DecidableEq, Repr

/-- The runtime type tag of a value, as `typeof` would report it. -/
def Value.typeOf : Value → FType
  | .str _ => .string
  | .num _ => .number
  | .bool _ => .boolean
  | .obj _ => .object

/-- JS `<` on index values.  Within one runtime type this is the
string/number order, with `false < true` for booleans; values of
distinct types never reach a comparison in validated use, so the
cross-type coercions of JS are not modelled and compare as unordered. -/
def vlt : Value → Value → Bool
  | .str a, .str b => a < b
  | .num a, .num b => a < b
  | .bool a, .bool b => !a && b
  | _, _ => false

/-- `Index.compare`: three-way comparison built from JS `<`. -/
def vcmp (a b : Value) : Int :=
  if vlt a b then -1 else if vlt b a then 1 else 0

/-- JS `String(x)` for index values. -/
def jsString : Value → String
  | .str s => s
  | .num n => toString n
  | .bool b => if b then "true" else "false"
  | .obj _ => "[object Object]"

/-- JS `String.prototype.startsWith`. -/
def jsStartsWith (s p : String) : Bool := decide (p.toList <+: s.toList)

/-- JS `String.prototype.endsWith`. -/
def jsEndsWith (s p : String) : Bool := decide (p.toList <:+ s.toList)

/-- JS `String.prototype.includes`. -/
def jsIncludes (s p : String) : Bool := decide (p.toList <:+: s.toList)

/-- JS `String.prototype.toLowerCase`, modelled as per-character
lowercasing. -/
def jsToLower (s : String) : String := ⟨s.data.map Char.toLower⟩

/-- Characters the JS `Number` conversion strips from both ends. -/
def isWs (c : Char) : Bool :=
  c = ' ' || c = '\t' || c = '\n' || c = '\r' ||
  c = '\x0b' || c = '\x0c' || c = '\u00A0' || c = '\u2028' || c = '\u2029'

/-- JS line terminators, which `.` in a regular expression never matches. -/
def isLineTerm (c : Char) : Bool :=
  c = '\n' || c = '\r' || c = '\u2028' || c = '\u2029'

/-- Model of the JS `Number(...)` conversion followed by the `isNaN`
test, restricted to optional-sign decimal-integer literals.  The
whitespace-trimming and empty-string-to-`0` behaviour of `Number` is
preserved; fractional, exponent, hex and `Infinity` forms are outside
the model. -/
def parseNum (s : String) : Option Int :=
  let t := ((s.toList.dropWhile isWs).reverse.dropWhile isWs).reverse
  match t with
  | [] => some 0
  | _ =>
    let sign : Bool × List Char :=
      match t with
      | '-' :: rest => (true, rest)
      | '+' :: rest => (false, rest)
      | _ => (false, t)
    if sign.2 ≠ [] ∧ sign.2.all Char.isDigit then
      let n : Nat := sign.2.foldl (fun acc c => acc * 10 + (c.toNat - '0'.toNat)) 0
      some (if sign.1 then -(n : Int) else (n : Int))
    else none

/-- The trailing `(.+)$` of the range regex: nonempty rest in which `.`
matches every character (no line terminators). -/
def restOk (r : String) : Bool :=
  r.length > 0 && r.toList.all (fun c => !isLineTerm c)

/-- Model of `query.match(/^(>=?|<=?)(.+)$/)`: greedy operator match with
backtracking, as the JS engine performs it. -/
def matchRangeOp (q : String) : Option (String × String) :=
  if jsStartsWith q ">=" && restOk (q.drop 2) then some (">=", q.drop 2)
  else if jsStartsWith q ">" && restOk (q.drop 1) then some (">", q.drop 1)
  else if jsStartsWith q "<=" && restOk (q.drop 2) then some ("<=", q.drop 2)
  else if jsStartsWith q "<" && restOk (q.drop 1) then some ("<", q.drop 1)
  else none

/-- One index entry: a normalized value and a record identifier
(`index-store.ts` IndexEntry). -/
structure Entry where
  value : Value
  id : String
  deriving DecidableEq, Repr

/-- Default entry used to totalize positional list access; every access
in the code is in range. -/
def dEntry : Entry := ⟨.str "", ""⟩

/-- `Index.normalize`: lower-case strings when case folding is on. -/
def normV (ignoreCase : Bool) : Value → Value
  | .str s => if ignoreCase then .str (jsToLower s) else .str s
  | v => v

/-- The binary-search loop of `Index.lowerBound` on the entry list,
searching within `[lo, hi)`. -/
def lbAux (es : List Entry) (t : Value) (lo hi : Nat) : Nat :=
  if _h : lo < hi then
    let mid := (lo + hi) / 2
    if vcmp (es.getD mid dEntry).value t < 0 then lbAux es t (mid + 1) hi
    else lbAux es t lo mid
  else lo
termination_by hi - lo
decreasing_by
  all_goals
    have h1 : lo ≤ (lo + hi) / 2 := by omega
    have h2 : (lo + hi) / 2 < hi := by omega
    simp only [mid] at *
    omega

/-- `Index.lowerBound`: index of the first entry with value `≥ t`. -/
def lowerBound (es : List Entry) (t : Value) : Nat := lbAux es t 0 es.length

/-- `splice(idx, 0, entry)`. -/
def insertEntry (es : List Entry) (i : Nat) (e : Entry) : List Entry :=
  es.take i ++ e :: es.drop i

/-- `splice(i, 1)`: delete the entry at position `i`. -/
def deleteEntry (es : List Entry) (i : Nat) : List Entry :=
  es.take i ++ es.drop (i + 1)

/-- The linear scan of `Index.remove`: starting at position `i`, walk the
run of entries whose value is still `nv` and delete the first one whose
identifier matches; fall off the run (or the list) silently otherwise. -/
def removeFrom (es : List Entry) (tid : String) (nv : Value) (i : Nat) : List Entry :=
  if _h : i < es.length then
    if (es.getD i dEntry).value ≠ nv then es
    else if (es.getD i dEntry).id = tid then deleteEntry es i
    else removeFrom es tid nv (i + 1)
  else es
termination_by es.length - i

/-- The forward scan of `Index.exactQuery`: collect identifiers while the
value still equals the target. -/
def collectRun (es : List Entry) (t : Value) (i : Nat) : List String :=
  if _h : i < es.length then
    if (es.getD i dEntry).value = t then
      (es.getD i dEntry).id :: collectRun es t (i + 1)
    else []
  else []
termination_by es.length - i

/-- The forward scan of `Index.prefixQuery`: collect identifiers while the
stringified value still starts with the (normalized) prefix. -/
def collectPre (es : List Entry) (p : String) (i : Nat) : List String :=
  if _h : i < es.length then
    if jsStartsWith (jsString (es.getD i dEntry).value) p then
      (es.getD i dEntry).id :: collectPre es p (i + 1)
    else []
  else []
termination_by es.length - i

/-- The forward loop of `Index.rangeQuery` for `>` and `>=`: push every
identifier from position `i` on, skipping exact ties when strict. -/
def collectGe (es : List Entry) (strict : Bool) (t : Int) (i : Nat) : List String :=
  if _h : i < es.length then
    if strict && decide ((es.getD i dEntry).value = Value.num t) then
      collectGe es strict t (i + 1)
    else (es.getD i dEntry).id :: collectGe es strict t (i + 1)
  else []
termination_by es.length - i

/-- A single-field sorted index (`index-store.ts` Index). -/
structure Index where
  field : String
  fieldType : FType
  ignoreCase : Bool
  entries : List Entry
  deriving DecidableEq, Repr

/-- `new Index(field, fieldType, ignoreCase)`; an `undefined` third
argument falls back to the `false` default parameter. -/
def mkIndex (f : String) (ft : FType) (ic : Option Bool) : Index :=
  ⟨f, ft, ic.getD false, []⟩

/-- `Index.add`: normalize, binary-search the lower bound, splice in. -/
def Index.add (ix : Index) (id : String) (v : Value) : Index :=
  let nv := normV ix.ignoreCase v
  let idx := lowerBound ix.entries nv
  { ix with entries := insertEntry ix.entries idx ⟨nv, id⟩ }

/-- `Index.remove`: normalize, binary-search, scan the tie run for the
identifier; a silent no-op when the pair is absent. -/
def Index.remove (ix : Index) (id : String) (v : Value) : Index :=
  let nv := normV ix.ignoreCase v
  { ix with entries := removeFrom ix.entries id nv (lowerBound ix.entries nv) }

/-- `Index.exactQuery`. -/
def exactQuery (es : List Entry) (t : Value) : List String :=
  collectRun es t (lowerBound es t)

/-- `Index.prefixQuery`. -/
def prefixQuery (ic : Bool) (es : List Entry) (p : String) : List String :=
  let n := if ic then jsToLower p else p
  collectPre es n (lowerBound es (.str n))

/-- `Index.suffixQuery`. -/
def suffixQuery (ic : Bool) (es : List Entry) (sfx : String) : List String :=
  let n := if ic then jsToLower sfx else sfx
  (es.filter (fun e => jsEndsWith (jsString e.value) n)).map (·.id)

/-- `Index.containsQuery`. -/
def containsQuery (ic : Bool) (es : List Entry) (sub : String) : List String :=
  let n := if ic then jsToLower sub else sub
  (es.filter (fun e => jsIncludes (jsString e.value) n)).map (·.id)

/-- `Index.rangeQuery`. -/
def rangeQuery (es : List Entry) (op : String) (t : Int) : List String :=
  if op = ">" || op = ">=" then
    collectGe es (op = ">") t (lowerBound es (.num t))
  else
    let idx := lowerBound es (.num t)
    ((es.take idx).map (·.id)) ++
      (if op = "<=" then collectRun es (.num t) idx else [])

/-- `Index.find`: dispatch a query string on the declared field type. -/
def Index.find (ix : Index) (q : String) : Except String (List String) :=
  if ix.fieldType = .number then
    match matchRangeOp q with
    | some opRest =>
      match parseNum opRest.2 with
      | some n => .ok (rangeQuery ix.entries opRest.1 n)
      | none => .error ("Invalid numeric query: " ++ q)
    | none =>
      match parseNum q with
      | some n => .ok (exactQuery ix.entries (.num n))
      | none => .error ("Invalid query for number field: " ++ q)
  else if ix.fieldType = .boolean then
    if q = "true" then .ok (exactQuery ix.entries (.bool true))
    else if q = "false" then .ok (exactQuery ix.entries (.bool false))
    else .error ("Invalid query for boolean field: " ++ q ++ " (use true or false)")
  else
    if jsStartsWith q "%" && jsEndsWith q "%" && q.length > 1 then
      .ok (containsQuery ix.ignoreCase ix.entries ((q.drop 1).dropRight 1))
    else if jsEndsWith q "%" then
      .ok (prefixQuery ix.ignoreCase ix.entries (q.dropRight 1))
    else if jsStartsWith q "%" then
      .ok (suffixQuery ix.ignoreCase ix.entries (q.drop 1))
    else
      .ok (exactQuery ix.entries
        (.str (if ix.ignoreCase then jsToLower q else q)))

/-- `Index.clear`. -/
def Index.clear (ix : Index) : Index := { ix with entries := [] }

/-- `Index.size`. -/
def Index.size (ix : Index) : Nat := ix.entries.length

/-- `Index.serialize`.  Modelled from the spec: the serialization methods
of Index are not part of the provided sources (only their call sites in
`collection.ts` are); per the spec an Index "can be exported to, and
reconstructed from, its entry sequence verbatim". -/
def Index.serialize (ix : Index) : List Entry := ix.entries

/-- `Index.fromEntries`.  Modelled from the spec, see `Index.serialize`:
reconstruction installs the entry sequence verbatim. -/
def Index.fromEntries (f : String) (ft : FType) (ic : Bool) (es : List Entry) : Index :=
  ⟨f, ft, ic, es⟩

/-- A schema field definition (`src/types.ts` FieldDefinition).
`index` and `ignoreCase` keep the JS tri-state (`none` = the property is
absent); `ignoreCase` stands for `indexSetting?.ignoreCase`. -/
structure FieldDef where
  type : FType
  index : Option Bool := none
  ignoreCase : Option Bool := none
  dflt : Option Value := none
  deriving DecidableEq, Repr

/-- A schema: field name to definition, in declaration order. -/
abbrev Schema := List (String × FieldDef)

/-- A record: field name to value, in property order. -/
abbrev Rec := List (String × Value)

/-- Association-list lookup, the JS property read `o[k]`. -/
def alGet {α : Type} (l : List (String × α)) (k : String) : Option α :=
  (l.find? (fun p => p.1 = k)).map (·.2)

/-- JS `Map.prototype.set`: replace in place when present, otherwise
append. -/
def mapSet {α : Type} (l : List (String × α)) (k : String) (v : α) : List (String × α) :=
  if l.any (fun p => p.1 = k) then
    l.map (fun p => if p.1 = k then (k, v) else p)
  else l ++ [(k, v)]

/-- JS `Map.prototype.delete`. -/
def mapDel {α : Type} (l : List (String × α)) (k : String) : List (String × α) :=
  l.filter (fun p => p.1 ≠ k)

/-- `validateSchema` (`validation.ts`): schema-definition invariants. -/
def validateSchema (schema : Schema) : Except String Unit :=
  schema.foldlM (fun _ fd =>
    if fd.2.index.getD false && (fd.2.type = FType.object : Bool) then
      .error ("Field " ++ fd.1 ++ ": cannot index object type fields")
    else if fd.2.ignoreCase.isSome && !(fd.2.index.getD false) then
      .error ("Field " ++ fd.1 ++ ": indexSetting requires index true")
    else if fd.2.ignoreCase.isSome && (fd.2.type ≠ FType.string : Bool) then
      .error ("Field " ++ fd.1 ++ ": indexSetting is only valid for string type fields")
    else .ok ()) ()

/-- The per-type check in `validateRecord`'s switch; for object fields
this includes the flatness scan over the entries. -/
def typeOk (ft : FType) (v : Value) : Bool :=
  match ft, v with
  | .string, .str _ => true
  | .number, .num _ => true
  | .boolean, .bool _ => true
  | .object, .obj kvs => kvs.all (fun p => p.2 ≠ ObjV.vobj)
  | _, _ => false

/-- `validateRecord` (`validation.ts`): reject unknown fields, then check
each schema field (required unless validating a patch). -/
def validateRecord (r : Rec) (schema : Schema) (isPart : Bool) : Except String Unit := do
  let _ ← r.foldlM (fun _ kv =>
    if schema.any (fun p => p.1 = kv.1) then pure ()
    else Except.error ("Unknown field " ++ kv.1 ++ " is not defined in the schema")) ()
  schema.foldlM (fun _ fd =>
    match alGet r fd.1 with
    | none =>
      if isPart then .ok ()
      else .error ("Missing required field " ++ fd.1)
    | some v =>
      if typeOk fd.2.type v then .ok ()
      else .error ("Field " ++ fd.1 ++ " has the wrong type")) ()

/-- `Collection.applyDefaults`: fill omitted fields that declare a
default (the deep copy of an object default is the identity here). -/
def applyDefaults (schema : Schema) (r : Rec) : Rec :=
  schema.foldl (fun acc fd =>
    match alGet acc fd.1, fd.2.dflt with
    | none, some d => acc ++ [(fd.1, d)]
    | _, _ => acc) r

/-- A document: the assigned identifier plus the record fields. -/
abbrev Doc := String × Rec

/-- `Collection.toDocument`. -/
def toDocument (id : String) (r : Rec) : Doc := (id, r)

/-- Placeholder for the JS `undefined` produced by a non-null assertion
on a missing record; never reached from a consistent state. -/
def undefinedDoc : Doc := ("undefined", [])

/-- In-process state of a memory-mode collection: the record map and the
per-field indexes, both in insertion order. -/
structure ColState where
  data : List (String × Rec)
  indexes : List (String × Index)
  deriving DecidableEq, Repr

/-- `Collection.initMemoryIndexes` applied to an empty collection. -/
def initMem (schema : Schema) : ColState :=
  ⟨[], schema.foldl (fun acc fd =>
      if fd.2.index.getD false then
        acc ++ [(fd.1, mkIndex fd.1 fd.2.type fd.2.ignoreCase)]
      else acc) []⟩

/-- The per-record index insertion loop shared by `add`/`addMany`:
`for (field, index) of indexes: if (val !== undefined) index.add`. -/
def addToIndexes (ixs : List (String × Index)) (id : String) (r : Rec) :
    List (String × Index) :=
  ixs.map (fun p =>
    match alGet r p.1 with
    | some v => (p.1, p.2.add id v)
    | none => p)

/-- The index removal loop of `remove`. -/
def removeFromIndexes (ixs : List (String × Index)) (id : String) (r : Rec) :
    List (String × Index) :=
  ixs.map (fun p =>
    match alGet r p.1 with
    | some v => (p.1, p.2.remove id v)
    | none => p)

/-- The index maintenance loop of `update`: for each patched indexed
field, remove the old value (when present) and insert the new one. -/
def updateIndexes (ixs : List (String × Index)) (id : String) (old patch : Rec) :
    List (String × Index) :=
  ixs.map (fun p =>
    match alGet patch p.1 with
    | none => p
    | some nv =>
      let p1 := match alGet old p.1 with
        | some ov => p.2.remove id ov
        | none => p.2
      (p.1, p1.add id nv))

/-- `Object.assign(existing, patch)`: overwrite in place, appending the
patch keys that are new. -/
def mergeRec (old patch : Rec) : Rec :=
  (old.map (fun kv =>
    match alGet patch kv.1 with
    | some v => (kv.1, v)
    | none => kv)) ++
    patch.filter (fun kv => !(old.any (fun o => o.1 = kv.1)))

/-- JS `new Set(list)` read back with the iteration order of a Set:
first occurrences, in order. -/
def jsSetOfList (l : List String) : List String :=
  l.foldl (fun acc x => if x ∈ acc then acc else acc ++ [x]) []

/-- The error thrown by `find` for a query on a field without an index. -/
def notIndexedErr (f : String) : String :=
  "Field " ++ f ++ " is not indexed. Add index true to the schema to enable search."

/-- The error thrown by `update`/`remove` for an unknown identifier. -/
def notFoundErr (id : String) : String := "Record " ++ id ++ " not found"

/-- The shared loop of `Collection.find`: resolve each queried field's
index, intersect identifier sets, return empty as soon as the running
intersection is empty. -/
def findLoop (ixs : List (String × Index)) (q : List (String × String))
    (acc : Option (List String)) : Except String (List String) :=
  match q with
  | [] => .ok (acc.getD [])
  | (f, pat) :: rest =>
    match alGet ixs f with
    | none => .error (notIndexedErr f)
    | some ix =>
      match ix.find pat with
      | .error e => .error e
      | .ok ids =>
        let idset := jsSetOfList ids
        let r := match acc with
          | none => idset
          | some r0 => r0.filter (fun i => idset.contains i)
        if r.length = 0 then .ok [] else findLoop ixs rest (some r)

/-- The validation pass of `addMany` (and, unrolled, of each `add`):
default, validate and pair each record with its fresh identifier before
anything is applied. -/
def validateAll (schema : Schema) : List (String × Rec) →
    Except String (List (String × Rec))
  | [] => .ok []
  | (id, r) :: rest =>
    let wd := applyDefaults schema r
    match validateRecord wd schema false with
    | .error e => .error e
    | .ok _ => (validateAll schema rest).map (fun t => (id, wd) :: t)

/-! ### Memory-cached mode (`fileMode = false` branches of `collection.ts`)

A thrown exception is modelled as `Except.error (message, state)`; the
carried state is the collection state at the moment of the throw, so
that what a failure leaves behind is observable. -/

/-- `Collection.add`, memory branch.  The fresh identifier produced by
`generateId()` is passed in. -/
def memAdd (schema : Schema) (s : ColState) (id : String) (record : Rec) :
    Except (String × ColState) (ColState × Doc) :=
  let wd := applyDefaults schema record
  match validateRecord wd schema false with
  | .error e => .error (e, s)
  | .ok _ =>
    .ok (⟨mapSet s.data id wd, addToIndexes s.indexes id wd⟩, toDocument id wd)

/-- `Collection.addMany`, memory branch: validate the whole batch, then
store and index record by record. -/
def memAddMany (schema : Schema) (s : ColState) (ids : List String)
    (records : List Rec) : Except (String × ColState) (ColState × List Doc) :=
  match validateAll schema (ids.zip records) with
  | .error e => .error (e, s)
  | .ok validated =>
    let res := validated.foldl
      (fun (acc : ColState × List Doc) p =>
        (⟨mapSet acc.1.data p.1 p.2, addToIndexes acc.1.indexes p.1 p.2⟩,
          acc.2 ++ [toDocument p.1 p.2]))
      (s, [])
    .ok res

/-- `Collection.get`, memory branch. -/
def memGet (s : ColState) (id : String) : Option Doc :=
  (alGet s.data id).map (toDocument id)

/-- `Collection.all`, memory branch. -/
def memAll (s : ColState) : List Doc :=
  s.data.map (fun p => toDocument p.1 p.2)

/-- `Collection.find`, memory branch: empty query is `all()`, otherwise
run the intersection loop and materialize the surviving identifiers. -/
def memFind (s : ColState) (q : List (String × String)) :
    Except String (List Doc) :=
  if q.isEmpty then .ok (memAll s)
  else
    (findLoop s.indexes q none).map (fun ids =>
      ids.map (fun id => (memGet s id).getD undefinedDoc))

/-- `Collection.update`, memory branch. -/
def memUpdate (schema : Schema) (s : ColState) (id : String) (patch : Rec) :
    Except (String × ColState) (ColState × Doc) :=
  match validateRecord patch schema true with
  | .error e => .error (e, s)
  | .ok _ =>
    match alGet s.data id with
    | none => .error (notFoundErr id, s)
    | some existing =>
      let ixs := updateIndexes s.indexes id existing patch
      let merged := mergeRec existing patch
      .ok (⟨mapSet s.data id merged, ixs⟩, toDocument id merged)

/-- `Collection.remove`, memory branch. -/
def memRemove (s : ColState) (id : String) :
    Except (String × ColState) ColState :=
  match alGet s.data id with
  | none => .error (notFoundErr id, s)
  | some existing =>
    .ok ⟨mapDel s.data id, removeFromIndexes s.indexes id existing⟩

/-- `Collection.clear`, memory branch. -/
def memClear (s : ColState) : ColState :=
  ⟨[], s.indexes.map (fun p => (p.1, p.2.clear))⟩

/-- `Collection.count`, memory branch. -/
def memCount (s : ColState) : Nat := s.data.length

/-! ### File-backed mode (`fileMode = true` branches)

`Storage` models the two JSON artifacts of `FileAdapter` for one
collection name; reading parses exactly what was written, and the log
records each write call. -/

/-- A write event on the storage adapter. -/
inductive WEv where
  | wData
  | wMeta
  deriving DecidableEq, Repr

/-- The persisted meta artifact (`src/types.ts` CollectionMeta): the
schema plus every index's serialized entry sequence. -/
structure Meta where
  schema : Schema
  indexes : List (String × List Entry)
  deriving DecidableEq, Repr

/-- The two artifacts of one collection (`none` = file absent), plus the
write log. -/
structure Storage where
  dataF : Option (List (String × Rec))
  metaF : Option Meta
  log : List WEv
  deriving DecidableEq, Repr

/-- A fresh path: no artifacts yet. -/
def emptyStorage : Storage := ⟨none, none, []⟩

/-- `FileAdapter.writeData`. -/
def writeDataS (st : Storage) (d : List (String × Rec)) : Storage :=
  { st with dataF := some d, log := st.log ++ [.wData] }

/-- `FileAdapter.writeMeta`. -/
def writeMetaS (st : Storage) (m : Meta) : Storage :=
  { st with metaF := some m, log := st.log ++ [.wMeta] }

/-- `Collection.readData`: a missing data artifact reads as an empty
map. -/
def readDataC (st : Storage) : List (String × Rec) :=
  st.dataF.getD []

/-- `Collection.buildIndexes` = `initMemoryIndexes`: one empty index per
indexed schema field, in schema order. -/
def buildIndexes (schema : Schema) : List (String × Index) :=
  schema.foldl (fun acc fd =>
    if fd.2.index.getD false then
      acc ++ [(fd.1, mkIndex fd.1 fd.2.type fd.2.ignoreCase)]
    else acc) []

/-- `Collection.loadIndexesFromMeta`: reconstruct every indexed field's
index from the meta artifact, fresh when absent. -/
def loadIndexesFromMeta (schema : Schema) (st : Storage) : List (String × Index) :=
  match st.metaF with
  | none => buildIndexes schema
  | some m =>
    schema.foldl (fun acc fd =>
      if fd.2.index.getD false then
        acc ++ [(fd.1,
          match alGet m.indexes fd.1 with
          | some es => Index.fromEntries fd.1 fd.2.type (fd.2.ignoreCase.getD false) es
          | none => mkIndex fd.1 fd.2.type fd.2.ignoreCase)]
      else acc) []

/-- `Collection.buildMeta`: the schema plus each index serialized. -/
def buildMeta (schema : Schema) (ixs : List (String × Index)) : Meta :=
  ⟨schema, ixs.map (fun p => (p.1, p.2.serialize))⟩

/-- `Collection.schemasMatch`: sorted key lists, then per-field type,
index truthiness and raw `indexSetting?.ignoreCase` comparison. -/
def schemasMatch (current stored : Schema) : Bool :=
  let ck := (current.map (·.1)).mergeSort (fun a b => a ≤ b)
  let sk := (stored.map (·.1)).mergeSort (fun a b => a ≤ b)
  decide (ck.length = sk.length) &&
  (ck.zip sk).all (fun p =>
    decide (p.1 = p.2) &&
    match alGet current p.1, alGet stored p.2 with
    | some cd, some sd =>
      decide (cd.type = sd.type) &&
      decide (cd.index.getD false = sd.index.getD false) &&
      decide (cd.ignoreCase = sd.ignoreCase)
    | _, _ => false)

/-- `Collection.initFileMode`: compare the stored schema and reset both
artifacts on mismatch or first run. -/
def constructFile (schema : Schema) (st : Storage) : Storage :=
  match st.metaF with
  | some m =>
    if schemasMatch schema m.schema then st
    else writeMetaS (writeDataS st []) (buildMeta schema [])
  | none => writeMetaS (writeDataS st []) (buildMeta schema [])

/-- `Collection.add`, file branch. -/
def fileAdd (schema : Schema) (st : Storage) (id : String) (record : Rec) :
    Except (String × Storage) (Storage × Doc) :=
  let wd := applyDefaults schema record
  match validateRecord wd schema false with
  | .error e => .error (e, st)
  | .ok _ =>
    let data := readDataC st
    let st1 := writeDataS st (mapSet data id wd)
    let ixs := addToIndexes (loadIndexesFromMeta schema st1) id wd
    let st2 := writeMetaS st1 (buildMeta schema ixs)
    .ok (st2, toDocument id wd)

/-- `Collection.addMany`, file branch: one `writeData` and one
`writeMeta` for the whole batch. -/
def fileAddMany (schema : Schema) (st : Storage) (ids : List String)
    (records : List Rec) : Except (String × Storage) (Storage × List Doc) :=
  match validateAll schema (ids.zip records) with
  | .error e => .error (e, st)
  | .ok validated =>
    let res := validated.foldl
      (fun (acc : (List (String × Rec)) × (List (String × Index)) × List Doc) p =>
        (mapSet acc.1 p.1 p.2, addToIndexes acc.2.1 p.1 p.2,
          acc.2.2 ++ [toDocument p.1 p.2]))
      (readDataC st, loadIndexesFromMeta schema st, [])
    let st1 := writeDataS st res.1
    let st2 := writeMetaS st1 (buildMeta schema res.2.1)
    .ok (st2, res.2.2)

/-- `Collection.get`, file branch. -/
def fileGet (st : Storage) (id : String) : Option Doc :=
  (alGet (readDataC st) id).map (toDocument id)

/-- `Collection.all`, file branch. -/
def fileAll (st : Storage) : List Doc :=
  (readDataC st).map (fun p => toDocument p.1 p.2)

/-- `Collection.find`, file branch. -/
def fileFind (schema : Schema) (st : Storage) (q : List (String × String)) :
    Except String (List Doc) :=
  if q.isEmpty then .ok (fileAll st)
  else
    (findLoop (loadIndexesFromMeta schema st) q none).map (fun ids =>
      let data := readDataC st
      ids.map (fun id => ((alGet data id).map (toDocument id)).getD undefinedDoc))

/-- `Collection.update`, file branch. -/
def fileUpdate (schema : Schema) (st : Storage) (id : String) (patch : Rec) :
    Except (String × Storage) (Storage × Doc) :=
  match validateRecord patch schema true with
  | .error e => .error (e, st)
  | .ok _ =>
    let data := readDataC st
    match alGet data id with
    | none => .error (notFoundErr id, st)
    | some existing =>
      let ixs := updateIndexes (loadIndexesFromMeta schema st) id existing patch
      let merged := mergeRec existing patch
      let st1 := writeDataS st (mapSet data id merged)
      let st2 := writeMetaS st1 (buildMeta schema ixs)
      .ok (st2, toDocument id merged)

/-- `Collection.remove`, file branch. -/
def fileRemove (schema : Schema) (st : Storage) (id : String) :
    Except (String × Storage) Storage :=
  let data := readDataC st
  match alGet data id with
  | none => .error (notFoundErr id, st)
  | some existing =>
    let ixs := removeFromIndexes (loadIndexesFromMeta schema st) id existing
    let st1 := writeDataS st (mapDel data id)
    writeMetaS st1 (buildMeta schema ixs) |> .ok

/-- `Collection.clear`, file branch. -/
def fileClear (schema : Schema) (st : Storage) : Storage :=
  writeMetaS (writeDataS st []) (buildMeta schema [])

/-- `Collection.count`, file branch. -/
def fileCount (st : Storage) : Nat := (readDataC st).length

/-! ### Operation sequences and the data/index consistency invariant -/

/-- One mutating call on a collection; `add`/`addMany` carry the fresh
identifiers that `generateId()` would produce. -/
inductive Op where
  | add (id : String) (r : Rec)
  | addMany (ids : List String) (rs : List Rec)
  | update (id : String) (patch : Rec)
  | remove (id : String)
  | clear
  deriving DecidableEq, Repr

/-- Apply one operation to a memory-mode collection; a thrown exception
leaves behind exactly the state carried by the error. -/
def applyMem (schema : Schema) (s : ColState) : Op → ColState
  | .add id r =>
    match memAdd schema s id r with
    | .ok t => t.1
    | .error t => t.2
  | .addMany ids rs =>
    match memAddMany schema s ids rs with
    | .ok t => t.1
    | .error t => t.2
  | .update id patch =>
    match memUpdate schema s id patch with
    | .ok t => t.1
    | .error t => t.2
  | .remove id =>
    match memRemove s id with
    | .ok t => t
    | .error t => t.2
  | .clear => memClear s

/-- Run a sequence of operations on a memory-mode collection. -/
def runMem (schema : Schema) (s : ColState) (ops : List Op) : ColState :=
  ops.foldl (applyMem schema) s

/-- Apply one operation to a file-mode collection's storage. -/
def applyFile (schema : Schema) (st : Storage) : Op → Storage
  | .add id r =>
    match fileAdd schema st id r with
    | .ok t => t.1
    | .error t => t.2
  | .addMany ids rs =>
    match fileAddMany schema st ids rs with
    | .ok t => t.1
    | .error t => t.2
  | .update id patch =>
    match fileUpdate schema st id patch with
    | .ok t => t.1
    | .error t => t.2
  | .remove id =>
    match fileRemove schema st id with
    | .ok t => t
    | .error t => t.2
  | .clear => fileClear schema st

/-- Run a sequence of operations on a file-mode collection. -/
def runFile (schema : Schema) (st : Storage) (ops : List Op) : Storage :=
  ops.foldl (applyFile schema) st

/-- The in-process view a memory collection would hold of a file-backed
storage state: the data artifact plus the indexes the next operation
would load from meta. -/
def stateOf (schema : Schema) (st : Storage) : ColState :=
  ⟨readDataC st, loadIndexesFromMeta schema st⟩

/-- JS object keys are unique. -/
def recKeysND (r : Rec) : Bool := decide ((r.map (·.1)).Nodup)

/-- Environment guarantees for one operation: identifiers produced by
`generateId()` are fresh, and records are JS objects (unique keys). -/
def opWf (s : ColState) : Op → Bool
  | .add id r => decide (alGet s.data id = none) && recKeysND r
  | .addMany ids rs =>
    decide ids.Nodup && ids.all (fun id => decide (alGet s.data id = none)) &&
    decide (ids.length = rs.length) && rs.all recKeysND
  | .update _ patch => recKeysND patch
  | .remove _ => true
  | .clear => true

/-- Environment guarantees along a whole memory-mode run. -/
def opsWf (schema : Schema) (s : ColState) : List Op → Bool
  | [] => true
  | op :: rest => opWf s op && opsWf schema (applyMem schema s op) rest

/-- Schema sanity: unique field names and `validateSchema` passes (so no
object-typed field is indexed). -/
def SchemaWf (schema : Schema) : Prop :=
  (schema.map (·.1)).Nodup ∧ (validateSchema schema).isOk = true

instance (schema : Schema) : Decidable (SchemaWf schema) := by
  unfold SchemaWf; infer_instance

/-- The indexed fields of a schema, in schema order. -/
def indexedDefs (schema : Schema) : List (String × FieldDef) :=
  schema.filter (fun fd => fd.2.index.getD false)

/-- The identifying data of one held index. -/
def ixShape (p : String × Index) : String × String × FType × Bool :=
  (p.1, p.2.field, p.2.fieldType, p.2.ignoreCase)

/-- The identifying data an indexed schema field prescribes. -/
def expShape (fd : String × FieldDef) : String × String × FType × Bool :=
  (fd.1, fd.1, fd.2.type, fd.2.ignoreCase.getD false)

/-- A record is well formed for a schema: JS-object keys and well-typed
declared fields. -/
def RecWf (schema : Schema) (r : Rec) : Prop :=
  (r.map (·.1)).Nodup ∧
  ∀ fd ∈ schema, ∀ v, alGet r fd.1 = some v → typeOk fd.2.type v = true

/-- The entries the data store prescribes for the index of field `f`:
one `(normalizedValue, id)` pair per stored record with `f` defined. -/
def expEntries (ic : Bool) (f : String) (data : List (String × Rec)) : List Entry :=
  data.filterMap (fun d => (alGet d.2 f).map (fun v => ⟨normV ic v, d.1⟩))

/-- Non-strict entry order: the right value is not below the left one. -/
def entryLe (a b : Entry) : Prop := vlt b.value a.value = false

instance : DecidableRel entryLe := fun a b => by unfold entryLe; infer_instance

/-- The data/index consistency invariant of a memory-mode collection:
unique identifiers, well-formed records, indexes exactly for the indexed
fields with the declared parameters, and every index sorted and holding
exactly the entries its field's stored values prescribe. -/
def ColInv (schema : Schema) (s : ColState) : Prop :=
  (s.data.map (·.1)).Nodup ∧
  (∀ p ∈ s.data, RecWf schema p.2) ∧
  s.indexes.map ixShape = (indexedDefs schema).map expShape ∧
  ∀ p ∈ s.indexes, ∀ fd, alGet schema p.1 = some fd →
    (p.2.entries.Perm (expEntries (fd.ignoreCase.getD false) p.1 s.data) ∧
      p.2.entries.Pairwise entryLe)

instance (schema : Schema) (s : ColState) : Decidable (ColInv schema s) := by
  unfold ColInv RecWf; infer_instance

/-! ### Order lemmas for index values -/

theorem vlt_irrefl (a : Value) : vlt a a = false := by
  cases a <;> simp [vlt]

theorem vlt_asymm {a b : Value} (h : vlt a b = true) : vlt b a = false := by
  cases a <;> cases b <;> simp_all [vlt] <;> exact le_of_lt h

theorem vlt_trans {a b c : Value} (h1 : vlt a b = true) (h2 : vlt b c = true) :
    vlt a c = true := by
  cases a <;> cases b <;> cases c <;> simp_all [vlt] <;> exact lt_trans h1 h2

theorem vle_trans {x y z : Value} (hx : x.typeOf = y.typeOf)
    (hz : z.typeOf = y.typeOf) (hobj : y.typeOf ≠ .object)
    (h1 : vlt y x = false) (h2 : vlt z y = false) : vlt z x = false := by
  cases x <;> cases y <;> cases z <;> simp_all [vlt, Value.typeOf] <;>
    exact le_trans h1 h2

theorem vlt_of_le_of_lt {x y t : Value} (hx : x.typeOf = y.typeOf)
    (h1 : vlt y x = false) (h2 : vlt y t = true) : vlt x t = true := by
  cases x <;> cases y <;> cases t <;> simp_all [vlt, Value.typeOf] <;>
    exact lt_of_le_of_lt h1 h2

theorem vle_antisymm {x y : Value} (hx : x.typeOf = y.typeOf)
    (hobj : x.typeOf ≠ .object) (h1 : vlt x y = false) (h2 : vlt y x = false) :
    x = y := by
  cases x <;> cases y <;> simp_all [vlt, Value.typeOf]
  · exact String.ext (le_antisymm h2 h1)
  · omega
  · cases ‹Bool› <;> simp_all

/-! ### Binary search correctness -/

/-- All entry values of one runtime type (what validated use guarantees). -/
def homogTy (ft : FType) (es : List Entry) : Prop :=
  ∀ e ∈ es, e.value.typeOf = ft

instance (ft : FType) (es : List Entry) : Decidable (homogTy ft es) := by
  unfold homogTy; infer_instance

theorem vcmp_lt_zero {a b : Value} : vcmp a b < 0 ↔ vlt a b = true := by
  unfold vcmp; split_ifs <;> simp_all

theorem getD_mem {es : List Entry} {i : Nat} (h : i < es.length) :
    es.getD i dEntry ∈ es := by
  rw [List.getD_eq_getElem _ _ h]
  exact List.getElem_mem h

theorem pairwise_getD {es : List Entry} (hs : es.Pairwise entryLe) {i j : Nat}
    (hij : i < j) (hj : j < es.length) :
    vlt (es.getD j dEntry).value (es.getD i dEntry).value = false := by
  rw [List.getD_eq_getElem _ _ (lt_trans hij hj), List.getD_eq_getElem _ _ hj]
  exact List.pairwise_iff_get.mp hs ⟨i, lt_trans hij hj⟩ ⟨j, hj⟩ hij

theorem lbAux_spec {ft : FType} {es : List Entry} {t : Value}
    (hs : es.Pairwise entryLe) (hh : homogTy ft es) (ht : t.typeOf = ft)
    (hobj : ft ≠ .object) :
    ∀ d lo hi, hi - lo ≤ d → lo ≤ hi → hi ≤ es.length →
    (∀ i, i < lo → vlt (es.getD i dEntry).value t = true) →
    (∀ i, hi ≤ i → i < es.length → vlt (es.getD i dEntry).value t = false) →
    lo ≤ lbAux es t lo hi ∧ lbAux es t lo hi ≤ hi ∧
    (∀ i, i < lbAux es t lo hi → vlt (es.getD i dEntry).value t = true) ∧
    (∀ i, lbAux es t lo hi ≤ i → i < es.length →
      vlt (es.getD i dEntry).value t = false) := by
  intro d
  induction d with
  | zero =>
    intro lo hi hd hle hlen hlo hhi
    have : ¬ lo < hi := by omega
    rw [lbAux, dif_neg this]
    refine ⟨le_refl _, hle, hlo, fun i h1 h2 => hhi i (by omega) h2⟩
  | succ d ih =>
    intro lo hi hd hle hlen hlo hhi
    by_cases hlt : lo < hi
    · have hmid1 : lo ≤ (lo + hi) / 2 := by omega
      have hmid2 : (lo + hi) / 2 < hi := by omega
      set mid := (lo + hi) / 2 with hmid
      have hmlen : mid < es.length := lt_of_lt_of_le hmid2 hlen
      rw [lbAux, dif_pos hlt]
      by_cases hc : vlt (es.getD mid dEntry).value t = true
      · rw [if_pos (vcmp_lt_zero.mpr hc)]
        rw [← hmid]
        have hlo2 : ∀ i, i < mid + 1 → vlt (es.getD i dEntry).value t = true := by
          intro i hi1
          rcases Nat.lt_or_ge i lo with h | h
          · exact hlo i h
          · rcases Nat.lt_or_ge i mid with h2 | h2
            · exact vlt_of_le_of_lt
                (by rw [hh _ (getD_mem (lt_trans h2 hmlen)), hh _ (getD_mem hmlen)])
                (pairwise_getD hs h2 hmlen) hc
            · have : i = mid := by omega
              rw [this]; exact hc
        obtain ⟨r1, r2, r3, r4⟩ := ih (mid + 1) hi (by omega) (by omega) hlen hlo2 hhi
        exact ⟨by omega, r2, r3, r4⟩
      · rw [if_neg (fun hcon => hc (vcmp_lt_zero.mp hcon))]
        rw [← hmid]
        have hhi2 : ∀ i, mid ≤ i → i < es.length →
            vlt (es.getD i dEntry).value t = false := by
          intro i h1 h2
          rcases Nat.lt_or_ge i hi with h3 | h3
          · rcases Nat.lt_or_ge mid i with h4 | h4
            · exact vle_trans (x := t) (y := (es.getD mid dEntry).value)
                (z := (es.getD i dEntry).value)
                (by rw [ht, hh _ (getD_mem hmlen)])
                (by rw [hh _ (getD_mem h2), hh _ (getD_mem hmlen)])
                (by rw [hh _ (getD_mem hmlen)]; exact hobj)
                (by simpa using hc) (pairwise_getD hs h4 h2)
            · have : i = mid := by omega
              rw [this]; simpa using hc
          · exact hhi i h3 h2
        obtain ⟨r1, r2, r3, r4⟩ := ih lo mid (by omega) (by omega)
          (le_of_lt (lt_of_lt_of_le hmid2 hlen)) hlo hhi2
        exact ⟨r1, by omega, r3, r4⟩
    · rw [lbAux, dif_neg hlt]
      have : lo = hi := by omega
      exact ⟨le_refl _, hle, hlo, fun i h1 h2 => hhi i (by omega) h2⟩

theorem lowerBound_spec {ft : FType} {es : List Entry} {t : Value}
    (hs : es.Pairwise entryLe) (hh : homogTy ft es) (ht : t.typeOf = ft)
    (hobj : ft ≠ .object) :
    lowerBound es t ≤ es.length ∧
    (∀ i, i < lowerBound es t → vlt (es.getD i dEntry).value t = true) ∧
    (∀ i, lowerBound es t ≤ i → i < es.length →
      vlt (es.getD i dEntry).value t = false) := by
  have h := lbAux_spec hs hh ht hobj es.length 0 es.length (by omega) (by omega)
    (le_refl _) (by omega) (by omega)
  exact ⟨h.2.1, h.2.2.1, h.2.2.2⟩

theorem vne_of_vlt {a b : Value} (h : vlt a b = true) : a ≠ b := by
  intro he; subst he; rw [vlt_irrefl] at h; cases h

theorem mem_take_lb {ft : FType} {es : List Entry} {t : Value}
    (hs : es.Pairwise entryLe) (hh : homogTy ft es) (ht : t.typeOf = ft)
    (hobj : ft ≠ .object) :
    ∀ e ∈ es.take (lowerBound es t), vlt e.value t = true := by
  intro e he
  obtain ⟨i, hi, hEq⟩ := List.getElem_of_mem he
  have hi2 := hi
  simp only [List.length_take] at hi2
  have hlen : i < es.length := by omega
  have hlb : i < lowerBound es t := by omega
  rw [List.getElem_take] at hEq
  have := (lowerBound_spec hs hh ht hobj).2.1 i hlb
  rwa [List.getD_eq_getElem _ _ hlen, hEq] at this

theorem mem_drop_lb {ft : FType} {es : List Entry} {t : Value}
    (hs : es.Pairwise entryLe) (hh : homogTy ft es) (ht : t.typeOf = ft)
    (hobj : ft ≠ .object) :
    ∀ e ∈ es.drop (lowerBound es t), vlt e.value t = false := by
  intro e he
  obtain ⟨j, hj, hEq⟩ := List.getElem_of_mem he
  have hj2 := hj
  simp only [List.length_drop] at hj2
  rw [List.getElem_drop] at hEq
  have hlen : lowerBound es t + j < es.length := by omega
  have := (lowerBound_spec hs hh ht hobj).2.2 (lowerBound es t + j) (by omega) hlen
  rwa [List.getD_eq_getElem _ _ hlen, hEq] at this

theorem insertEntry_perm (es : List Entry) (i : Nat) (e : Entry) :
    (insertEntry es i e).Perm (e :: es) := by
  unfold insertEntry
  have h := @List.perm_middle _ e (es.take i) (es.drop i)
  rwa [List.take_append_drop] at h

theorem insert_lb_sorted {ft : FType} {es : List Entry} {nv : Value} {id : String}
    (hs : es.Pairwise entryLe) (hh : homogTy ft es) (ht : nv.typeOf = ft)
    (hobj : ft ≠ .object) :
    (insertEntry es (lowerBound es nv) ⟨nv, id⟩).Pairwise entryLe := by
  unfold insertEntry
  have hsplit : es.take (lowerBound es nv) ++ es.drop (lowerBound es nv) = es :=
    List.take_append_drop _ _
  have hcross := List.pairwise_append.mp (by rwa [hsplit])
  rw [List.pairwise_append]
  refine ⟨hs.sublist (List.take_sublist _ _), ?_, ?_⟩
  · rw [List.pairwise_cons]
    refine ⟨fun b hb => mem_drop_lb hs hh ht hobj b hb, hs.sublist (List.drop_sublist _ _)⟩
  · intro a ha b hb
    rcases List.mem_cons.mp hb with hb | hb
    · subst hb
      exact vlt_asymm (mem_take_lb hs hh ht hobj a ha)
    · exact hcross.2.2 a ha b hb

theorem homog_insert {ft : FType} {es : List Entry} {nv : Value} {id : String} {i : Nat}
    (hh : homogTy ft es) (ht : nv.typeOf = ft) :
    homogTy ft (insertEntry es i ⟨nv, id⟩) := by
  intro e he
  have := (insertEntry_perm es i ⟨nv, id⟩).mem_iff.mp he
  rcases List.mem_cons.mp this with h | h
  · subst h; exact ht
  · exact hh e h

theorem normV_typeOf (ic : Bool) (v : Value) : (normV ic v).typeOf = v.typeOf := by
  cases v with
  | str s => simp only [normV]; split <;> rfl
  | num n => rfl
  | bool b => rfl
  | obj kvs => rfl

theorem deleteEntry_sublist (es : List Entry) (i : Nat) :
    (deleteEntry es i).Sublist es := by
  unfold deleteEntry
  conv_rhs => rw [← List.take_append_drop i es]
  apply List.Sublist.append_left
  have : es.drop (i + 1) = (es.drop i).drop 1 := by
    rw [List.drop_drop, Nat.add_comm]
  rw [this]
  exact List.drop_sublist _ _

theorem removeFrom_sublist (es : List Entry) (tid : String) (nv : Value) :
    ∀ i, (removeFrom es tid nv i).Sublist es := by
  intro i
  induction i using removeFrom.induct es tid nv with
  | case1 i h he =>
    rw [removeFrom, dif_pos h, if_pos he]
  | case2 i h he hid =>
    rw [removeFrom, dif_pos h, if_neg he, if_pos hid]
    exact deleteEntry_sublist es i
  | case3 i h he hid ih =>
    rw [removeFrom, dif_pos h, if_neg he, if_neg hid]
    exact ih
  | case4 i h =>
    rw [removeFrom, dif_neg h]

theorem removeFrom_not_mem {es : List Entry} {tid : String} {nv : Value}
    (hnot : (⟨nv, tid⟩ : Entry) ∉ es) :
    ∀ i, removeFrom es tid nv i = es := by
  intro i
  induction i using removeFrom.induct es tid nv with
  | case1 i h he =>
    rw [removeFrom, dif_pos h, if_pos he]
  | case2 i h he hid =>
    exfalso
    apply hnot
    have : es.getD i dEntry = ⟨nv, tid⟩ := by
      simp only [not_not] at he
      have h1 : (es.getD i dEntry).value = nv := he
      have h2 : (es.getD i dEntry).id = tid := hid
      cases hE : es.getD i dEntry
      simp_all
    rw [← this]
    exact getD_mem h
  | case3 i h he hid ih =>
    rw [removeFrom, dif_pos h, if_neg he, if_neg hid]
    exact ih
  | case4 i h =>
    rw [removeFrom, dif_neg h]

theorem removeFrom_del {es : List Entry} {tid : String} {nv : Value} {p : Nat}
    (hp : p < es.length) (hpe : es.getD p dEntry = ⟨nv, tid⟩) :
    ∀ i, i ≤ p →
    (∀ k, i ≤ k → k < p → (es.getD k dEntry).value = nv) →
    ∃ j, j < es.length ∧ es.getD j dEntry = ⟨nv, tid⟩ ∧
      removeFrom es tid nv i = deleteEntry es j := by
  intro i
  induction i using removeFrom.induct es tid nv with
  | case1 i h he =>
    intro hip hbetween
    exfalso
    rcases Nat.lt_or_ge i p with h2 | h2
    · exact he (hbetween i (le_refl _) h2)
    · have : i = p := by omega
      subst this
      apply he
      show (es.getD i dEntry).value = nv
      rw [hpe]
  | case2 i h he hid =>
    intro hip hbetween
    refine ⟨i, h, ?_, by rw [removeFrom, dif_pos h, if_neg he, if_pos hid]⟩
    simp only [not_not] at he
    have h1 : (es.getD i dEntry).value = nv := he
    have h2 : (es.getD i dEntry).id = tid := hid
    cases hE : es.getD i dEntry
    simp_all
  | case3 i h he hid ih =>
    intro hip hbetween
    have hne : i ≠ p := by
      intro hcon
      subst hcon
      apply hid
      show (es.getD i dEntry).id = tid
      rw [hpe]
    obtain ⟨j, hj1, hj2, hj3⟩ := ih (by omega)
      (fun k hk1 hk2 => hbetween k (by omega) hk2)
    exact ⟨j, hj1, hj2, by rw [removeFrom, dif_pos h, if_neg he, if_neg hid]; exact hj3⟩
  | case4 i h =>
    intro hip hbetween
    omega

theorem deleteEntry_perm_erase {es : List Entry} {j : Nat} {x : Entry}
    (hj : j < es.length) (he : es.getD j dEntry = x) :
    (deleteEntry es j).Perm (es.erase x) := by
  have hmem : x ∈ es := by rw [← he]; exact getD_mem hj
  have h1 : es.Perm (x :: deleteEntry es j) := by
    conv_lhs => rw [← List.take_append_drop j es,
      List.drop_eq_getElem_cons hj]
    rw [← List.getD_eq_getElem es dEntry hj, he]
    exact List.perm_middle
  have h2 := List.perm_cons_erase hmem
  exact (h1.symm.trans h2).cons_inv

theorem removeFrom_perm_erase {ft : FType} {es : List Entry} {tid : String}
    {nv : Value} (hs : es.Pairwise entryLe) (hh : homogTy ft es)
    (ht : nv.typeOf = ft) (hobj : ft ≠ .object)
    (hmem : (⟨nv, tid⟩ : Entry) ∈ es) :
    (removeFrom es tid nv (lowerBound es nv)).Perm (es.erase ⟨nv, tid⟩) := by
  obtain ⟨p, hp, hpe⟩ := List.getElem_of_mem hmem
  rw [← List.getD_eq_getElem es dEntry hp] at hpe
  have hspec := lowerBound_spec hs hh ht hobj
  have hplb : lowerBound es nv ≤ p := by
    by_contra hcon
    have := hspec.2.1 p (by omega)
    rw [hpe] at this
    simp only at this
    rw [vlt_irrefl] at this
    cases this
  have hbetween : ∀ k, lowerBound es nv ≤ k → k < p →
      (es.getD k dEntry).value = nv := by
    intro k hk1 hk2
    have hklen : k < es.length := by omega
    have hge : vlt (es.getD k dEntry).value nv = false := hspec.2.2 k hk1 hklen
    have hle : vlt nv (es.getD k dEntry).value = false := by
      have := pairwise_getD hs hk2 hp
      rwa [hpe] at this
    exact vle_antisymm (by rw [hh _ (getD_mem hklen), ht]) (by rw [hh _ (getD_mem hklen)]; exact hobj) hge hle
  obtain ⟨j, hj1, hj2, hj3⟩ := removeFrom_del hp hpe (lowerBound es nv) hplb hbetween
  rw [hj3]
  exact deleteEntry_perm_erase hj1 hj2

theorem collectRun_eq (es : List Entry) (t : Value) :
    ∀ i, collectRun es t i =
      ((es.drop i).takeWhile (fun e => decide (e.value = t))).map (·.id) := by
  intro i
  induction i using collectRun.induct es t with
  | case1 i h he ih =>
    have hgd : es.getD i dEntry = es[i] := List.getD_eq_getElem _ _ h
    rw [hgd] at he
    rw [collectRun, dif_pos h, if_pos (hgd ▸ he), ih, List.drop_eq_getElem_cons h,
      List.takeWhile_cons, if_pos (decide_eq_true he), List.map_cons, hgd]
  | case2 i h he =>
    have hgd : es.getD i dEntry = es[i] := List.getD_eq_getElem _ _ h
    rw [hgd] at he
    rw [collectRun, dif_pos h, if_neg (hgd ▸ he), List.drop_eq_getElem_cons h,
      List.takeWhile_cons, if_neg (by simp [he])]
    rfl
  | case3 i h =>
    rw [collectRun, dif_neg h, List.drop_eq_nil_of_le (by omega)]
    rfl

theorem collectPre_eq (es : List Entry) (p : String) :
    ∀ i, collectPre es p i =
      ((es.drop i).takeWhile (fun e => jsStartsWith (jsString e.value) p)).map (·.id) := by
  intro i
  induction i using collectPre.induct es p with
  | case1 i h he ih =>
    have hgd : es.getD i dEntry = es[i] := List.getD_eq_getElem _ _ h
    rw [hgd] at he
    rw [collectPre, dif_pos h, if_pos (hgd ▸ he), ih, List.drop_eq_getElem_cons h,
      List.takeWhile_cons, if_pos he, List.map_cons, hgd]
  | case2 i h he =>
    have hgd : es.getD i dEntry = es[i] := List.getD_eq_getElem _ _ h
    rw [hgd] at he
    rw [collectPre, dif_pos h, if_neg (hgd ▸ he), List.drop_eq_getElem_cons h,
      List.takeWhile_cons, if_neg he]
    rfl
  | case3 i h =>
    rw [collectPre, dif_neg h, List.drop_eq_nil_of_le (by omega)]
    rfl

theorem collectGe_eq (es : List Entry) (strict : Bool) (t : Int) :
    ∀ i, collectGe es strict t i =
      ((es.drop i).filter
        (fun e => !(strict && decide (e.value = Value.num t)))).map (·.id) := by
  intro i
  induction i using collectGe.induct es strict t with
  | case1 i h he ih =>
    have hgd : es.getD i dEntry = es[i] := List.getD_eq_getElem _ _ h
    rw [hgd] at he
    rw [collectGe, dif_pos h, if_pos (hgd ▸ he), ih, List.drop_eq_getElem_cons h,
      List.filter_cons]
    rw [if_neg (by simp [he])]
  | case2 i h he ih =>
    have hgd : es.getD i dEntry = es[i] := List.getD_eq_getElem _ _ h
    rw [hgd] at he
    rw [collectGe, dif_pos h, if_neg (hgd ▸ he), ih, List.drop_eq_getElem_cons h,
      List.filter_cons]
    have hb : (strict && decide (es[i].value = Value.num t)) = false := by
      cases hx : (strict && decide (es[i].value = Value.num t))
      · rfl
      · exact absurd hx he
    rw [if_pos (by rw [hb]; rfl), List.map_cons, hgd]
  | case3 i h =>
    rw [collectGe, dif_neg h, List.drop_eq_nil_of_le (by omega)]
    rfl

theorem takeWhile_eq_filter_run {ft : FType} {t : Value} :
    ∀ {L : List Entry}, L.Pairwise entryLe → homogTy ft L → t.typeOf = ft →
    ft ≠ .object → (∀ e ∈ L, vlt e.value t = false) →
    L.takeWhile (fun e => decide (e.value = t)) =
      L.filter (fun e => decide (e.value = t)) := by
  intro L
  induction L with
  | nil => intro _ _ _ _ _; rfl
  | cons hd tl ih =>
    intro hs hh ht hobj hge
    rw [List.pairwise_cons] at hs
    by_cases hc : hd.value = t
    · rw [List.takeWhile_cons, if_pos (by simpa using hc), List.filter_cons,
        if_pos (by simpa using hc),
        ih hs.2 (fun e he => hh e (List.mem_cons_of_mem _ he)) ht hobj
          (fun e he => hge e (List.mem_cons_of_mem _ he))]
    · rw [List.takeWhile_cons, if_neg (by simpa using hc), List.filter_cons,
        if_neg (by simpa using hc)]
      have : tl.filter (fun e => decide (e.value = t)) = [] := by
        rw [List.filter_eq_nil_iff]
        intro e he
        simp only [decide_eq_true_eq]
        intro het
        apply hc
        apply vle_antisymm (x := hd.value) (y := t)
          (by rw [hh hd (List.mem_cons_self _ _), ht])
          (by rw [hh hd (List.mem_cons_self _ _)]; exact hobj)
          (hge hd (List.mem_cons_self _ _))
        rw [← het]
        exact hs.1 e he
      rw [this]

theorem filter_take_lb_nil {ft : FType} {es : List Entry} {t : Value}
    (hs : es.Pairwise entryLe) (hh : homogTy ft es) (ht : t.typeOf = ft)
    (hobj : ft ≠ .object) :
    (es.take (lowerBound es t)).filter (fun e => decide (e.value = t)) = [] := by
  rw [List.filter_eq_nil_iff]
  intro e he
  simp only [decide_eq_true_eq]
  exact fun hc => vne_of_vlt (mem_take_lb hs hh ht hobj e he) hc

theorem exactQuery_eq_filter {ft : FType} {es : List Entry} {t : Value}
    (hs : es.Pairwise entryLe) (hh : homogTy ft es) (ht : t.typeOf = ft)
    (hobj : ft ≠ .object) :
    exactQuery es t = (es.filter (fun e => decide (e.value = t))).map (·.id) := by
  unfold exactQuery
  rw [collectRun_eq]
  have h1 : (es.drop (lowerBound es t)).takeWhile (fun e => decide (e.value = t)) =
      (es.drop (lowerBound es t)).filter (fun e => decide (e.value = t)) :=
    takeWhile_eq_filter_run (hs.sublist (List.drop_sublist _ _))
      (fun e he => hh e (List.drop_sublist _ _ |>.mem he)) ht hobj
      (mem_drop_lb hs hh ht hobj)
  have h2 : es.filter (fun e => decide (e.value = t)) =
      (es.take (lowerBound es t)).filter (fun e => decide (e.value = t)) ++
      (es.drop (lowerBound es t)).filter (fun e => decide (e.value = t)) := by
    conv_lhs => rw [← List.take_append_drop (lowerBound es t) es]
    rw [List.filter_append]
  rw [h1, h2, filter_take_lb_nil hs hh ht hobj, List.nil_append]

/-! ### Range query characterization -/

/-- Entry value is a number strictly above `t`. -/
def numGtB (t : Int) (e : Entry) : Bool :=
  match e.value with
  | .num m => decide (t < m)
  | _ => false

/-- Entry value is a number at least `t`. -/
def numGeB (t : Int) (e : Entry) : Bool :=
  match e.value with
  | .num m => decide (t ≤ m)
  | _ => false

/-- Entry value is a number strictly below `t`. -/
def numLtB (t : Int) (e : Entry) : Bool :=
  match e.value with
  | .num m => decide (m < t)
  | _ => false

/-- Entry value is a number at most `t`. -/
def numLeB (t : Int) (e : Entry) : Bool :=
  match e.value with
  | .num m => decide (m ≤ t)
  | _ => false

theorem homog_num_val {es : List Entry} (hh : homogTy .number es) {e : Entry}
    (he : e ∈ es) : ∃ m : Int, e.value = .num m := by
  have := hh e he
  cases hv : e.value <;> simp_all [Value.typeOf]

theorem mem_take_lb_num {es : List Entry} {t : Int}
    (hs : es.Pairwise entryLe) (hh : homogTy .number es) :
    ∀ e ∈ es.take (lowerBound es (.num t)), ∃ m : Int, e.value = .num m ∧ m < t := by
  intro e he
  obtain ⟨m, hm⟩ := homog_num_val hh (List.take_sublist _ _ |>.mem he)
  have := mem_take_lb (t := Value.num t) hs hh rfl (by simp) e he
  rw [hm] at this ⊢
  exact ⟨m, rfl, by simpa [vlt] using this⟩

theorem mem_drop_lb_num {es : List Entry} {t : Int}
    (hs : es.Pairwise entryLe) (hh : homogTy .number es) :
    ∀ e ∈ es.drop (lowerBound es (.num t)), ∃ m : Int, e.value = .num m ∧ t ≤ m := by
  intro e he
  obtain ⟨m, hm⟩ := homog_num_val hh (List.drop_sublist _ _ |>.mem he)
  have := mem_drop_lb (t := Value.num t) hs hh rfl (by simp) e he
  rw [hm] at this ⊢
  exact ⟨m, rfl, by simpa [vlt] using this⟩

theorem rangeQuery_gt {es : List Entry} {t : Int}
    (hs : es.Pairwise entryLe) (hh : homogTy .number es) :
    rangeQuery es ">" t = (es.filter (numGtB t)).map (·.id) := by
  have h0 : rangeQuery es ">" t = collectGe es true t (lowerBound es (.num t)) := by
    simp [rangeQuery]
  rw [h0, collectGe_eq]
  congr 1
  have hsplit : es.filter (numGtB t) =
      (es.take (lowerBound es (.num t))).filter (numGtB t) ++
      (es.drop (lowerBound es (.num t))).filter (numGtB t) := by
    conv_lhs => rw [← List.take_append_drop (lowerBound es (.num t)) es]
    rw [List.filter_append]
  rw [hsplit]
  have h1 : (es.take (lowerBound es (.num t))).filter (numGtB t) = [] := by
    rw [List.filter_eq_nil_iff]
    intro e he
    obtain ⟨m, hm, hmt⟩ := mem_take_lb_num hs hh e he
    simp [numGtB, hm]
    omega
  rw [h1, List.nil_append]
  apply List.filter_congr
  intro e he
  obtain ⟨m, hm, hmt⟩ := mem_drop_lb_num hs hh e he
  simp only [numGtB, hm, Bool.true_and, Value.num.injEq]
  by_cases hEq : m = t
  · subst hEq; simp
  · simp [hEq]; omega

theorem rangeQuery_ge {es : List Entry} {t : Int}
    (hs : es.Pairwise entryLe) (hh : homogTy .number es) :
    rangeQuery es ">=" t = (es.filter (numGeB t)).map (·.id) := by
  have h0 : rangeQuery es ">=" t = collectGe es false t (lowerBound es (.num t)) := by
    simp [rangeQuery]
  rw [h0, collectGe_eq]
  congr 1
  have h2 : (es.drop (lowerBound es (.num t))).filter
      (fun e => !(false && decide (e.value = Value.num t))) =
      es.drop (lowerBound es (.num t)) := by
    rw [List.filter_eq_self]
    intro e _
    rfl
  rw [h2]
  have hsplit : es.filter (numGeB t) =
      (es.take (lowerBound es (.num t))).filter (numGeB t) ++
      (es.drop (lowerBound es (.num t))).filter (numGeB t) := by
    conv_lhs => rw [← List.take_append_drop (lowerBound es (.num t)) es]
    rw [List.filter_append]
  rw [hsplit]
  have h1 : (es.take (lowerBound es (.num t))).filter (numGeB t) = [] := by
    rw [List.filter_eq_nil_iff]
    intro e he
    obtain ⟨m, hm, hmt⟩ := mem_take_lb_num hs hh e he
    simp [numGeB, hm]
    omega
  have h3 : (es.drop (lowerBound es (.num t))).filter (numGeB t) =
      es.drop (lowerBound es (.num t)) := by
    rw [List.filter_eq_self]
    intro e he
    obtain ⟨m, hm, hmt⟩ := mem_drop_lb_num hs hh e he
    simp [numGeB, hm]
    omega
  rw [h1, h3, List.nil_append]

theorem rangeQuery_lt {es : List Entry} {t : Int}
    (hs : es.Pairwise entryLe) (hh : homogTy .number es) :
    rangeQuery es "<" t = (es.filter (numLtB t)).map (·.id) := by
  have h0 : rangeQuery es "<" t =
      ((es.take (lowerBound es (.num t))).map (·.id)) ++ [] := by
    simp [rangeQuery]
  rw [h0, List.append_nil]
  congr 1
  have hsplit : es.filter (numLtB t) =
      (es.take (lowerBound es (.num t))).filter (numLtB t) ++
      (es.drop (lowerBound es (.num t))).filter (numLtB t) := by
    conv_lhs => rw [← List.take_append_drop (lowerBound es (.num t)) es]
    rw [List.filter_append]
  have h1 : (es.take (lowerBound es (.num t))).filter (numLtB t) =
      es.take (lowerBound es (.num t)) := by
    rw [List.filter_eq_self]
    intro e he
    obtain ⟨m, hm, hmt⟩ := mem_take_lb_num hs hh e he
    simp [numLtB, hm]
    omega
  have h2 : (es.drop (lowerBound es (.num t))).filter (numLtB t) = [] := by
    rw [List.filter_eq_nil_iff]
    intro e he
    obtain ⟨m, hm, hmt⟩ := mem_drop_lb_num hs hh e he
    simp [numLtB, hm]
    omega
  rw [hsplit, h1, h2, List.append_nil]

theorem rangeQuery_le {es : List Entry} {t : Int}
    (hs : es.Pairwise entryLe) (hh : homogTy .number es) :
    rangeQuery es "<=" t = (es.filter (numLeB t)).map (·.id) := by
  have h0 : rangeQuery es "<=" t =
      ((es.take (lowerBound es (.num t))).map (·.id)) ++
        collectRun es (.num t) (lowerBound es (.num t)) := by
    simp [rangeQuery]
  have hexact : collectRun es (.num t) (lowerBound es (.num t)) =
      (es.filter (fun e => decide (e.value = Value.num t))).map (·.id) :=
    exactQuery_eq_filter hs hh rfl (by simp)
  rw [h0, hexact]
  have hfsplit : es.filter (fun e => decide (e.value = Value.num t)) =
      (es.drop (lowerBound es (.num t))).filter
        (fun e => decide (e.value = Value.num t)) := by
    conv_lhs => rw [← List.take_append_drop (lowerBound es (.num t)) es]
    rw [List.filter_append, filter_take_lb_nil (t := Value.num t) hs hh rfl (by simp),
      List.nil_append]
  have hsplit : es.filter (numLeB t) =
      (es.take (lowerBound es (.num t))).filter (numLeB t) ++
      (es.drop (lowerBound es (.num t))).filter (numLeB t) := by
    conv_lhs => rw [← List.take_append_drop (lowerBound es (.num t)) es]
    rw [List.filter_append]
  have h1 : (es.take (lowerBound es (.num t))).filter (numLeB t) =
      es.take (lowerBound es (.num t)) := by
    rw [List.filter_eq_self]
    intro e he
    obtain ⟨m, hm, hmt⟩ := mem_take_lb_num hs hh e he
    simp [numLeB, hm]
    omega
  have h2 : (es.drop (lowerBound es (.num t))).filter (numLeB t) =
      (es.drop (lowerBound es (.num t))).filter
        (fun e => decide (e.value = Value.num t)) := by
    apply List.filter_congr
    intro e he
    obtain ⟨m, hm, hmt⟩ := mem_drop_lb_num hs hh e he
    simp only [numLeB, hm, Value.num.injEq]
    by_cases hEq : m = t
    · subst hEq; simp
    · simp [hEq]; omega
  rw [hsplit, h1, h2, ← hfsplit, List.map_append]

/-! ### Supporting facts for the string query forms -/

theorem str_not_lt_empty (s : String) : ¬ (s < "") := by
  rw [String.lt_iff_toList_lt]
  show ¬ List.Lex (· < ·) s.toList []
  exact List.Lex.not_nil_right _ _

theorem vlt_str_empty (v : Value) : vlt v (.str "") = false := by
  cases v with
  | str s => simp [vlt, str_not_lt_empty s]
  | num n => rfl
  | bool b => rfl
  | obj kvs => rfl

theorem jsStartsWith_empty (s : String) : jsStartsWith s "" = true := by
  simp [jsStartsWith]

theorem lbAux_none_lt {es : List Entry} {t : Value}
    (h : ∀ i, i < es.length → vlt (es.getD i dEntry).value t = false) :
    ∀ lo hi, hi ≤ es.length → lbAux es t lo hi = lo := by
  intro lo hi
  induction lo, hi using lbAux.induct es t with
  | case1 lo hi hlt mid hvc ih =>
    intro hlen
    exfalso
    have hm : mid < es.length := by omega
    have := h mid hm
    rw [vcmp_lt_zero] at hvc
    rw [this] at hvc
    cases hvc
  | case2 lo hi hlt mid hvc ih =>
    intro hlen
    rw [lbAux, dif_pos hlt, if_neg hvc]
    have hm2 : mid < hi := by show (lo + hi) / 2 < hi; omega
    exact ih (by omega)
  | case3 lo hi hlt =>
    intro _
    rw [lbAux, dif_neg hlt]

theorem lowerBound_str_empty (es : List Entry) :
    lowerBound es (.str "") = 0 := by
  unfold lowerBound
  exact lbAux_none_lt (fun i _ => vlt_str_empty _) 0 es.length (le_refl _)

theorem prefixQuery_empty (ic : Bool) (es : List Entry) :
    prefixQuery ic es "" = es.map (·.id) := by
  unfold prefixQuery
  have h0 : (if ic then jsToLower "" else "") = "" := by cases ic <;> decide
  rw [h0]
  show collectPre es "" (lowerBound es (.str "")) = _
  rw [lowerBound_str_empty, collectPre_eq, List.drop_zero]
  congr 1
  rw [List.takeWhile_eq_self_iff]
  intro e _
  exact jsStartsWith_empty _

/-- Decidable equality for `Except`, used to evaluate concrete query
results. -/
instance {e a : Type} [DecidableEq e] [DecidableEq a] : DecidableEq (Except e a)
  | .error x, .error y =>
    if h : x = y then .isTrue (by rw [h]) else .isFalse (by simp [h])
  | .error _, .ok _ => .isFalse (by simp)
  | .ok _, .error _ => .isFalse (by simp)
  | .ok x, .ok y =>
    if h : x = y then .isTrue (by rw [h]) else .isFalse (by simp [h])

/-! ### Claim C5 -/

/-- C5: on a number-field index with sorted entries, `find` with query
`'>' + b` returns exactly the identifiers of entries with value
strictly greater than `b`; `'>=' + b`, `'<' + b` and `'<=' + b` return
the entries `≥ b`, `< b` and `≤ b` respectively — ties at the bound are
included for `>=`/`<=` and excluded for `>`/`<`. -/
theorem C5_number_range_find (ix : Index) (hft : ix.fieldType = .number)
    (hs : ix.entries.Pairwise entryLe) (hh : homogTy .number ix.entries)
    (s : String) (b : Int) (hp : parseNum s = some b) :
    (matchRangeOp (">" ++ s) = some (">", s) →
      ix.find (">" ++ s) = .ok ((ix.entries.filter (numGtB b)).map (·.id))) ∧
    (matchRangeOp (">=" ++ s) = some (">=", s) →
      ix.find (">=" ++ s) = .ok ((ix.entries.filter (numGeB b)).map (·.id))) ∧
    (matchRangeOp ("<" ++ s) = some ("<", s) →
      ix.find ("<" ++ s) = .ok ((ix.entries.filter (numLtB b)).map (·.id))) ∧
    (matchRangeOp ("<=" ++ s) = some ("<=", s) →
      ix.find ("<=" ++ s) = .ok ((ix.entries.filter (numLeB b)).map (·.id))) := by
  refine ⟨fun hm => ?_, fun hm => ?_, fun hm => ?_, fun hm => ?_⟩
  · have h0 : ix.find (">" ++ s) = .ok (rangeQuery ix.entries ">" b) := by
      unfold Index.find
      rw [hft, if_pos rfl, hm]
      show (match parseNum s with
        | some n => Except.ok (rangeQuery ix.entries ">" n)
        | none => Except.error ("Invalid numeric query: " ++ (">" ++ s))) =
        Except.ok (rangeQuery ix.entries ">" b)
      rw [hp]
    rw [h0, rangeQuery_gt hs hh]
  · have h0 : ix.find (">=" ++ s) = .ok (rangeQuery ix.entries ">=" b) := by
      unfold Index.find
      rw [hft, if_pos rfl, hm]
      show (match parseNum s with
        | some n => Except.ok (rangeQuery ix.entries ">=" n)
        | none => Except.error ("Invalid numeric query: " ++ (">=" ++ s))) =
        Except.ok (rangeQuery ix.entries ">=" b)
      rw [hp]
    rw [h0, rangeQuery_ge hs hh]
  · have h0 : ix.find ("<" ++ s) = .ok (rangeQuery ix.entries "<" b) := by
      unfold Index.find
      rw [hft, if_pos rfl, hm]
      show (match parseNum s with
        | some n => Except.ok (rangeQuery ix.entries "<" n)
        | none => Except.error ("Invalid numeric query: " ++ ("<" ++ s))) =
        Except.ok (rangeQuery ix.entries "<" b)
      rw [hp]
    rw [h0, rangeQuery_lt hs hh]
  · have h0 : ix.find ("<=" ++ s) = .ok (rangeQuery ix.entries "<=" b) := by
      unfold Index.find
      rw [hft, if_pos rfl, hm]
      show (match parseNum s with
        | some n => Except.ok (rangeQuery ix.entries "<=" n)
        | none => Except.error ("Invalid numeric query: " ++ ("<=" ++ s))) =
        Except.ok (rangeQuery ix.entries "<=" b)
      rw [hp]
    rw [h0, rangeQuery_le hs hh]

/-- A concrete sorted number index used to witness C5. -/
def c5ix : Index :=
  ⟨"age", .number, false,
    [⟨.num 1, "a"⟩, ⟨.num 2, "b"⟩, ⟨.num 2, "c"⟩, ⟨.num 3, "d"⟩]⟩

theorem C5_number_range_find_witness :
    c5ix.find ">2" = .ok ["d"] ∧
    c5ix.find ">=2" = .ok ["b", "c", "d"] ∧
    c5ix.find "<2" = .ok ["a"] ∧
    c5ix.find "<=2" = .ok ["a", "b", "c"] := by
  have h := C5_number_range_find c5ix rfl (by decide) (by decide) "2" 2 (by decide)
  exact ⟨(h.1 (by decide)).trans (by decide),
    (h.2.1 (by decide)).trans (by decide),
    (h.2.2.1 (by decide)).trans (by decide),
    (h.2.2.2 (by decide)).trans (by decide)⟩

/-! ### Claim C10 -/

/-- C10: on a string-field index, the query `"%"` does not raise and is
not treated as a contains query (the both-ends-wildcard branch requires
length greater than 1): it is dispatched as a prefix query with the
empty prefix and returns the identifier of every entry in the index. -/
theorem C10_single_percent_returns_all (ix : Index)
    (hft : ix.fieldType = .string)
    (_hh : ∀ e ∈ ix.entries, e.value.typeOf = .string) :
    ix.find "%" = .ok (ix.entries.map (·.id)) := by
  have h0 : ix.find "%" =
      .ok (prefixQuery ix.ignoreCase ix.entries (("%" : String).dropRight 1)) := by
    unfold Index.find
    rw [hft, if_neg (by decide), if_neg (by decide), if_neg (by decide),
      if_pos (by decide)]
  rw [h0, show ("%" : String).dropRight 1 = "" from by decide,
    prefixQuery_empty]

/-- A concrete case-folding string index used to witness C10. -/
def c10ix : Index :=
  ⟨"name", .string, true, [⟨.str "ann", "x"⟩, ⟨.str "bob", "y"⟩]⟩

theorem C10_single_percent_returns_all_witness :
    c10ix.find "%" = .ok ["x", "y"] :=
  (C10_single_percent_returns_all c10ix rfl (by decide)).trans (by decide)

/-! ### Claim C9 -/

/-- C9 (amended): on a number-field index, `find` raises an error exactly
when the JS `Number` conversion of the query — after stripping a range
operator per the code's greedy regex match — yields NaN; in particular
the empty query converts to `0` and is answered as an exact search for
`0` rather than raising.  On a boolean-field index, `find` raises an
error exactly when the query is neither `"true"` nor `"false"`. -/
theorem C9_query_error_conditions (ix : Index) (q : String) :
    (ix.fieldType = .number →
      ((∃ e, ix.find q = .error e) ↔
        (match matchRangeOp q with
         | some opRest => parseNum opRest.2 = none
         | none => parseNum q = none))) ∧
    (ix.fieldType = .boolean →
      ((∃ e, ix.find q = .error e) ↔ (q ≠ "true" ∧ q ≠ "false"))) ∧
    (ix.fieldType = .number →
      ix.find "" = .ok (exactQuery ix.entries (.num 0))) := by
  refine ⟨fun hft => ?_, fun hft => ?_, fun hft => ?_⟩
  · cases hm : matchRangeOp q with
    | some opRest =>
      show _ ↔ (parseNum opRest.2 = none)
      cases hp : parseNum opRest.2 with
      | some n =>
        have h0 : ix.find q = .ok (rangeQuery ix.entries opRest.1 n) := by
          unfold Index.find
          rw [hft, if_pos rfl, hm]
          show (match parseNum opRest.2 with
            | some m => Except.ok (rangeQuery ix.entries opRest.1 m)
            | none => Except.error ("Invalid numeric query: " ++ q)) = _
          rw [hp]
        rw [h0]
        simp
      | none =>
        have h0 : ix.find q = .error ("Invalid numeric query: " ++ q) := by
          unfold Index.find
          rw [hft, if_pos rfl, hm]
          show (match parseNum opRest.2 with
            | some m => Except.ok (rangeQuery ix.entries opRest.1 m)
            | none => Except.error ("Invalid numeric query: " ++ q)) = _
          rw [hp]
        rw [h0]
        simp
    | none =>
      show _ ↔ (parseNum q = none)
      cases hp : parseNum q with
      | some n =>
        have h0 : ix.find q = .ok (exactQuery ix.entries (.num n)) := by
          unfold Index.find
          rw [hft, if_pos rfl, hm]
          show (match parseNum q with
            | some m => Except.ok (exactQuery ix.entries (Value.num m))
            | none => Except.error ("Invalid query for number field: " ++ q)) = _
          rw [hp]
        rw [h0]
        simp
      | none =>
        have h0 : ix.find q = .error ("Invalid query for number field: " ++ q) := by
          unfold Index.find
          rw [hft, if_pos rfl, hm]
          show (match parseNum q with
            | some m => Except.ok (exactQuery ix.entries (Value.num m))
            | none => Except.error ("Invalid query for number field: " ++ q)) = _
          rw [hp]
        rw [h0]
        simp
  · by_cases hq1 : q = "true"
    · subst hq1
      have h0 : ix.find "true" = .ok (exactQuery ix.entries (.bool true)) := by
        unfold Index.find
        rw [hft, if_neg (by decide), if_pos rfl, if_pos rfl]
      rw [h0]
      simp
    · by_cases hq2 : q = "false"
      · subst hq2
        have h0 : ix.find "false" = .ok (exactQuery ix.entries (.bool false)) := by
          unfold Index.find
          rw [hft, if_neg (by decide), if_pos rfl, if_neg (by decide), if_pos rfl]
        rw [h0]
        simp
      · have h0 : ix.find q =
            .error ("Invalid query for boolean field: " ++ q ++ " (use true or false)") := by
          unfold Index.find
          rw [hft, if_neg (by decide), if_pos rfl, if_neg hq1, if_neg hq2]
        rw [h0]
        simp [hq1, hq2]
  · have h0 : ix.find "" = .ok (exactQuery ix.entries (.num 0)) := by
      unfold Index.find
      rw [hft, if_pos rfl, show matchRangeOp "" = none from by decide]
      show (match parseNum "" with
        | some m => Except.ok (exactQuery ix.entries (Value.num m))
        | none => Except.error ("Invalid query for number field: " ++ "")) = _
      rw [show parseNum "" = some 0 from by decide]
    exact h0

theorem C9_query_error_conditions_witness :
    ((∃ e, Index.find ⟨"age", .number, false, []⟩ "12" = .error e) ↔ False) ∧
    ((∃ e, Index.find ⟨"age", .number, false, []⟩ ">x" = .error e) ↔ True) ∧
    ((∃ e, Index.find ⟨"ok", .boolean, false, []⟩ "yes" = .error e) ↔ True) := by
  refine ⟨?_, ?_, ?_⟩
  · have h := (C9_query_error_conditions ⟨"age", .number, false, []⟩ "12").1 rfl
    rw [h, show matchRangeOp "12" = none from by decide]
    show (parseNum "12" = none) ↔ False
    decide
  · have h := (C9_query_error_conditions ⟨"age", .number, false, []⟩ ">x").1 rfl
    rw [h, show matchRangeOp ">x" = some (">", "x") from by decide]
    show (parseNum "x" = none) ↔ True
    decide
  · have h := (C9_query_error_conditions ⟨"ok", .boolean, false, []⟩ "yes").2.1 rfl
    rw [h]
    decide

unseal lbAux collectRun in
/-- C9 counterexample: on a number-field index the empty query — not a
numeric literal — does not raise; JS `Number("")` is `0`, so it is an
exact search for `0`. -/
theorem C9_empty_query_no_error :
    Index.find ⟨"age", FType.number, false, [⟨Value.num 0, "a"⟩]⟩ "" =
      .ok ["a"] := by
  decide

/-! ### Claim C2 -/

/-- One call on a single index. -/
inductive IOp where
  | iadd (id : String) (v : Value)
  | irem (id : String) (v : Value)
  deriving DecidableEq, Repr

/-- Apply one index call. -/
def applyIOp (ix : Index) : IOp → Index
  | .iadd id v => ix.add id v
  | .irem id v => ix.remove id v

/-- Run a sequence of add/remove calls on an index. -/
def runIdx (ix : Index) (ops : List IOp) : Index := ops.foldl applyIOp ix

/-- The call's value has the declared field type (validated use). -/
def iopTy (ft : FType) : IOp → Prop
  | .iadd _ v => v.typeOf = ft
  | .irem _ v => v.typeOf = ft

instance (ft : FType) (op : IOp) : Decidable (iopTy ft op) := by
  cases op <;> (unfold iopTy; infer_instance)

theorem add_preserves {ix : Index} {id : String} {v : Value} {ft : FType}
    (hft : ix.fieldType = ft) (hobj : ft ≠ .object)
    (hs : ix.entries.Pairwise entryLe) (hh : homogTy ft ix.entries)
    (hv : v.typeOf = ft) :
    (ix.add id v).entries.Pairwise entryLe ∧
      homogTy ft (ix.add id v).entries := by
  have hnv : (normV ix.ignoreCase v).typeOf = ft := by
    rw [normV_typeOf]; exact hv
  constructor
  · exact insert_lb_sorted hs hh hnv hobj
  · exact homog_insert hh hnv

theorem remove_preserves {ix : Index} {id : String} {v : Value} {ft : FType}
    (hs : ix.entries.Pairwise entryLe) (hh : homogTy ft ix.entries) :
    (ix.remove id v).entries.Pairwise entryLe ∧
      homogTy ft (ix.remove id v).entries := by
  have hsub : (ix.remove id v).entries.Sublist ix.entries :=
    removeFrom_sublist _ _ _ _
  exact ⟨hs.sublist hsub, fun e he => hh e (hsub.mem he)⟩

theorem runIdx_inv {ft : FType} (hobj : ft ≠ .object) :
    ∀ (ops : List IOp) (ix : Index), ix.fieldType = ft →
    ix.entries.Pairwise entryLe → homogTy ft ix.entries →
    (∀ op ∈ ops, iopTy ft op) →
    (runIdx ix ops).fieldType = ft ∧
    (runIdx ix ops).entries.Pairwise entryLe ∧
    homogTy ft (runIdx ix ops).entries := by
  intro ops
  induction ops with
  | nil => intro ix hft hs hh _; exact ⟨hft, hs, hh⟩
  | cons op rest ih =>
    intro ix hft hs hh hops
    have hop := hops op (List.mem_cons_self _ _)
    have hrest := fun o ho => hops o (List.mem_cons_of_mem _ ho)
    cases op with
    | iadd id v =>
      have h := @add_preserves ix id v ft hft hobj hs hh hop
      exact ih (ix.add id v) hft h.1 h.2 hrest
    | irem id v =>
      have h := @remove_preserves ix id v ft hs hh
      exact ih (ix.remove id v) hft h.1 h.2 hrest

/-- C2 (amended): starting from a freshly constructed index, after any
sequence of typed add/remove calls the entry sequence is sorted
ascending by normalized value; and `add` always inserts at the lower
bound — strictly after the entries below the new normalized value, hence
before every existing entry sharing it — so entries with equal
normalized value sit in reverse insertion order (most recently inserted
first). -/
theorem C2_sorted_and_ties_newest_first (ft : FType) (hobj : ft ≠ .object)
    (f : String) (ic : Option Bool) (ops : List IOp)
    (hops : ∀ op ∈ ops, iopTy ft op) :
    (runIdx (mkIndex f ft ic) ops).entries.Pairwise entryLe ∧
    (∀ ix : Index, ix.fieldType = ft → ix.entries.Pairwise entryLe →
      homogTy ft ix.entries → ∀ (id : String) (v : Value), v.typeOf = ft →
      (ix.add id v).entries =
        ix.entries.take (lowerBound ix.entries (normV ix.ignoreCase v)) ++
          ⟨normV ix.ignoreCase v, id⟩ ::
          ix.entries.drop (lowerBound ix.entries (normV ix.ignoreCase v)) ∧
      ∀ e ∈ ix.entries.take (lowerBound ix.entries (normV ix.ignoreCase v)),
        vlt e.value (normV ix.ignoreCase v) = true) := by
  constructor
  · exact (runIdx_inv hobj ops (mkIndex f ft ic) rfl (by simp [mkIndex])
      (by intro e he; simp [mkIndex] at he) hops).2.1
  · intro ix hft hs hh id v hv
    have hnv : (normV ix.ignoreCase v).typeOf = ft := by
      rw [normV_typeOf]; exact hv
    refine ⟨rfl, ?_⟩
    exact mem_take_lb hs hh hnv hobj

unseal lbAux in
/-- A C2 witness: two typed calls on a number index, checked concretely. -/
theorem C2_sorted_and_ties_newest_first_witness :
    (runIdx (mkIndex "age" .number none)
        [.iadd "a" (.num 5), .iadd "b" (.num 5)]).entries.Pairwise entryLe ∧
    (runIdx (mkIndex "age" .number none)
        [.iadd "a" (.num 5), .iadd "b" (.num 5)]).entries =
      [⟨.num 5, "b"⟩, ⟨.num 5, "a"⟩] := by
  have h := C2_sorted_and_ties_newest_first .number (by decide) "age" none
    [.iadd "a" (.num 5), .iadd "b" (.num 5)] (by decide)
  exact ⟨h.1, by decide⟩

unseal lbAux in
/-- C2 counterexample: the identifier `"a"` is inserted before `"b"`
with the same value, yet ends up after it — ties are in reverse
insertion order, not insertion order as claimed. -/
theorem C2_ties_not_insertion_order :
    ((mkIndex "age" .number none).add "a" (.num 5) |>.add "b" (.num 5)).entries =
      [⟨.num 5, "b"⟩, ⟨.num 5, "a"⟩] := by
  decide

/-! ### Claim C4 -/

theorem alGet_of_mem_nodup {α : Type} {l : List (String × α)}
    (hnd : (l.map (·.1)).Nodup) {f : String} {d : α} (h : (f, d) ∈ l) :
    alGet l f = some d := by
  induction l with
  | nil => cases h
  | cons hd tl ih =>
    rw [List.map_cons, List.nodup_cons] at hnd
    rcases List.mem_cons.mp h with h1 | h1
    · subst h1
      simp [alGet]
    · have hne : hd.1 ≠ f := by
        intro hcon
        apply hnd.1
        rw [hcon]
        exact List.mem_map.mpr ⟨(f, d), h1, rfl⟩
      unfold alGet at ih ⊢
      rw [List.find?_cons_of_neg _ (by simpa using hne)]
      exact ih hnd.2 h1

theorem alGet_mem {α : Type} {l : List (String × α)} {f : String} {d : α}
    (h : alGet l f = some d) : (f, d) ∈ l := by
  unfold alGet at h
  cases hf : l.find? (fun p => p.1 = f) with
  | none => rw [hf] at h; cases h
  | some p =>
    rw [hf] at h
    have hp := List.find?_some hf
    have hmem := List.mem_of_find?_eq_some hf
    simp at h hp
    rw [← h, ← hp]
    exact hmem

theorem alGet_isSome_of_mem_keys {α : Type} {l : List (String × α)} {f : String}
    (h : f ∈ l.map (·.1)) : ∃ d, alGet l f = some d := by
  obtain ⟨p, hp, hf⟩ := List.mem_map.mp h
  cases hg : alGet l f with
  | some d => exact ⟨d, rfl⟩
  | none =>
    exfalso
    unfold alGet at hg
    rw [Option.map_eq_none'] at hg
    have := List.find?_eq_none.mp hg p hp
    simp [hf] at this

/-- One field's definition differs in the aspects the claim lists:
declared type, effective indexed flag, or raw case-folding setting. -/
def fieldDiff (cd sd : FieldDef) : Prop :=
  cd.type ≠ sd.type ∨ cd.index.getD false ≠ sd.index.getD false ∨
    cd.ignoreCase ≠ sd.ignoreCase

instance (cd sd : FieldDef) : Decidable (fieldDiff cd sd) := by
  unfold fieldDiff; infer_instance

/-- The claim's notion of schema difference: the field name sets differ,
or some shared field differs in type, indexed flag or case-folding
setting.  (This is the specification-side definition, to be compared
with the code's `schemasMatch`.) -/
def schemaDiffers (current stored : Schema) : Prop :=
  (∃ f ∈ current.map (·.1), f ∉ stored.map (·.1)) ∨
  (∃ f ∈ stored.map (·.1), f ∉ current.map (·.1)) ∨
  (∃ fd ∈ current, ∃ sd ∈ stored, fd.1 = sd.1 ∧ fieldDiff fd.2 sd.2)

instance (current stored : Schema) : Decidable (schemaDiffers current stored) := by
  unfold schemaDiffers; infer_instance

set_option maxHeartbeats 2000000 in
theorem schemasMatch_iff_not_differs (current stored : Schema)
    (hc : (current.map (·.1)).Nodup) (hsd : (stored.map (·.1)).Nodup) :
    schemasMatch current stored = true ↔ ¬ schemaDiffers current stored := by
  unfold schemasMatch
  rw [Bool.and_eq_true, decide_eq_true_eq, List.all_eq_true]
  constructor
  · rintro ⟨hlen, hall⟩
    have hkeq : (current.map (·.1)).mergeSort (fun a b => a ≤ b) =
        (stored.map (·.1)).mergeSort (fun a b => a ≤ b) := by
      apply List.ext_getElem hlen
      intro i h1 h2
      have hzl : i < (((current.map (·.1)).mergeSort (fun a b => a ≤ b)).zip
          ((stored.map (·.1)).mergeSort (fun a b => a ≤ b))).length := by
        rw [List.length_zip]
        omega
      have hz : ((((current.map (·.1)).mergeSort (fun a b => a ≤ b)).zip
          ((stored.map (·.1)).mergeSort (fun a b => a ≤ b)))[i]) =
          (((current.map (·.1)).mergeSort (fun a b => a ≤ b))[i],
           ((stored.map (·.1)).mergeSort (fun a b => a ≤ b))[i]) :=
        List.getElem_zip
      have hmemz : (((current.map (·.1)).mergeSort (fun a b => a ≤ b))[i],
          ((stored.map (·.1)).mergeSort (fun a b => a ≤ b))[i]) ∈
          (((current.map (·.1)).mergeSort (fun a b => a ≤ b)).zip
            ((stored.map (·.1)).mergeSort (fun a b => a ≤ b))) := by
        rw [← hz]
        exact List.getElem_mem _
      have := hall _ hmemz
      rw [Bool.and_eq_true, decide_eq_true_eq] at this
      exact this.1
    have hmemkeys : ∀ f, f ∈ current.map (·.1) ↔ f ∈ stored.map (·.1) := by
      intro f
      rw [← (List.mergeSort_perm (current.map (·.1)) (fun a b => a ≤ b)).mem_iff,
        ← (List.mergeSort_perm (stored.map (·.1)) (fun a b => a ≤ b)).mem_iff,
        hkeq]
    intro hdiff
    rcases hdiff with ⟨f, hf1, hf2⟩ | ⟨f, hf1, hf2⟩ | ⟨fd, hfd, sd, hsd2, hname, hdf⟩
    · exact hf2 ((hmemkeys f).mp hf1)
    · exact hf2 ((hmemkeys f).mpr hf1)
    · have hfk : fd.1 ∈ (current.map (·.1)).mergeSort (fun a b => a ≤ b) := by
        rw [(List.mergeSort_perm _ _).mem_iff]
        exact List.mem_map.mpr ⟨fd, hfd, rfl⟩
      obtain ⟨i, hi, hie⟩ := List.getElem_of_mem hfk
      have hi2 : i < ((stored.map (·.1)).mergeSort (fun a b => a ≤ b)).length := by
        omega
      have hzl : i < (((current.map (·.1)).mergeSort (fun a b => a ≤ b)).zip
          ((stored.map (·.1)).mergeSort (fun a b => a ≤ b))).length := by
        rw [List.length_zip]
        omega
      have hz : ((((current.map (·.1)).mergeSort (fun a b => a ≤ b)).zip
          ((stored.map (·.1)).mergeSort (fun a b => a ≤ b)))[i]) =
          (((current.map (·.1)).mergeSort (fun a b => a ≤ b))[i],
           ((stored.map (·.1)).mergeSort (fun a b => a ≤ b))[i]) :=
        List.getElem_zip
      have hmemz : (((current.map (·.1)).mergeSort (fun a b => a ≤ b))[i],
          ((stored.map (·.1)).mergeSort (fun a b => a ≤ b))[i]) ∈
          (((current.map (·.1)).mergeSort (fun a b => a ≤ b)).zip
            ((stored.map (·.1)).mergeSort (fun a b => a ≤ b))) := by
        rw [← hz]
        exact List.getElem_mem _
      have hp := hall _ hmemz
      rw [Bool.and_eq_true, decide_eq_true_eq] at hp
      have hkeq2 : ((stored.map (·.1)).mergeSort (fun a b => a ≤ b))[i] =
          fd.1 := (List.getElem_of_eq hkeq hi).symm.trans hie
      rw [hie, hkeq2] at hp
      have hget1 : alGet current fd.1 = some fd.2 := by
        apply alGet_of_mem_nodup hc
        exact hfd
      have hget2 : alGet stored fd.1 = some sd.2 := by
        apply alGet_of_mem_nodup hsd
        rw [hname]
        exact hsd2
      rw [hget1, hget2] at hp
      have hp2 := hp.2
      simp only [Bool.and_eq_true, decide_eq_true_eq] at hp2
      unfold fieldDiff at hdf
      tauto
  · intro hnd
    push_neg at hnd
    unfold schemaDiffers at hnd
    push_neg at hnd
    obtain ⟨h1, h2, h3⟩ := hnd
    have hperm : (current.map (·.1)).Perm (stored.map (·.1)) := by
      apply List.perm_of_nodup_nodup_toFinset_eq hc hsd
      ext f
      simp only [List.mem_toFinset]
      constructor
      · intro hf
        exact h1 f hf
      · intro hf
        exact h2 f hf
    have hkeq : (current.map (·.1)).mergeSort (fun a b => a ≤ b) =
        (stored.map (·.1)).mergeSort (fun a b => a ≤ b) := by
      apply List.eq_of_perm_of_sorted (r := (· ≤ · : String → String → Prop))
      · exact ((List.mergeSort_perm _ _).trans hperm).trans
          (List.mergeSort_perm _ _).symm
      · have := @List.sorted_mergeSort _ (fun a b : String => a ≤ b)
          (fun a b c h1 h2 => by
            simp only [decide_eq_true_eq] at *
            exact le_trans h1 h2)
          (fun a b => by
            simp only [Bool.or_eq_true, decide_eq_true_eq]
            exact le_total a b)
          (current.map (·.1))
        exact List.Pairwise.imp (fun {a b} h => by simpa using h) this
      · have := @List.sorted_mergeSort _ (fun a b : String => a ≤ b)
          (fun a b c h1 h2 => by
            simp only [decide_eq_true_eq] at *
            exact le_trans h1 h2)
          (fun a b => by
            simp only [Bool.or_eq_true, decide_eq_true_eq]
            exact le_total a b)
          (stored.map (·.1))
        exact List.Pairwise.imp (fun {a b} h => by simpa using h) this
    refine ⟨by rw [hkeq], ?_⟩
    intro p hp
    rw [hkeq] at hp
    rw [Bool.and_eq_true, decide_eq_true_eq]
    obtain ⟨i, hilt, hie⟩ := List.getElem_of_mem hp
    have hb : i < ((stored.map (·.1)).mergeSort (fun a b => a ≤ b)).length := by
      rw [List.length_zip] at hilt
      omega
    have hz : (((stored.map (·.1)).mergeSort (fun a b => a ≤ b)).zip
        ((stored.map (·.1)).mergeSort (fun a b => a ≤ b)))[i] =
        (((stored.map (·.1)).mergeSort (fun a b => a ≤ b))[i],
         ((stored.map (·.1)).mergeSort (fun a b => a ≤ b))[i]) :=
      List.getElem_zip
    rw [hz] at hie
    have hp12 : p.1 = p.2 := by rw [← hie]
    refine ⟨hp12, ?_⟩
    have hpe : p.1 = ((stored.map (·.1)).mergeSort (fun a b => a ≤ b))[i] := by
      rw [← hie]
    have hpk : p.1 ∈ stored.map (·.1) := by
      rw [← (List.mergeSort_perm (stored.map (·.1)) (fun a b => a ≤ b)).mem_iff]
      rw [hpe]
      exact List.getElem_mem _
    have hpc : p.1 ∈ current.map (·.1) := hperm.mem_iff.mpr hpk
    obtain ⟨cd, hcd⟩ := alGet_isSome_of_mem_keys hpc
    obtain ⟨sd, hsd3⟩ := alGet_isSome_of_mem_keys hpk
    rw [hcd, ← hp12, hsd3]
    have hnodiff := h3 (p.1, cd) (alGet_mem hcd) (p.1, sd) (alGet_mem hsd3) rfl
    unfold fieldDiff at hnodiff
    push_neg at hnodiff
    simp only [Bool.and_eq_true, decide_eq_true_eq]
    exact ⟨⟨hnodiff.1, hnodiff.2.1⟩, hnodiff.2.2⟩

/-- C4: constructing a disk-backed collection against a backend holding
a previously recorded schema resets both artifacts to empty exactly when
the stored schema differs from the constructor's in the field name set,
a field's type, a field's (effective) indexed flag, or a field's raw
case-folding setting; when they agree on all four aspects the artifacts
are left untouched. -/
theorem C4_construct_resets_iff_schema_differs (schema : Schema)
    (st : Storage) (m : Meta) (hm : st.metaF = some m)
    (hc : (schema.map (·.1)).Nodup) (hsd : (m.schema.map (·.1)).Nodup) :
    (¬ schemaDiffers schema m.schema → constructFile schema st = st) ∧
    (schemaDiffers schema m.schema →
      constructFile schema st =
        { dataF := some [], metaF := some ⟨schema, []⟩,
          log := st.log ++ [WEv.wData, WEv.wMeta] }) := by
  have h0 : constructFile schema st =
      (if schemasMatch schema m.schema then st
       else writeMetaS (writeDataS st []) (buildMeta schema [])) := by
    unfold constructFile
    rw [hm]
  constructor
  · intro hnd
    rw [h0, if_pos ((schemasMatch_iff_not_differs schema m.schema hc hsd).mpr hnd)]
  · intro hd
    have hne : ¬ schemasMatch schema m.schema = true := by
      intro hcon
      exact (schemasMatch_iff_not_differs schema m.schema hc hsd).mp hcon hd
    rw [h0, if_neg hne]
    unfold writeMetaS writeDataS buildMeta
    simp

/-- A pair of concrete storages witnessing C4: a matching schema keeps
the artifacts, a type change wipes them. -/
def c4meta : Meta :=
  ⟨[("a", { type := .string, index := some true })], [("a", [⟨.str "x", "i"⟩])]⟩

/-- A concrete storage with data and the meta `c4meta`. -/
def c4st : Storage :=
  ⟨some [("i", [("a", .str "x")])], some c4meta, []⟩

theorem C4_construct_resets_iff_schema_differs_witness :
    constructFile [("a", { type := .string, index := some true })] c4st = c4st ∧
    constructFile [("a", { type := .number, index := some true })] c4st =
      { dataF := some [],
        metaF := some ⟨[("a", { type := .number, index := some true })], []⟩,
        log := c4st.log ++ [WEv.wData, WEv.wMeta] } := by
  constructor
  · exact (C4_construct_resets_iff_schema_differs
      [("a", { type := .string, index := some true })] c4st c4meta rfl
      (by decide) (by decide)).1 (by decide)
  · exact (C4_construct_resets_iff_schema_differs
      [("a", { type := .number, index := some true })] c4st c4meta rfl
      (by decide) (by decide)).2 (by decide)

/-! ### Claim C3 -/

theorem schemasMatch_refl (s : Schema) : schemasMatch s s = true := by
  unfold schemasMatch
  rw [Bool.and_eq_true, List.all_eq_true]
  refine ⟨by simp, ?_⟩
  intro p hp
  obtain ⟨i, hilt, hie⟩ := List.getElem_of_mem hp
  have hb : i < ((s.map (·.1)).mergeSort (fun a b => a ≤ b)).length := by
    rw [List.length_zip] at hilt
    omega
  have hz : (((s.map (·.1)).mergeSort (fun a b => a ≤ b)).zip
      ((s.map (·.1)).mergeSort (fun a b => a ≤ b)))[i] =
      (((s.map (·.1)).mergeSort (fun a b => a ≤ b))[i],
       ((s.map (·.1)).mergeSort (fun a b => a ≤ b))[i]) :=
    List.getElem_zip
  rw [hz] at hie
  have hp12 : p.1 = p.2 := by rw [← hie]
  have hpk : p.1 ∈ s.map (·.1) := by
    rw [← (List.mergeSort_perm (s.map (·.1)) (fun a b => a ≤ b)).mem_iff]
    rw [show p.1 = ((s.map (·.1)).mergeSort (fun a b => a ≤ b))[i] from by rw [← hie]]
    exact List.getElem_mem _
  obtain ⟨d, hd⟩ := alGet_isSome_of_mem_keys hpk
  rw [Bool.and_eq_true, decide_eq_true_eq]
  refine ⟨hp12, ?_⟩
  rw [hd, ← hp12, hd]
  simp

/-- The schema recorded in the meta artifact matches the collection's
schema — the invariant the constructor establishes and every operation
maintains. -/
def MetaOk (schema : Schema) (st : Storage) : Prop :=
  ∃ m, st.metaF = some m ∧ schemasMatch schema m.schema = true

theorem metaOk_writeMetaS (schema : Schema) (st : Storage)
    (ixs : List (String × Index)) :
    MetaOk schema (writeMetaS st (buildMeta schema ixs)) :=
  ⟨buildMeta schema ixs, rfl, schemasMatch_refl schema⟩

theorem metaOk_writeDataS {schema : Schema} {st : Storage}
    (h : MetaOk schema st) (d : List (String × Rec)) :
    MetaOk schema (writeDataS st d) := by
  obtain ⟨m, hm, hmt⟩ := h
  exact ⟨m, hm, hmt⟩

theorem constructFile_metaOk (schema : Schema) (st : Storage) :
    MetaOk schema (constructFile schema st) := by
  unfold constructFile
  cases hm : st.metaF with
  | some m =>
    show MetaOk schema (if schemasMatch schema m.schema = true then st
      else writeMetaS (writeDataS st []) (buildMeta schema []))
    by_cases hmt : schemasMatch schema m.schema = true
    · rw [if_pos hmt]
      exact ⟨m, hm, hmt⟩
    · rw [if_neg hmt]
      exact metaOk_writeMetaS schema _ []
  | none => exact metaOk_writeMetaS schema _ []

theorem applyFile_metaOk {schema : Schema} {st : Storage}
    (h : MetaOk schema st) (op : Op) :
    MetaOk schema (applyFile schema st op) := by
  cases op with
  | add id r =>
    simp only [applyFile, fileAdd]
    cases hv : validateRecord (applyDefaults schema r) schema false with
    | error e => exact h
    | ok u => exact metaOk_writeMetaS schema _ _
  | addMany ids rs =>
    simp only [applyFile, fileAddMany]
    cases hv : validateAll schema (ids.zip rs) with
    | error e => exact h
    | ok validated => exact metaOk_writeMetaS schema _ _
  | update id patch =>
    simp only [applyFile, fileUpdate]
    cases hv : validateRecord patch schema true with
    | error e => exact h
    | ok u =>
      cases hd : alGet (readDataC st) id with
      | none => exact h
      | some existing => exact metaOk_writeMetaS schema _ _
  | remove id =>
    simp only [applyFile, fileRemove]
    cases hd : alGet (readDataC st) id with
    | none => exact h
    | some existing => exact metaOk_writeMetaS schema _ _
  | clear =>
    simp only [applyFile, fileClear]
    exact metaOk_writeMetaS schema _ _

theorem runFile_metaOk {schema : Schema} {st : Storage}
    (h : MetaOk schema st) (ops : List Op) :
    MetaOk schema (runFile schema st ops) := by
  induction ops generalizing st with
  | nil => exact h
  | cons op rest ih => exact ih (applyFile_metaOk h op)

theorem constructFile_id_of_metaOk {schema : Schema} {st : Storage}
    (h : MetaOk schema st) : constructFile schema st = st := by
  obtain ⟨m, hm, hmt⟩ := h
  unfold constructFile
  rw [hm]
  show (if schemasMatch schema m.schema = true then st
    else writeMetaS (writeDataS st []) (buildMeta schema [])) = st
  rw [if_pos hmt]

/-- C3: after a first disk-backed instance has constructed against a
path and completed any sequence of mutations, a second construction
against the same path with an identical schema leaves the artifacts
untouched, so its `get`, `all` and `find` answer exactly as the first
instance would — without re-running the mutations. -/
theorem C3_second_instance_observes_all (schema : Schema) (st0 : Storage)
    (ops : List Op) :
    constructFile schema (runFile schema (constructFile schema st0) ops) =
      runFile schema (constructFile schema st0) ops ∧
    (∀ id, fileGet (constructFile schema
        (runFile schema (constructFile schema st0) ops)) id =
      fileGet (runFile schema (constructFile schema st0) ops) id) ∧
    fileAll (constructFile schema (runFile schema (constructFile schema st0) ops)) =
      fileAll (runFile schema (constructFile schema st0) ops) ∧
    (∀ q, fileFind schema (constructFile schema
        (runFile schema (constructFile schema st0) ops)) q =
      fileFind schema (runFile schema (constructFile schema st0) ops) q) := by
  have h := constructFile_id_of_metaOk
    (runFile_metaOk (constructFile_metaOk schema st0) ops)
  exact ⟨h, fun id => by rw [h], by rw [h], fun q => by rw [h]⟩

/-! ### Claim C7 -/

/-- C7: every mutating operation that fails with a record-validation or
not-found error carries, at the moment of the throw, exactly the state
it started from — no data, index or artifact mutation has happened; in
particular `addMany` validates the whole batch before applying any of
it. -/
theorem C7_failures_leave_state_untouched (schema : Schema) :
    (∀ (s : ColState) (id : String) (r : Rec) (e : String) (s' : ColState),
      memAdd schema s id r = .error (e, s') → s' = s) ∧
    (∀ (s : ColState) (ids : List String) (rs : List Rec) (e : String)
      (s' : ColState), memAddMany schema s ids rs = .error (e, s') → s' = s) ∧
    (∀ (s : ColState) (id : String) (patch : Rec) (e : String) (s' : ColState),
      memUpdate schema s id patch = .error (e, s') → s' = s) ∧
    (∀ (s : ColState) (id : String) (e : String) (s' : ColState),
      memRemove s id = .error (e, s') → s' = s) ∧
    (∀ (st : Storage) (id : String) (r : Rec) (e : String) (st' : Storage),
      fileAdd schema st id r = .error (e, st') → st' = st) ∧
    (∀ (st : Storage) (ids : List String) (rs : List Rec) (e : String)
      (st' : Storage), fileAddMany schema st ids rs = .error (e, st') → st' = st) ∧
    (∀ (st : Storage) (id : String) (patch : Rec) (e : String) (st' : Storage),
      fileUpdate schema st id patch = .error (e, st') → st' = st) ∧
    (∀ (st : Storage) (id : String) (e : String) (st' : Storage),
      fileRemove schema st id = .error (e, st') → st' = st) := by
  refine ⟨?_, ?_, ?_, ?_, ?_, ?_, ?_, ?_⟩
  · intro s id r e s' h
    simp only [memAdd] at h
    cases hv : validateRecord (applyDefaults schema r) schema false with
    | error e0 => rw [hv] at h; simp at h; exact h.2.symm
    | ok u => rw [hv] at h; simp at h
  · intro s ids rs e s' h
    simp only [memAddMany] at h
    cases hv : validateAll schema (ids.zip rs) with
    | error e0 => rw [hv] at h; simp at h; exact h.2.symm
    | ok v => rw [hv] at h; simp at h
  · intro s id patch e s' h
    simp only [memUpdate] at h
    cases hv : validateRecord patch schema true with
    | error e0 => rw [hv] at h; simp at h; exact h.2.symm
    | ok u =>
      rw [hv] at h
      cases hd : alGet s.data id with
      | none => rw [hd] at h; simp at h; exact h.2.symm
      | some existing => rw [hd] at h; simp at h
  · intro s id e s' h
    simp only [memRemove] at h
    cases hd : alGet s.data id with
    | none => rw [hd] at h; simp at h; exact h.2.symm
    | some existing => rw [hd] at h; simp at h
  · intro st id r e st' h
    simp only [fileAdd] at h
    cases hv : validateRecord (applyDefaults schema r) schema false with
    | error e0 => rw [hv] at h; simp at h; exact h.2.symm
    | ok u => rw [hv] at h; simp at h
  · intro st ids rs e st' h
    simp only [fileAddMany] at h
    cases hv : validateAll schema (ids.zip rs) with
    | error e0 => rw [hv] at h; simp at h; exact h.2.symm
    | ok v => rw [hv] at h; simp at h
  · intro st id patch e st' h
    simp only [fileUpdate] at h
    cases hv : validateRecord patch schema true with
    | error e0 => rw [hv] at h; simp at h; exact h.2.symm
    | ok u =>
      rw [hv] at h
      cases hd : alGet (readDataC st) id with
      | none => rw [hd] at h; simp at h; exact h.2.symm
      | some existing => rw [hd] at h; simp at h
  · intro st id e st' h
    simp only [fileRemove] at h
    cases hd : alGet (readDataC st) id with
    | none => rw [hd] at h; simp at h; exact h.2.symm
    | some existing => rw [hd] at h; simp at h

/-- The schema of the concrete C7 witness collection. -/
def sch7 : Schema := [("a", { type := .string, index := some true })]

theorem C7_failures_leave_state_untouched_witness :
    memAdd sch7 (initMem sch7) "i1" [] =
      .error ("Missing required field a", initMem sch7) ∧
    initMem sch7 = initMem sch7 := by
  constructor
  · decide
  · exact (C7_failures_leave_state_untouched sch7).1 (initMem sch7) "i1" []
      "Missing required field a" (initMem sch7) (by decide)

/-! ### Round-trip infrastructure for the file mode -/

theorem foldl_append_filter {α β : Type} (P : α → Bool) (g : α → β) :
    ∀ (l : List α) (acc : List β),
      l.foldl (fun acc x => if P x then acc ++ [g x] else acc) acc =
        acc ++ (l.filter P).map g := by
  intro l
  induction l with
  | nil => intro acc; simp
  | cons hd tl ih =>
    intro acc
    by_cases hp : P hd
    · rw [List.foldl_cons, if_pos hp, ih, List.filter_cons, if_pos hp]
      simp
    · rw [List.foldl_cons, if_neg hp, ih, List.filter_cons, if_neg (by simpa using hp)]

theorem buildIndexes_eq (schema : Schema) :
    buildIndexes schema =
      (indexedDefs schema).map (fun fd => (fd.1, mkIndex fd.1 fd.2.type fd.2.ignoreCase)) := by
  unfold buildIndexes indexedDefs
  rw [foldl_append_filter, List.nil_append]

theorem initMem_eq (schema : Schema) :
    initMem schema = ⟨[], buildIndexes schema⟩ := by
  unfold initMem buildIndexes
  rfl

theorem loadIndexes_eq_some (schema : Schema) (st : Storage) (m : Meta)
    (hm : st.metaF = some m) :
    loadIndexesFromMeta schema st =
      (indexedDefs schema).map (fun fd => (fd.1,
        match alGet m.indexes fd.1 with
        | some es => Index.fromEntries fd.1 fd.2.type (fd.2.ignoreCase.getD false) es
        | none => mkIndex fd.1 fd.2.type fd.2.ignoreCase)) := by
  unfold loadIndexesFromMeta indexedDefs
  rw [hm]
  show schema.foldl (fun acc fd =>
      if fd.2.index.getD false then
        acc ++ [(fd.1,
          match alGet m.indexes fd.1 with
          | some es => Index.fromEntries fd.1 fd.2.type (fd.2.ignoreCase.getD false) es
          | none => mkIndex fd.1 fd.2.type fd.2.ignoreCase)]
      else acc) [] = _
  rw [foldl_append_filter, List.nil_append]

theorem loadIndexes_shape (schema : Schema) (st : Storage) :
    (loadIndexesFromMeta schema st).map ixShape =
      (indexedDefs schema).map expShape := by
  cases hm : st.metaF with
  | none =>
    unfold loadIndexesFromMeta
    rw [hm, buildIndexes_eq, List.map_map]
    apply List.map_congr_left
    intro fd _
    simp only [Function.comp_apply]
    rfl
  | some m =>
    rw [loadIndexes_eq_some schema st m hm, List.map_map]
    apply List.map_congr_left
    intro fd _
    simp only [Function.comp_apply]
    cases alGet m.indexes fd.1 <;> rfl

theorem addToIndexes_shape (ixs : List (String × Index)) (id : String) (r : Rec) :
    (addToIndexes ixs id r).map ixShape = ixs.map ixShape := by
  unfold addToIndexes
  rw [List.map_map]
  apply List.map_congr_left
  intro p _
  simp only [Function.comp_apply]
  cases alGet r p.1 <;> rfl

theorem updateIndexes_shape (ixs : List (String × Index)) (id : String)
    (old patch : Rec) :
    (updateIndexes ixs id old patch).map ixShape = ixs.map ixShape := by
  unfold updateIndexes
  rw [List.map_map]
  apply List.map_congr_left
  intro p _
  simp only [Function.comp_apply]
  cases alGet patch p.1 with
  | none => rfl
  | some nv => cases alGet old p.1 <;> rfl

theorem removeFromIndexes_shape (ixs : List (String × Index)) (id : String) (r : Rec) :
    (removeFromIndexes ixs id r).map ixShape = ixs.map ixShape := by
  unfold removeFromIndexes
  rw [List.map_map]
  apply List.map_congr_left
  intro p _
  simp only [Function.comp_apply]
  cases alGet r p.1 <;> rfl

theorem indexedDefs_keys_nodup {schema : Schema}
    (hnd : (schema.map (·.1)).Nodup) :
    ((indexedDefs schema).map (·.1)).Nodup := by
  unfold indexedDefs
  exact (List.Sublist.map _ (List.filter_sublist _)).nodup hnd

theorem loadIndexes_roundtrip {schema : Schema}
    (hnd : (schema.map (·.1)).Nodup) {ixs : List (String × Index)}
    (hwf : ixs.map ixShape = (indexedDefs schema).map expShape) (st : Storage) :
    loadIndexesFromMeta schema (writeMetaS st (buildMeta schema ixs)) = ixs := by
  rw [loadIndexes_eq_some schema _ (buildMeta schema ixs) rfl]
  have hlen : ixs.length = (indexedDefs schema).length := by
    have := congrArg List.length hwf
    simpa using this
  have hkeys : ixs.map (·.1) = (indexedDefs schema).map (·.1) := by
    have h1 : ixs.map (·.1) = (ixs.map ixShape).map (·.1) := by
      rw [List.map_map]; rfl
    have h2 : (indexedDefs schema).map (·.1) =
        ((indexedDefs schema).map expShape).map (·.1) := by
      rw [List.map_map]; rfl
    rw [h1, h2, hwf]
  apply List.ext_getElem (by simpa using hlen.symm)
  intro i h1 h2
  have hi : i < ixs.length := by simpa using h2
  have hid : i < (indexedDefs schema).length := by simpa using h1
  rw [List.getElem_map]
  have hshape : ixShape (ixs[i]) = expShape ((indexedDefs schema)[i]) := by
    have := congrArg (fun l => l[i]?) hwf
    simp only [List.getElem?_map] at this
    rw [List.getElem?_eq_getElem hi, List.getElem?_eq_getElem hid] at this
    simpa using this
  unfold ixShape expShape at hshape
  have hname : (ixs[i]).1 = ((indexedDefs schema)[i]).1 := by
    have := congrArg (fun t => t.1) hshape
    simpa using this
  have hfield : (ixs[i]).2.field = ((indexedDefs schema)[i]).1 := by
    have := congrArg (fun t => t.2.1) hshape
    simpa using this
  have hty : (ixs[i]).2.fieldType = ((indexedDefs schema)[i]).2.type := by
    have := congrArg (fun t => t.2.2.1) hshape
    simpa using this
  have hic : (ixs[i]).2.ignoreCase =
      ((indexedDefs schema)[i]).2.ignoreCase.getD false := by
    have := congrArg (fun t => t.2.2.2) hshape
    simpa using this
  have hser : alGet (buildMeta schema ixs).indexes ((indexedDefs schema)[i]).1 =
      some (ixs[i]).2.entries := by
    apply alGet_of_mem_nodup
    · show ((ixs.map (fun p => (p.1, p.2.serialize))).map (·.1)).Nodup
      have : (ixs.map (fun p => (p.1, p.2.serialize))).map (·.1) = ixs.map (·.1) := by
        rw [List.map_map]; rfl
      rw [this, hkeys]
      exact indexedDefs_keys_nodup hnd
    · show (((indexedDefs schema)[i]).1, (ixs[i]).2.serialize) ∈
        ixs.map (fun p => (p.1, p.2.serialize))
      rw [← hname]
      exact List.mem_map.mpr ⟨ixs[i], List.getElem_mem _, rfl⟩
  rw [hser]
  refine Prod.ext hname.symm ?_
  show Index.fromEntries ((indexedDefs schema)[i]).1
      ((indexedDefs schema)[i]).2.type
      (((indexedDefs schema)[i]).2.ignoreCase.getD false)
      (ixs[i]).2.entries = (ixs[i]).2
  rw [← hfield, ← hty, ← hic]
  rfl

/-! ### Claim C8 -/

/-- Folding a batch of defaulted records into the data map. -/
def addDataFold (zl : List (String × Rec)) (d : List (String × Rec)) :
    List (String × Rec) :=
  zl.foldl (fun acc p => mapSet acc p.1 p.2) d

/-- Folding a batch of defaulted records into the indexes. -/
def addIxsFold (zl : List (String × Rec)) (ixs : List (String × Index)) :
    List (String × Index) :=
  zl.foldl (fun acc p => addToIndexes acc p.1 p.2) ixs

/-- Pair each identifier with its defaulted record. -/
def defaulted (schema : Schema) (zl : List (String × Rec)) : List (String × Rec) :=
  zl.map (fun p => (p.1, applyDefaults schema p.2))

theorem validateAll_ok {schema : Schema} :
    ∀ {zl : List (String × Rec)},
    (∀ p ∈ zl, validateRecord (applyDefaults schema p.2) schema false = .ok ()) →
    validateAll schema zl = .ok (defaulted schema zl) := by
  intro zl
  induction zl with
  | nil => intro _; rfl
  | cons p tl ih =>
    intro hv
    have hp := hv p (List.mem_cons_self _ _)
    simp only [validateAll]
    rw [hp, ih (fun q hq => hv q (List.mem_cons_of_mem _ hq))]
    rfl

theorem addIxsFold_shape (zl : List (String × Rec)) :
    ∀ ixs : List (String × Index),
    (addIxsFold zl ixs).map ixShape = ixs.map ixShape := by
  induction zl with
  | nil => intro ixs; rfl
  | cons p tl ih =>
    intro ixs
    show (addIxsFold tl (addToIndexes ixs p.1 p.2)).map ixShape = _
    rw [ih, addToIndexes_shape]

theorem memFold_eq (zl : List (String × Rec)) :
    ∀ (s : ColState) (docs : List Doc),
    zl.foldl (fun (acc : ColState × List Doc) p =>
        (⟨mapSet acc.1.data p.1 p.2, addToIndexes acc.1.indexes p.1 p.2⟩,
          acc.2 ++ [toDocument p.1 p.2])) (s, docs) =
      (⟨addDataFold zl s.data, addIxsFold zl s.indexes⟩,
        docs ++ zl.map (fun p => toDocument p.1 p.2)) := by
  induction zl with
  | nil => intro s docs; simp [addDataFold, addIxsFold]
  | cons p tl ih =>
    intro s docs
    rw [List.foldl_cons, ih]
    simp [addDataFold, addIxsFold]

theorem fileFold_eq (zl : List (String × Rec)) :
    ∀ (d : List (String × Rec)) (ixs : List (String × Index)) (docs : List Doc),
    zl.foldl (fun (acc : (List (String × Rec)) × (List (String × Index)) × List Doc) p =>
        (mapSet acc.1 p.1 p.2, addToIndexes acc.2.1 p.1 p.2,
          acc.2.2 ++ [toDocument p.1 p.2])) (d, ixs, docs) =
      (addDataFold zl d, addIxsFold zl ixs,
        docs ++ zl.map (fun p => toDocument p.1 p.2)) := by
  induction zl with
  | nil => intro d ixs docs; simp [addDataFold, addIxsFold]
  | cons p tl ih =>
    intro d ixs docs
    rw [List.foldl_cons, ih]
    simp [addDataFold, addIxsFold]

theorem runMem_adds {schema : Schema} :
    ∀ (zl : List (String × Rec)) (s : ColState),
    (∀ p ∈ zl, validateRecord (applyDefaults schema p.2) schema false = .ok ()) →
    runMem schema s (zl.map (fun p => Op.add p.1 p.2)) =
      ⟨addDataFold (defaulted schema zl) s.data,
       addIxsFold (defaulted schema zl) s.indexes⟩ := by
  intro zl
  induction zl with
  | nil => intro s _; cases s; rfl
  | cons p tl ih =>
    intro s hv
    have hp := hv p (List.mem_cons_self _ _)
    show runMem schema (applyMem schema s (Op.add p.1 p.2)) _ = _
    have happ : applyMem schema s (Op.add p.1 p.2) =
        ⟨mapSet s.data p.1 (applyDefaults schema p.2),
         addToIndexes s.indexes p.1 (applyDefaults schema p.2)⟩ := by
      simp only [applyMem, memAdd]
      rw [hp]
    rw [happ, ih _ (fun q hq => hv q (List.mem_cons_of_mem _ hq))]
    rfl

theorem runFile_adds {schema : Schema} (hnd : (schema.map (·.1)).Nodup) :
    ∀ (zl : List (String × Rec)) (st : Storage),
    (∀ p ∈ zl, validateRecord (applyDefaults schema p.2) schema false = .ok ()) →
    readDataC (runFile schema st (zl.map (fun p => Op.add p.1 p.2))) =
      addDataFold (defaulted schema zl) (readDataC st) ∧
    loadIndexesFromMeta schema (runFile schema st (zl.map (fun p => Op.add p.1 p.2))) =
      addIxsFold (defaulted schema zl) (loadIndexesFromMeta schema st) ∧
    (runFile schema st (zl.map (fun p => Op.add p.1 p.2))).log =
      st.log ++ (List.replicate zl.length [WEv.wData, WEv.wMeta]).join := by
  intro zl
  induction zl with
  | nil =>
    intro st _
    exact ⟨rfl, rfl, by simp [runFile]⟩
  | cons p tl ih =>
    intro st hv
    have hp := hv p (List.mem_cons_self _ _)
    have happ : applyFile schema st (Op.add p.1 p.2) =
        writeMetaS (writeDataS st
            (mapSet (readDataC st) p.1 (applyDefaults schema p.2)))
          (buildMeta schema
            (addToIndexes (loadIndexesFromMeta schema st) p.1
              (applyDefaults schema p.2))) := by
      simp only [applyFile, fileAdd]
      rw [hp]
      rfl
    have hload : loadIndexesFromMeta schema (applyFile schema st (Op.add p.1 p.2)) =
        addToIndexes (loadIndexesFromMeta schema st) p.1
          (applyDefaults schema p.2) := by
      rw [happ]
      apply loadIndexes_roundtrip hnd
      rw [addToIndexes_shape]
      exact loadIndexes_shape schema st
    have hdata : readDataC (applyFile schema st (Op.add p.1 p.2)) =
        mapSet (readDataC st) p.1 (applyDefaults schema p.2) := by
      rw [happ]
      rfl
    have hlog : (applyFile schema st (Op.add p.1 p.2)).log =
        st.log ++ [WEv.wData, WEv.wMeta] := by
      rw [happ]
      simp [writeMetaS, writeDataS]
    show readDataC (runFile schema (applyFile schema st (Op.add p.1 p.2))
        (tl.map (fun p => Op.add p.1 p.2))) = _ ∧
      loadIndexesFromMeta schema (runFile schema (applyFile schema st (Op.add p.1 p.2))
        (tl.map (fun p => Op.add p.1 p.2))) = _ ∧
      (runFile schema (applyFile schema st (Op.add p.1 p.2))
        (tl.map (fun p => Op.add p.1 p.2))).log = _
    obtain ⟨ih1, ih2, ih3⟩ := ih (applyFile schema st (Op.add p.1 p.2))
      (fun q hq => hv q (List.mem_cons_of_mem _ hq))
    refine ⟨?_, ?_, ?_⟩
    · rw [ih1, hdata]
      rfl
    · rw [ih2, hload]
      rfl
    · rw [ih3, hlog]
      simp [List.replicate_succ]

/-- C8 (amended): for every batch in which every record passes
validation, `addMany` yields exactly the data and index state that
calling `add` on each record in order (with the same fresh identifiers)
would produce — observably so in disk mode, where the loaded data map
and indexes agree — while performing exactly one `writeData` and one
`writeMeta` call for the whole batch instead of one pair per record. -/
theorem C8_addMany_one_write_batches (schema : Schema)
    (hnd : (schema.map (·.1)).Nodup) (s : ColState) (st : Storage)
    (ids : List String) (rs : List Rec)
    (hv : ∀ p ∈ ids.zip rs,
      validateRecord (applyDefaults schema p.2) schema false = .ok ()) :
    (∃ docs, memAddMany schema s ids rs =
      .ok (runMem schema s ((ids.zip rs).map (fun p => Op.add p.1 p.2)), docs)) ∧
    (∃ st' docs, fileAddMany schema st ids rs = .ok (st', docs) ∧
      readDataC st' =
        readDataC (runFile schema st ((ids.zip rs).map (fun p => Op.add p.1 p.2))) ∧
      loadIndexesFromMeta schema st' =
        loadIndexesFromMeta schema
          (runFile schema st ((ids.zip rs).map (fun p => Op.add p.1 p.2))) ∧
      st'.log = st.log ++ [WEv.wData, WEv.wMeta] ∧
      (runFile schema st ((ids.zip rs).map (fun p => Op.add p.1 p.2))).log =
        st.log ++ (List.replicate (ids.zip rs).length [WEv.wData, WEv.wMeta]).join) := by
  constructor
  · refine ⟨(defaulted schema (ids.zip rs)).map (fun p => toDocument p.1 p.2), ?_⟩
    simp only [memAddMany, validateAll_ok hv]
    rw [memFold_eq, runMem_adds (ids.zip rs) s hv]
    simp
  · obtain ⟨h1, h2, h3⟩ := runFile_adds hnd (ids.zip rs) st hv
    refine ⟨writeMetaS (writeDataS st (addDataFold (defaulted schema (ids.zip rs))
        (readDataC st)))
        (buildMeta schema (addIxsFold (defaulted schema (ids.zip rs))
          (loadIndexesFromMeta schema st))),
      (defaulted schema (ids.zip rs)).map (fun p => toDocument p.1 p.2), ?_, ?_, ?_, ?_, h3⟩
    · simp only [fileAddMany, validateAll_ok hv]
      rw [fileFold_eq]
      simp
    · rw [h1]
      rfl
    · rw [h2]
      apply loadIndexes_roundtrip hnd
      rw [addIxsFold_shape]
      exact loadIndexes_shape schema st
    · simp [writeMetaS, writeDataS]

unseal lbAux in
/-- A C8 witness: a two-record valid batch against fresh memory and file
states. -/
theorem C8_addMany_one_write_batches_witness :
    (∃ docs, memAddMany sch7 (initMem sch7) ["i1", "i2"]
        [[("a", Value.str "x")], [("a", Value.str "y")]] =
      .ok (runMem sch7 (initMem sch7)
        [Op.add "i1" [("a", Value.str "x")], Op.add "i2" [("a", Value.str "y")]],
        docs)) := by
  have h := (C8_addMany_one_write_batches sch7 (by decide) (initMem sch7)
    emptyStorage ["i1", "i2"] [[("a", Value.str "x")], [("a", Value.str "y")]]
    (by decide)).1
  exact h

unseal lbAux in
/-- C8 counterexample: with a batch whose second record fails
validation, `addMany` applies nothing while the sequence of `add` calls
leaves the first record behind — the final states differ. -/
theorem C8_not_equivalent_on_invalid_batch :
    runMem sch7 (initMem sch7)
        [Op.addMany ["i1", "i2"] [[("a", Value.str "x")], []]] ≠
      runMem sch7 (initMem sch7)
        [Op.add "i1" [("a", Value.str "x")], Op.add "i2" []] := by
  decide

/-! ### C6: `find` dispatch, error and intersection semantics -/

/-- Every queried field has an index, and that index answers its
pattern without an error. -/
def queryIndexedOk (ixs : List (String × Index)) (q : List (String × String)) : Bool :=
  q.all (fun pe => match alGet ixs pe.1 with
    | none => false
    | some ix => (ix.find pe.2).isOk)

theorem jsSetOfList_foldl_mem (l : List String) :
    ∀ (acc : List String) (x : String),
    (x ∈ l.foldl (fun acc x => if x ∈ acc then acc else acc ++ [x]) acc) ↔
      (x ∈ acc ∨ x ∈ l) := by
  induction l with
  | nil => intro acc x; simp
  | cons a tl ih =>
    intro acc x
    rw [List.foldl_cons, ih]
    by_cases ha : a ∈ acc
    · rw [if_pos ha]
      simp only [List.mem_cons]
      constructor
      · rintro (h | h)
        · exact Or.inl h
        · exact Or.inr (Or.inr h)
      · rintro (h | h | h)
        · exact Or.inl h
        · subst h; exact Or.inl ha
        · exact Or.inr h
    · rw [if_neg ha]
      simp only [List.mem_append, List.mem_cons, List.not_mem_nil, or_false]
      exact or_assoc

theorem jsSetOfList_mem (l : List String) (x : String) :
    x ∈ jsSetOfList l ↔ x ∈ l := by
  rw [jsSetOfList, jsSetOfList_foldl_mem]
  simp

theorem findLoop_unindexed (ixs : List (String × Index)) :
    ∀ (q : List (String × String)) (acc : Option (List String)),
    q.any (fun pe => (alGet ixs pe.1).isNone) = true →
    (∃ e, findLoop ixs q acc = .error e) ∨ findLoop ixs q acc = .ok [] := by
  intro q
  induction q with
  | nil => intro acc h; simp at h
  | cons p rest ih =>
    intro acc h
    obtain ⟨f, pat⟩ := p
    cases hget : alGet ixs f with
    | none =>
      left
      exact ⟨notIndexedErr f, by simp only [findLoop, hget]⟩
    | some ix =>
      have hrest : rest.any (fun pe => (alGet ixs pe.1).isNone) = true := by
        simp only [List.any_cons, hget, Option.isNone_some, Bool.false_or] at h
        exact h
      cases hfind : ix.find pat with
      | error e =>
        left
        exact ⟨e, by simp only [findLoop, hget, hfind]⟩
      | ok ids =>
        simp only [findLoop, hget, hfind]
        split
        · right; rfl
        · exact ih _ hrest

theorem findLoop_char (ixs : List (String × Index)) :
    ∀ (q : List (String × String)) (r0 : List String),
    queryIndexedOk ixs q = true →
    ∃ ids, findLoop ixs q (some r0) = .ok ids ∧
      ∀ id, id ∈ ids ↔ (id ∈ r0 ∧ ∀ pe ∈ q, ∀ ix, alGet ixs pe.1 = some ix →
        ∀ r, ix.find pe.2 = .ok r → id ∈ r) := by
  intro q
  induction q with
  | nil =>
    intro r0 _
    refine ⟨r0, rfl, ?_⟩
    simp
  | cons p rest ih =>
    intro r0 hq
    obtain ⟨f, pat⟩ := p
    simp only [queryIndexedOk, List.all_cons, Bool.and_eq_true] at hq
    obtain ⟨hq1, hq2'⟩ := hq
    have hq2 : queryIndexedOk ixs rest = true := by
      simp only [queryIndexedOk]; exact hq2'
    cases hget : alGet ixs f with
    | none =>
      rw [hget] at hq1
      exact Bool.noConfusion hq1
    | some ix =>
      rw [hget] at hq1
      have hq1' : (ix.find pat).isOk = true := hq1
      cases hfind : ix.find pat with
      | error e =>
        rw [hfind] at hq1'
        exact Bool.noConfusion hq1'
      | ok ids1 =>
        by_cases hr : (r0.filter (fun i => (jsSetOfList ids1).contains i)).length = 0
        · refine ⟨[], ?_, ?_⟩
          · simp only [findLoop, hget, hfind]
            rw [if_pos hr]
          · intro id
            simp only [List.not_mem_nil, false_iff]
            rintro ⟨hid0, hall⟩
            have hid1 : id ∈ ids1 :=
              hall (f, pat) (List.mem_cons_self _ _) ix hget ids1 hfind
            have hmemf : id ∈ r0.filter (fun i => (jsSetOfList ids1).contains i) := by
              rw [List.mem_filter]
              refine ⟨hid0, ?_⟩
              simpa [jsSetOfList_mem] using hid1
            rw [List.length_eq_zero] at hr
            rw [hr] at hmemf
            simp at hmemf
        · obtain ⟨ids, heq, hmem⟩ :=
            ih (r0.filter (fun i => (jsSetOfList ids1).contains i)) hq2
          refine ⟨ids, ?_, ?_⟩
          · simp only [findLoop, hget, hfind]
            rw [if_neg hr]
            exact heq
          · intro id
            rw [hmem id, List.mem_filter]
            constructor
            · rintro ⟨⟨hid0, hc⟩, hrest⟩
              refine ⟨hid0, ?_⟩
              intro pe hpe ix' hget' r' hfind'
              rcases List.mem_cons.mp hpe with heqp | hpe'
              · subst heqp
                rw [hget] at hget'
                injection hget' with hix
                subst hix
                rw [hfind] at hfind'
                injection hfind' with hr'
                subst hr'
                have hj : id ∈ jsSetOfList ids1 := by simpa using hc
                exact (jsSetOfList_mem _ _).mp hj
              · exact hrest pe hpe' ix' hget' r' hfind'
            · rintro ⟨hid0, hall⟩
              have hid1 : id ∈ ids1 :=
                hall (f, pat) (List.mem_cons_self _ _) ix hget ids1 hfind
              refine ⟨⟨hid0, ?_⟩, ?_⟩
              · simpa [jsSetOfList_mem] using hid1
              · intro pe hpe ix' hget' r' hfind'
                exact hall pe (List.mem_cons_of_mem _ hpe) ix' hget' r' hfind'

theorem findLoop_none_char (ixs : List (String × Index)) (f pat : String)
    (rest : List (String × String))
    (hq : queryIndexedOk ixs ((f, pat) :: rest) = true) :
    ∃ ids, findLoop ixs ((f, pat) :: rest) none = .ok ids ∧
      ∀ id, id ∈ ids ↔ ∀ pe ∈ (f, pat) :: rest, ∀ ix, alGet ixs pe.1 = some ix →
        ∀ r, ix.find pe.2 = .ok r → id ∈ r := by
  simp only [queryIndexedOk, List.all_cons, Bool.and_eq_true] at hq
  obtain ⟨hq1, hq2'⟩ := hq
  have hq2 : queryIndexedOk ixs rest = true := by
    simp only [queryIndexedOk]; exact hq2'
  cases hget : alGet ixs f with
  | none =>
    rw [hget] at hq1
    exact Bool.noConfusion hq1
  | some ix =>
    rw [hget] at hq1
    have hq1' : (ix.find pat).isOk = true := hq1
    cases hfind : ix.find pat with
    | error e =>
      rw [hfind] at hq1'
      exact Bool.noConfusion hq1'
    | ok ids1 =>
      by_cases hr : (jsSetOfList ids1).length = 0
      · refine ⟨[], ?_, ?_⟩
        · simp only [findLoop, hget, hfind]
          rw [if_pos hr]
        · intro id
          simp only [List.not_mem_nil, false_iff]
          intro hall
          have hid1 : id ∈ ids1 :=
            hall (f, pat) (List.mem_cons_self _ _) ix hget ids1 hfind
          have hj : id ∈ jsSetOfList ids1 := (jsSetOfList_mem _ _).mpr hid1
          rw [List.length_eq_zero] at hr
          rw [hr] at hj
          simp at hj
      · obtain ⟨ids, heq, hmem⟩ := findLoop_char ixs rest (jsSetOfList ids1) hq2
        refine ⟨ids, ?_, ?_⟩
        · simp only [findLoop, hget, hfind]
          rw [if_neg hr]
          exact heq
        · intro id
          rw [hmem id, jsSetOfList_mem]
          constructor
          · rintro ⟨hid1, hrest⟩
            intro pe hpe ix' hget' r' hfind'
            rcases List.mem_cons.mp hpe with heqp | hpe'
            · subst heqp
              rw [hget] at hget'
              injection hget' with hix
              subst hix
              rw [hfind] at hfind'
              injection hfind' with hr'
              subst hr'
              exact hid1
            · exact hrest pe hpe' ix' hget' r' hfind'
          · intro hall
            refine ⟨hall (f, pat) (List.mem_cons_self _ _) ix hget ids1 hfind, ?_⟩
            intro pe hpe ix' hget' r' hfind'
            exact hall pe (List.mem_cons_of_mem _ hpe) ix' hget' r' hfind'

/-- C6 (amended): an empty query mapping answers exactly like `all()`;
a query containing a field with no index either raises an error or — if
the running intersection became empty before that field was reached —
returns the empty result without any error; and when every queried
field has an index that answers its pattern, `find` returns exactly the
documents of the identifiers lying in every queried field's result set. -/
theorem C6_find_semantics (s : ColState) (q : List (String × String)) :
    (memFind s [] = .ok (memAll s)) ∧
    (q.any (fun pe => (alGet s.indexes pe.1).isNone) = true →
      (∃ e, memFind s q = .error e) ∨ memFind s q = .ok []) ∧
    (q ≠ [] → queryIndexedOk s.indexes q = true →
      ∃ ids, findLoop s.indexes q none = .ok ids ∧
        memFind s q = .ok (ids.map (fun id => (memGet s id).getD undefinedDoc)) ∧
        ∀ id, id ∈ ids ↔ ∀ pe ∈ q, ∀ ix, alGet s.indexes pe.1 = some ix →
          ∀ r, ix.find pe.2 = .ok r → id ∈ r) := by
  refine ⟨rfl, ?_, ?_⟩
  · intro hany
    have hq : q.isEmpty = false := by
      cases q with
      | nil => simp at hany
      | cons a l => rfl
    rcases findLoop_unindexed s.indexes q none hany with ⟨e, he⟩ | he
    · left
      exact ⟨e, by simp [memFind, hq, he, Except.map]⟩
    · right
      simp [memFind, hq, he, Except.map]
  · intro hne hq
    cases q with
    | nil => exact absurd rfl hne
    | cons p rest =>
      obtain ⟨f, pat⟩ := p
      obtain ⟨ids, heq, hmem⟩ := findLoop_none_char s.indexes f pat rest hq
      refine ⟨ids, heq, ?_, hmem⟩
      simp [memFind, heq, Except.map]

/-- The C6 schema: `a` is an indexed string field, `b` a plain string
field with no index. -/
def sch6 : Schema :=
  [("a", { type := .string, index := some true }),
   ("b", { type := .string, index := none })]

/-- A C6 state: one record with `a = "x"` and `b = "q"`. -/
def c6s : ColState :=
  runMem sch6 (initMem sch6)
    [Op.add "i1" [("a", Value.str "x"), ("b", Value.str "q")]]

unseal lbAux collectRun String.ltb in
/-- A C6 witness: on the concrete one-record state, the empty query
answers like `all()`, a query naming only the unindexed field `b`
errors or returns empty, and the exact query `a = "x"` is answered
through the index intersection. -/
theorem C6_find_semantics_witness :
    (memFind c6s [] = .ok (memAll c6s)) ∧
    ((∃ e, memFind c6s [("b", "q")] = .error e) ∨
      memFind c6s [("b", "q")] = .ok []) ∧
    (∃ ids, findLoop c6s.indexes [("a", "x")] none = .ok ids ∧
      memFind c6s [("a", "x")] =
        .ok (ids.map (fun id => (memGet c6s id).getD undefinedDoc)) ∧
      ∀ id, id ∈ ids ↔ ∀ pe ∈ [("a", "x")], ∀ ix,
        alGet c6s.indexes pe.1 = some ix →
        ∀ r, ix.find pe.2 = .ok r → id ∈ r) := by
  refine ⟨(C6_find_semantics c6s []).1, ?_, ?_⟩
  · exact (C6_find_semantics c6s [("b", "q")]).2.1 (by decide)
  · exact (C6_find_semantics c6s [("a", "x")]).2.2 (by decide) (by decide)

unseal lbAux collectRun String.ltb in
/-- C6 counterexample: the query names the unindexed field `b`, yet
`find` raises no error — the running intersection became empty at the
indexed field `a` (no record has `a = "zzz"`), so the loop returned the
empty result before ever looking `b` up. -/
theorem C6_unindexed_not_always_error :
    alGet c6s.indexes "b" = none ∧
    memFind c6s [("a", "zzz"), ("b", "q")] = .ok [] := by
  decide

/-! ### C1: exact find correctness over operation sequences -/

theorem alGet_none_iff {α : Type} (l : List (String × α)) (k : String) :
    alGet l k = none ↔ ∀ p ∈ l, p.1 ≠ k := by
  unfold alGet
  rw [Option.map_eq_none', List.find?_eq_none]
  constructor
  · intro h p hp
    simpa using h p hp
  · intro h p hp
    simpa using h p hp

theorem alGet_none_iff_keys {α : Type} (l : List (String × α)) (k : String) :
    alGet l k = none ↔ k ∉ l.map (·.1) := by
  rw [alGet_none_iff]
  simp only [List.mem_map]
  constructor
  · rintro h ⟨p, hp, hk⟩
    exact h p hp hk
  · intro h p hp hk
    exact h ⟨p, hp, hk⟩

theorem mapSet_fresh {α : Type} {l : List (String × α)} {k : String}
    (h : alGet l k = none) (v : α) : mapSet l k v = l ++ [(k, v)] := by
  unfold mapSet
  rw [if_neg]
  intro hany
  rw [List.any_eq_true] at hany
  obtain ⟨p, hp, hpk⟩ := hany
  exact (alGet_none_iff l k).mp h p hp (by simpa using hpk)

theorem alGet_append_none {α : Type} {l : List (String × α)} {k' k : String}
    (h : alGet l k' = none) (hne : k' ≠ k) (v : α) :
    alGet (l ++ [(k, v)]) k' = none := by
  rw [alGet_none_iff] at h ⊢
  intro p hp
  rcases List.mem_append.mp hp with hp | hp
  · exact h p hp
  · rw [List.mem_singleton] at hp
    subst hp
    exact fun hc => hne hc.symm

theorem keys_append_nodup {α : Type} {l : List (String × α)} {k : String}
    (hnd : (l.map (·.1)).Nodup) (h : alGet l k = none) (v : α) :
    ((l ++ [(k, v)]).map (·.1)).Nodup := by
  rw [List.map_append]
  rw [List.nodup_append]
  refine ⟨hnd, List.nodup_singleton _, ?_⟩
  intro a ha hb
  simp only [List.map_cons, List.map_nil, List.mem_singleton] at hb
  rw [hb] at ha
  exact (alGet_none_iff_keys l k).mp h ha

theorem foldlM_ok_forall {α : Type} (g : α → Except String Unit) :
    ∀ (l : List α), l.foldlM (fun _ x => g x) () = .ok () → ∀ x ∈ l, g x = .ok () := by
  intro l
  induction l with
  | nil => intro _ x hx; cases hx
  | cons a tl ih =>
    intro h x hx
    rw [List.foldlM_cons] at h
    cases hg : g a with
    | error e =>
      rw [hg] at h
      simp [Bind.bind, Except.bind] at h
    | ok u =>
      rcases List.mem_cons.mp hx with hx1 | hx'
      · subst hx1; cases u; exact hg
      · apply ih _ x hx'
        rw [hg] at h
        cases u
        simpa [Bind.bind, Except.bind] using h

theorem validateRecord_split {schema : Schema} {r : Rec} {isP : Bool}
    (h : validateRecord r schema isP = .ok ()) :
    schema.foldlM (fun _ fd =>
      match alGet r fd.1 with
      | none =>
        if isP then Except.ok ()
        else .error ("Missing required field " ++ fd.1)
      | some v =>
        if typeOk fd.2.type v then .ok ()
        else .error ("Field " ++ fd.1 ++ " has the wrong type")) () = .ok () := by
  unfold validateRecord at h
  cases h1 : r.foldlM (fun _ kv =>
      if schema.any (fun p => p.1 = kv.1) then pure ()
      else Except.error ("Unknown field " ++ kv.1 ++ " is not defined in the schema"))
      () with
  | error e =>
    rw [h1] at h
    simp [Bind.bind, Except.bind] at h
  | ok u =>
    rw [h1] at h
    cases u
    simpa [Bind.bind, Except.bind] using h

theorem validateRecord_typeOk {schema : Schema} {r : Rec} {isP : Bool}
    (h : validateRecord r schema isP = .ok ()) :
    ∀ fd ∈ schema, ∀ v, alGet r fd.1 = some v → typeOk fd.2.type v = true := by
  intro fd hfd v hv
  have hb := foldlM_ok_forall _ schema (validateRecord_split h) fd hfd
  rw [hv] at hb
  have hb2 : (if typeOk fd.2.type v then Except.ok ()
      else Except.error ("Field " ++ fd.1 ++ " has the wrong type")) =
      Except.ok () := hb
  by_cases ht : typeOk fd.2.type v = true
  · exact ht
  · rw [if_neg ht] at hb2
    cases hb2

theorem validateSchema_forall {schema : Schema}
    (h : (validateSchema schema).isOk = true) :
    ∀ fd ∈ schema, ¬(fd.2.index.getD false = true ∧ fd.2.type = .object) := by
  intro fd hfd hcon
  unfold validateSchema at h
  cases hv : schema.foldlM (fun _ fd =>
      if fd.2.index.getD false && (fd.2.type = FType.object : Bool) then
        Except.error ("Field " ++ fd.1 ++ ": cannot index object type fields")
      else if fd.2.ignoreCase.isSome && !(fd.2.index.getD false) then
        Except.error ("Field " ++ fd.1 ++ ": indexSetting requires index true")
      else if fd.2.ignoreCase.isSome && (fd.2.type ≠ FType.string : Bool) then
        Except.error ("Field " ++ fd.1 ++ ": indexSetting is only valid for string type fields")
      else Except.ok ()) () with
  | error e => rw [hv] at h; cases h
  | ok u =>
    cases u
    have hb := foldlM_ok_forall _ schema hv fd hfd
    rw [if_pos (by rw [hcon.1, hcon.2]; simp)] at hb
    cases hb

theorem indexed_not_object {schema : Schema} (hS : SchemaWf schema)
    {F : String} {fd : FieldDef} (hF : alGet schema F = some fd)
    (hidx : fd.index.getD false = true) : fd.type ≠ .object := by
  intro hobj
  exact validateSchema_forall hS.2 (F, fd) (alGet_mem hF) ⟨hidx, hobj⟩

theorem typeOk_typeOf {ft : FType} {v : Value} (h : typeOk ft v = true) :
    v.typeOf = ft := by
  cases ft <;> cases v <;> simp_all [typeOk, Value.typeOf]

theorem applyDefaults_nodup (schema : Schema) :
    ∀ {r : Rec}, ((r.map (·.1)).Nodup) →
    (((applyDefaults schema r).map (·.1)).Nodup) := by
  unfold applyDefaults
  induction schema with
  | nil => intro r h; exact h
  | cons fd tl ih =>
    intro r h
    rw [List.foldl_cons]
    apply ih
    cases halg : alGet r fd.1 with
    | some v => simp only [halg]; exact h
    | none =>
      cases hd : fd.2.dflt with
      | none => simp only [halg, hd]; exact h
      | some d =>
        simp only [halg, hd]
        exact keys_append_nodup h halg d

theorem shape_keys {schema : Schema} {ixs : List (String × Index)}
    (hsh : ixs.map ixShape = (indexedDefs schema).map expShape) :
    ixs.map (·.1) = (indexedDefs schema).map (·.1) := by
  have h := congrArg (List.map (fun q : String × String × FType × Bool => q.1)) hsh
  simpa [List.map_map, Function.comp, ixShape, expShape] using h

theorem shape_conform {schema : Schema} (hnd : (schema.map (·.1)).Nodup)
    {ixs : List (String × Index)}
    (hsh : ixs.map ixShape = (indexedDefs schema).map expShape) :
    ∀ p ∈ ixs, ∃ fd, alGet schema p.1 = some fd ∧ fd.index.getD false = true ∧
      p.2.fieldType = fd.type ∧ p.2.ignoreCase = fd.ignoreCase.getD false := by
  intro p hp
  obtain ⟨i, hi, hpe⟩ := List.getElem_of_mem hp
  have hlen : ixs.length = (indexedDefs schema).length := by
    have := congrArg List.length hsh
    simpa using this
  have hi2 : i < (indexedDefs schema).length := by omega
  have hmil : i < (ixs.map ixShape).length := by simpa using hi
  have hmil2 : i < ((indexedDefs schema).map expShape).length := by simpa using hi2
  have hmi : (ixs.map ixShape)[i] =
      ((indexedDefs schema).map expShape)[i] :=
    List.getElem_of_eq hsh _
  rw [List.getElem_map, List.getElem_map] at hmi
  rw [hpe] at hmi
  have hfdmem : (indexedDefs schema)[i] ∈ indexedDefs schema := List.getElem_mem _
  have hfdsc : (indexedDefs schema)[i] ∈ schema := List.mem_of_mem_filter hfdmem
  have hfidx : (indexedDefs schema)[i].2.index.getD false = true := by
    have := List.of_mem_filter hfdmem
    simpa using this
  have h1 : p.1 = (indexedDefs schema)[i].1 := congrArg (·.1) hmi
  have h3 : p.2.fieldType = (indexedDefs schema)[i].2.type := by
    have := congrArg (fun q : String × String × FType × Bool => q.2.2.1) hmi
    simpa [ixShape, expShape] using this
  have h4 : p.2.ignoreCase = (indexedDefs schema)[i].2.ignoreCase.getD false := by
    have := congrArg (fun q : String × String × FType × Bool => q.2.2.2) hmi
    simpa [ixShape, expShape] using this
  refine ⟨(indexedDefs schema)[i].2, ?_, hfidx, h3, h4⟩
  rw [h1]
  exact alGet_of_mem_nodup hnd hfdsc

theorem index_exists_of_indexed {schema : Schema}
    {ixs : List (String × Index)}
    (hsh : ixs.map ixShape = (indexedDefs schema).map expShape)
    {F : String} {fd : FieldDef} (hF : alGet schema F = some fd)
    (hidx : fd.index.getD false = true) :
    ∃ ix, alGet ixs F = some ix := by
  apply alGet_isSome_of_mem_keys
  rw [shape_keys hsh]
  apply List.mem_map.mpr
  refine ⟨(F, fd), ?_, rfl⟩
  apply List.mem_filter.mpr
  exact ⟨alGet_mem hF, by simpa using hidx⟩

theorem expEntries_append (ic : Bool) (f : String) (d1 d2 : List (String × Rec)) :
    expEntries ic f (d1 ++ d2) = expEntries ic f d1 ++ expEntries ic f d2 := by
  unfold expEntries
  rw [List.filterMap_append]

theorem expEntries_single (ic : Bool) (f id : String) (r : Rec) :
    expEntries ic f [(id, r)] =
      match alGet r f with
      | some v => [⟨normV ic v, id⟩]
      | none => [] := by
  cases halg : alGet r f <;> simp [expEntries, halg]

theorem expEntries_cons (ic : Bool) (f id : String) (r : Rec)
    (data : List (String × Rec)) :
    expEntries ic f ((id, r) :: data) =
      (match alGet r f with
       | some v => [⟨normV ic v, id⟩]
       | none => []) ++ expEntries ic f data := by
  have h : (id, r) :: data = [(id, r)] ++ data := rfl
  rw [h, expEntries_append, expEntries_single]

theorem expEntries_perm (ic : Bool) (f : String) {d1 d2 : List (String × Rec)}
    (h : d1.Perm d2) : (expEntries ic f d1).Perm (expEntries ic f d2) :=
  h.filterMap _

theorem homog_expEntries {schema : Schema} {data : List (String × Rec)}
    (hrw : ∀ p ∈ data, RecWf schema p.2) {f : String} {fd : FieldDef}
    (hF : alGet schema f = some fd) (ic : Bool) :
    homogTy fd.type (expEntries ic f data) := by
  intro e he
  simp only [expEntries, List.mem_filterMap] at he
  obtain ⟨d, hd, he2⟩ := he
  cases hv : alGet d.2 f with
  | none => rw [hv] at he2; cases he2
  | some v =>
    rw [hv] at he2
    simp only [Option.map_some'] at he2
    have hty := (hrw d hd).2 (f, fd) (alGet_mem hF) v hv
    injection he2 with he3
    rw [← he3]
    show (normV ic v).typeOf = fd.type
    rw [normV_typeOf]
    exact typeOk_typeOf hty

theorem homog_of_perm {ft : FType} {es es' : List Entry}
    (h : es.Perm es') (hh : homogTy ft es') : homogTy ft es :=
  fun e he => hh e (h.mem_iff.mp he)

theorem colInv_add {schema : Schema} (hS : SchemaWf schema) {s : ColState}
    {id : String} {r : Rec} (hinv : ColInv schema s)
    (hv : validateRecord (applyDefaults schema r) schema false = .ok ())
    (hk : recKeysND r = true)
    (hfresh : alGet s.data id = none) :
    ColInv schema ⟨mapSet s.data id (applyDefaults schema r),
      addToIndexes s.indexes id (applyDefaults schema r)⟩ := by
  obtain ⟨hnd, hrw, hsh, hix⟩ := hinv
  have hwdnd : ((applyDefaults schema r).map (·.1)).Nodup :=
    applyDefaults_nodup schema (by simpa [recKeysND] using hk)
  have hms : mapSet s.data id (applyDefaults schema r) =
      s.data ++ [(id, applyDefaults schema r)] := mapSet_fresh hfresh _
  refine ⟨?_, ?_, ?_, ?_⟩
  · show ((mapSet s.data id (applyDefaults schema r)).map (·.1)).Nodup
    rw [hms]
    exact keys_append_nodup hnd hfresh _
  · show ∀ p ∈ mapSet s.data id (applyDefaults schema r), RecWf schema p.2
    rw [hms]
    intro p hp
    rcases List.mem_append.mp hp with hp | hp
    · exact hrw p hp
    · rw [List.mem_singleton] at hp
      subst hp
      exact ⟨hwdnd, validateRecord_typeOk hv⟩
  · show (addToIndexes s.indexes id (applyDefaults schema r)).map ixShape =
      (indexedDefs schema).map expShape
    rw [addToIndexes_shape]
    exact hsh
  · show ∀ p ∈ addToIndexes s.indexes id (applyDefaults schema r), _
    intro p' hp' fd hfd
    simp only [addToIndexes, List.mem_map] at hp'
    obtain ⟨p, hp, hpe⟩ := hp'
    obtain ⟨fd0, hF0, hidx0, hft0, hic0⟩ := shape_conform hS.1 hsh p hp
    cases halg : alGet (applyDefaults schema r) p.1 with
    | none =>
      simp only [halg] at hpe
      subst hpe
      obtain ⟨hperm, hsort⟩ := hix p hp fd hfd
      refine ⟨?_, hsort⟩
      rw [hms, expEntries_append, expEntries_single]
      simp only [halg, List.append_nil]
      exact hperm
    | some v =>
      simp only [halg] at hpe
      subst hpe
      have hfd' : alGet schema p.1 = some fd := hfd
      have hfdeq : fd0 = fd := by
        have h := hF0.symm.trans hfd'
        injection h
      subst hfdeq
      obtain ⟨hperm, hsort⟩ := hix p hp fd0 hF0
      have hty : typeOk fd0.type v = true :=
        validateRecord_typeOk hv (p.1, fd0) (alGet_mem hF0) v halg
      have hhom : homogTy fd0.type p.2.entries :=
        homog_of_perm hperm (homog_expEntries hrw hF0 _)
      have hobj : fd0.type ≠ .object := indexed_not_object hS hF0 hidx0
      have hnt : (normV p.2.ignoreCase v).typeOf = fd0.type := by
        rw [normV_typeOf]
        exact typeOk_typeOf hty
      constructor
      · show (insertEntry p.2.entries
            (lowerBound p.2.entries (normV p.2.ignoreCase v))
            ⟨normV p.2.ignoreCase v, id⟩).Perm
          (expEntries (fd0.ignoreCase.getD false) p.1
            (mapSet s.data id (applyDefaults schema r)))
        rw [hms, expEntries_append, expEntries_single]
        simp only [halg]
        rw [hic0]
        refine (insertEntry_perm _ _ _).trans ?_
        refine (hperm.cons _).trans ?_
        exact (List.perm_append_singleton _ _).symm
      · show (insertEntry p.2.entries
            (lowerBound p.2.entries (normV p.2.ignoreCase v))
            ⟨normV p.2.ignoreCase v, id⟩).Pairwise entryLe
        exact insert_lb_sorted hsort hhom hnt hobj

theorem alGet_append {α : Type} (a b : List (String × α)) (k : String) :
    alGet (a ++ b) k = (alGet a k).or (alGet b k) := by
  induction a with
  | nil => rfl
  | cons p a ih =>
    by_cases hk : p.1 = k
    · show alGet (p :: (a ++ b)) k = _
      unfold alGet
      rw [List.find?_cons_of_pos _ (by simpa using hk),
        List.find?_cons_of_pos _ (by simpa using hk)]
      rfl
    · show alGet (p :: (a ++ b)) k = _
      unfold alGet at ih ⊢
      rw [List.find?_cons_of_neg _ (by simpa using hk),
        List.find?_cons_of_neg _ (by simpa using hk)]
      exact ih

theorem alGet_filter_keep {α : Type} {P : String × α → Bool}
    {l : List (String × α)} {k : String}
    (h : ∀ kv ∈ l, kv.1 = k → P kv = true) :
    alGet (l.filter P) k = alGet l k := by
  induction l with
  | nil => rfl
  | cons kv tl ih =>
    rw [List.filter_cons]
    by_cases hk : kv.1 = k
    · rw [if_pos (h kv (List.mem_cons_self _ _) hk)]
      unfold alGet
      rw [List.find?_cons_of_pos _ (by simpa using hk),
        List.find?_cons_of_pos _ (by simpa using hk)]
    · by_cases hP : P kv = true
      · rw [if_pos hP]
        unfold alGet at ih ⊢
        rw [List.find?_cons_of_neg _ (by simpa using hk),
          List.find?_cons_of_neg _ (by simpa using hk)]
        exact ih (fun q hq => h q (List.mem_cons_of_mem _ hq))
      · rw [if_neg hP]
        unfold alGet at ih ⊢
        rw [List.find?_cons_of_neg _ (by simpa using hk)]
        exact ih (fun q hq => h q (List.mem_cons_of_mem _ hq))

theorem alGet_cons_pos {α : Type} {p : String × α} {l : List (String × α)}
    {k : String} (h : p.1 = k) : alGet (p :: l) k = some p.2 := by
  unfold alGet
  rw [List.find?_cons_of_pos _ (by simpa using h)]
  rfl

theorem alGet_cons_neg {α : Type} {p : String × α} {l : List (String × α)}
    {k : String} (h : p.1 ≠ k) : alGet (p :: l) k = alGet l k := by
  unfold alGet
  rw [List.find?_cons_of_neg _ (by simpa using h)]

theorem alGet_map_patch (old patch : Rec) (f : String) :
    alGet (old.map (fun kv => match alGet patch kv.1 with
      | some v => (kv.1, v)
      | none => kv)) f =
      (alGet old f).map (fun ov =>
        match alGet patch f with | some v => v | none => ov) := by
  induction old with
  | nil => rfl
  | cons kv tl ih =>
    have hhead : (match alGet patch kv.1 with
        | some v => (kv.1, v) | none => kv).1 = kv.1 := by
      cases alGet patch kv.1 <;> rfl
    by_cases hk : kv.1 = f
    · rw [List.map_cons, alGet_cons_pos (hhead.trans hk), alGet_cons_pos hk]
      simp only [Option.map_some']
      rw [← hk]
      cases alGet patch kv.1 <;> rfl
    · rw [List.map_cons, alGet_cons_neg (by rw [hhead]; exact hk),
        alGet_cons_neg hk]
      exact ih

theorem alGet_mergeRec (old patch : Rec) (f : String) :
    alGet (mergeRec old patch) f =
      match alGet patch f with
      | some v => some v
      | none => alGet old f := by
  unfold mergeRec
  rw [alGet_append, alGet_map_patch]
  cases ho : alGet old f with
  | some ov =>
    simp only [Option.map_some']
    cases alGet patch f <;> rfl
  | none =>
    simp only [Option.map_none']
    rw [Option.none_or]
    have hfk : ∀ kv ∈ patch, kv.1 = f →
        (!(old.any (fun o => o.1 = kv.1))) = true := by
      intro kv _ hkv
      rw [hkv]
      have hanyf : old.any (fun o => o.1 = f) = false := by
        rw [List.any_eq_false]
        intro o hoo
        simpa using (alGet_none_iff old f).mp ho o hoo
      rw [hanyf]
      rfl
    rw [alGet_filter_keep hfk]
    cases alGet patch f <;> rfl

theorem mergeRec_keys_map (old patch : Rec) :
    (old.map (fun kv => match alGet patch kv.1 with
      | some v => (kv.1, v)
      | none => kv)).map (·.1) = old.map (·.1) := by
  rw [List.map_map]
  apply List.map_congr_left
  intro kv _
  show (match alGet patch kv.1 with | some v => (kv.1, v) | none => kv).1 = kv.1
  cases alGet patch kv.1 <;> rfl

theorem mergeRec_nodup {old patch : Rec} (hod : (old.map (·.1)).Nodup)
    (hpd : (patch.map (·.1)).Nodup) :
    ((mergeRec old patch).map (·.1)).Nodup := by
  unfold mergeRec
  rw [List.map_append, List.nodup_append]
  refine ⟨by rw [mergeRec_keys_map]; exact hod,
    (List.Sublist.map _ (List.filter_sublist _)).nodup hpd, ?_⟩
  intro a ha hb
  rw [mergeRec_keys_map] at ha
  obtain ⟨kv, hkv, hkva⟩ := List.mem_map.mp hb
  have hPkv := List.of_mem_filter hkv
  rw [hkva] at hPkv
  obtain ⟨q, hq, hqa⟩ := List.mem_map.mp ha
  simp only [Bool.not_eq_true'] at hPkv
  rw [List.any_eq_false] at hPkv
  exact hPkv q hq (by simpa [hqa])

theorem mapDel_perm {data : List (String × Rec)} {id : String} {old : Rec}
    (hnd : (data.map (·.1)).Nodup) (hmem : (id, old) ∈ data) :
    data.Perm ((id, old) :: mapDel data id) := by
  induction data with
  | nil => cases hmem
  | cons p tl ih =>
    rw [List.map_cons, List.nodup_cons] at hnd
    by_cases hk : p.1 = id
    · have hpe : p = (id, old) := by
        rcases List.mem_cons.mp hmem with h | h
        · exact h.symm
        · exfalso
          apply hnd.1
          rw [hk]
          exact List.mem_map.mpr ⟨(id, old), h, rfl⟩
      subst hpe
      have hstep : mapDel ((id, old) :: tl) id = mapDel tl id := by
        simp only [mapDel, List.filter_cons]
        rw [if_neg (by simp)]
      have htl : mapDel tl id = tl := by
        apply List.filter_eq_self.mpr
        intro q hq
        simp only [decide_eq_true_eq]
        intro hqid
        apply hnd.1
        rw [← hqid]
        exact List.mem_map.mpr ⟨q, hq, rfl⟩
      rw [hstep, htl]
    · have hmem' : (id, old) ∈ tl := by
        rcases List.mem_cons.mp hmem with h | h
        · exfalso; apply hk; rw [← h]
        · exact h
      have hstep : mapDel (p :: tl) id = p :: mapDel tl id := by
        simp only [mapDel, List.filter_cons]
        rw [if_pos (by simpa using hk)]
      rw [hstep]
      exact ((ih hnd.2 hmem').cons p).trans (List.Perm.swap _ _ _)

theorem colInv_remove {schema : Schema} (hS : SchemaWf schema) {s : ColState}
    {id : String} {old : Rec} (hinv : ColInv schema s)
    (hget : alGet s.data id = some old) :
    ColInv schema ⟨mapDel s.data id, removeFromIndexes s.indexes id old⟩ := by
  obtain ⟨hnd, hrw, hsh, hix⟩ := hinv
  have hmem : (id, old) ∈ s.data := alGet_mem hget
  have hpermD : s.data.Perm ((id, old) :: mapDel s.data id) :=
    mapDel_perm hnd hmem
  refine ⟨?_, ?_, ?_, ?_⟩
  · show ((s.data.filter (fun p => p.1 ≠ id)).map (·.1)).Nodup
    exact (List.Sublist.map _ (List.filter_sublist _)).nodup hnd
  · show ∀ p ∈ s.data.filter (fun p => p.1 ≠ id), RecWf schema p.2
    intro p hp
    exact hrw p (List.mem_of_mem_filter hp)
  · show (removeFromIndexes s.indexes id old).map ixShape =
      (indexedDefs schema).map expShape
    rw [removeFromIndexes_shape]
    exact hsh
  · show ∀ p ∈ removeFromIndexes s.indexes id old, _
    intro p' hp' fd hfd
    simp only [removeFromIndexes, List.mem_map] at hp'
    obtain ⟨p, hp, hpe⟩ := hp'
    obtain ⟨fd0, hF0, hidx0, hft0, hic0⟩ := shape_conform hS.1 hsh p hp
    cases halg : alGet old p.1 with
    | none =>
      simp only [halg] at hpe
      subst hpe
      obtain ⟨hperm, hsort⟩ := hix p hp fd hfd
      refine ⟨?_, hsort⟩
      refine hperm.trans ?_
      refine (expEntries_perm _ _ hpermD).trans ?_
      rw [expEntries_cons]
      simp only [halg, List.nil_append]
      exact List.Perm.refl _
    | some v =>
      simp only [halg] at hpe
      subst hpe
      have hfd' : alGet schema p.1 = some fd := hfd
      have hfdeq : fd0 = fd := by
        have h := hF0.symm.trans hfd'
        injection h
      subst hfdeq
      obtain ⟨hperm, hsort⟩ := hix p hp fd0 hF0
      have hty : typeOk fd0.type v = true :=
        (hrw (id, old) hmem).2 (p.1, fd0) (alGet_mem hF0) v halg
      have hobj : fd0.type ≠ .object := indexed_not_object hS hF0 hidx0
      have hhom : homogTy fd0.type p.2.entries :=
        homog_of_perm hperm (homog_expEntries hrw hF0 _)
      have hnt : (normV p.2.ignoreCase v).typeOf = fd0.type := by
        rw [normV_typeOf]
        exact typeOk_typeOf hty
      have h2 : (expEntries (fd0.ignoreCase.getD false) p.1 s.data).Perm
          (⟨normV p.2.ignoreCase v, id⟩ ::
            expEntries (fd0.ignoreCase.getD false) p.1 (mapDel s.data id)) := by
        refine (expEntries_perm _ _ hpermD).trans ?_
        rw [expEntries_cons]
        simp only [halg, hic0, List.singleton_append]
        exact List.Perm.refl _
      have hentry : (⟨normV p.2.ignoreCase v, id⟩ : Entry) ∈ p.2.entries := by
        rw [hperm.mem_iff, h2.mem_iff]
        exact List.mem_cons_self _ _
      constructor
      · show (removeFrom p.2.entries id (normV p.2.ignoreCase v)
            (lowerBound p.2.entries (normV p.2.ignoreCase v))).Perm
          (expEntries (fd0.ignoreCase.getD false) p.1 (mapDel s.data id))
        refine (removeFrom_perm_erase hsort hhom hnt hobj hentry).trans ?_
        refine (hperm.erase _).trans ?_
        refine (h2.erase _).trans ?_
        rw [List.erase_cons_head]
      · show (removeFrom p.2.entries id (normV p.2.ignoreCase v)
            (lowerBound p.2.entries (normV p.2.ignoreCase v))).Pairwise entryLe
        exact List.Pairwise.sublist (removeFrom_sublist _ _ _ _) hsort

theorem colInv_clear {schema : Schema} {s : ColState} (hinv : ColInv schema s) :
    ColInv schema (memClear s) := by
  obtain ⟨hnd, hrw, hsh, hix⟩ := hinv
  refine ⟨List.nodup_nil, ?_, ?_, ?_⟩
  · intro p hp
    exact absurd hp (List.not_mem_nil p)
  · show (s.indexes.map (fun p => (p.1, p.2.clear))).map ixShape =
      (indexedDefs schema).map expShape
    rw [List.map_map, ← hsh]
    apply List.map_congr_left
    intro p _
    rfl
  · show ∀ p ∈ s.indexes.map (fun p => (p.1, p.2.clear)), _
    intro p' hp' fd hfd
    simp only [List.mem_map] at hp'
    obtain ⟨p, hp, hpe⟩ := hp'
    subst hpe
    exact ⟨List.Perm.refl _, List.Pairwise.nil⟩

theorem mapSet_keys_of_mem {data : List (String × Rec)} {id : String}
    {old : Rec} (hmem : (id, old) ∈ data) (u : Rec) :
    (mapSet data id u).map (·.1) = data.map (·.1) := by
  unfold mapSet
  rw [if_pos (List.any_eq_true.mpr ⟨(id, old), hmem, by simp⟩)]
  rw [List.map_map]
  apply List.map_congr_left
  intro p _
  by_cases hk : p.1 = id
  · simp [hk]
  · simp [hk]

theorem mem_mapSet_of_mem {data : List (String × Rec)} {id : String}
    {old : Rec} (hmem : (id, old) ∈ data) (u : Rec) :
    ∀ p' ∈ mapSet data id u, p' ∈ data ∨ p' = (id, u) := by
  unfold mapSet
  rw [if_pos (List.any_eq_true.mpr ⟨(id, old), hmem, by simp⟩)]
  intro p' hp'
  obtain ⟨p, hp, hpe⟩ := List.mem_map.mp hp'
  by_cases hk : p.1 = id
  · right
    rw [← hpe, if_pos hk]
  · left
    rw [← hpe, if_neg hk]
    exact hp

theorem mapSet_replace_perm {data : List (String × Rec)} {id : String}
    {old : Rec} (hnd : (data.map (·.1)).Nodup) (hmem : (id, old) ∈ data)
    (u : Rec) :
    ∃ rest, data.Perm ((id, old) :: rest) ∧
      (mapSet data id u).Perm ((id, u) :: rest) := by
  induction data with
  | nil => cases hmem
  | cons q tl ih =>
    rw [List.map_cons, List.nodup_cons] at hnd
    by_cases hk : q.1 = id
    · have hqe : q = (id, old) := by
        rcases List.mem_cons.mp hmem with h | h
        · exact h.symm
        · exfalso
          apply hnd.1
          rw [hk]
          exact List.mem_map.mpr ⟨(id, old), h, rfl⟩
      subst hqe
      refine ⟨tl, List.Perm.refl _, ?_⟩
      have hstep : mapSet ((id, old) :: tl) id u = (id, u) :: tl := by
        unfold mapSet
        rw [if_pos (by simp)]
        rw [List.map_cons, if_pos rfl]
        congr 1
        have : ∀ p ∈ tl, (if p.1 = id then (id, u) else p) = p := by
          intro p hp
          rw [if_neg]
          intro hcon
          apply hnd.1
          rw [← hcon]
          exact List.mem_map.mpr ⟨p, hp, rfl⟩
        calc tl.map (fun p => if p.1 = id then (id, u) else p)
            = tl.map (fun p => p) := List.map_congr_left this
          _ = tl := List.map_id _
      rw [hstep]
    · have hmem' : (id, old) ∈ tl := by
        rcases List.mem_cons.mp hmem with h | h
        · exfalso; apply hk; rw [← h]
        · exact h
      obtain ⟨rest', h1, h2⟩ := ih hnd.2 hmem'
      refine ⟨q :: rest', ?_, ?_⟩
      · exact ((h1.cons q).trans (List.Perm.swap _ _ _))
      · have hany : tl.any (fun p => p.1 = id) = true :=
          List.any_eq_true.mpr ⟨(id, old), hmem', by simp⟩
        have hstep : mapSet (q :: tl) id u = q :: mapSet tl id u := by
          unfold mapSet
          rw [List.any_cons, hany, Bool.or_true, if_pos rfl, if_pos rfl,
            List.map_cons, if_neg hk]
        rw [hstep]
        exact ((h2.cons q).trans (List.Perm.swap _ _ _))

theorem recWf_merge {schema : Schema} {old patch : Rec}
    (hold : RecWf schema old)
    (hvp : validateRecord patch schema true = .ok ())
    (hpk : (patch.map (·.1)).Nodup) :
    RecWf schema (mergeRec old patch) := by
  refine ⟨mergeRec_nodup hold.1 hpk, ?_⟩
  intro fd hfd v hv
  rw [alGet_mergeRec] at hv
  cases hpa : alGet patch fd.1 with
  | some pv =>
    simp only [hpa] at hv
    injection hv with hv2
    rw [← hv2]
    exact validateRecord_typeOk hvp fd hfd pv hpa
  | none =>
    simp only [hpa] at hv
    exact hold.2 fd hfd v hv

theorem colInv_update {schema : Schema} (hS : SchemaWf schema) {s : ColState}
    {id : String} {patch old : Rec} (hinv : ColInv schema s)
    (hvp : validateRecord patch schema true = .ok ())
    (hkp : recKeysND patch = true)
    (hget : alGet s.data id = some old) :
    ColInv schema ⟨mapSet s.data id (mergeRec old patch),
      updateIndexes s.indexes id old patch⟩ := by
  obtain ⟨hnd, hrw, hsh, hix⟩ := hinv
  have hmem : (id, old) ∈ s.data := alGet_mem hget
  have hpkn : (patch.map (·.1)).Nodup := by simpa [recKeysND] using hkp
  obtain ⟨rest, h1, h2⟩ := mapSet_replace_perm hnd hmem (mergeRec old patch)
  refine ⟨?_, ?_, ?_, ?_⟩
  · show ((mapSet s.data id (mergeRec old patch)).map (·.1)).Nodup
    rw [mapSet_keys_of_mem hmem]
    exact hnd
  · show ∀ p ∈ mapSet s.data id (mergeRec old patch), RecWf schema p.2
    intro p hp
    rcases mem_mapSet_of_mem hmem (mergeRec old patch) p hp with hp' | hp'
    · exact hrw p hp'
    · rw [hp']
      exact recWf_merge (hrw (id, old) hmem) hvp hpkn
  · show (updateIndexes s.indexes id old patch).map ixShape =
      (indexedDefs schema).map expShape
    rw [updateIndexes_shape]
    exact hsh
  · show ∀ p ∈ updateIndexes s.indexes id old patch, _
    intro p' hp' fd hfd
    simp only [updateIndexes, List.mem_map] at hp'
    obtain ⟨p, hp, hpe⟩ := hp'
    obtain ⟨fd0, hF0, hidx0, hft0, hic0⟩ := shape_conform hS.1 hsh p hp
    cases hpa : alGet patch p.1 with
    | none =>
      simp only [hpa] at hpe
      subst hpe
      obtain ⟨hperm, hsort⟩ := hix p hp fd hfd
      have hm' : alGet (mergeRec old patch) p.1 = alGet old p.1 := by
        rw [alGet_mergeRec]
        simp only [hpa]
      refine ⟨?_, hsort⟩
      refine hperm.trans ?_
      refine (expEntries_perm _ _ h1).trans ?_
      refine List.Perm.trans ?_ (expEntries_perm _ _ h2).symm
      rw [expEntries_cons, expEntries_cons, hm']
    | some pv =>
      simp only [hpa] at hpe
      have hfd' : alGet schema p.1 = some fd := by
        rw [← hpe] at hfd
        exact hfd
      have hfdeq : fd0 = fd := by
        have h := hF0.symm.trans hfd'
        injection h
      subst hfdeq
      obtain ⟨hperm, hsort⟩ := hix p hp fd0 hF0
      have hobj : fd0.type ≠ .object := indexed_not_object hS hF0 hidx0
      have hhom : homogTy fd0.type p.2.entries :=
        homog_of_perm hperm (homog_expEntries hrw hF0 _)
      have htyp : typeOk fd0.type pv = true :=
        validateRecord_typeOk hvp (p.1, fd0) (alGet_mem hF0) pv hpa
      have hntp : (normV (fd0.ignoreCase.getD false) pv).typeOf = fd0.type := by
        rw [normV_typeOf]
        exact typeOk_typeOf htyp
      have hmv : alGet (mergeRec old patch) p.1 = some pv := by
        rw [alGet_mergeRec]
        simp only [hpa]
      have hE2 : (expEntries (fd0.ignoreCase.getD false) p.1
          (mapSet s.data id (mergeRec old patch))).Perm
          (⟨normV (fd0.ignoreCase.getD false) pv, id⟩ ::
            expEntries (fd0.ignoreCase.getD false) p.1 rest) := by
        refine (expEntries_perm _ _ h2).trans ?_
        rw [expEntries_cons]
        simp only [hmv, List.singleton_append]
        exact List.Perm.refl _
      cases halgo : alGet old p.1 with
      | none =>
        simp only [halgo] at hpe
        subst hpe
        have hE1 : p.2.entries.Perm
            (expEntries (fd0.ignoreCase.getD false) p.1 rest) := by
          refine hperm.trans ?_
          refine (expEntries_perm _ _ h1).trans ?_
          rw [expEntries_cons]
          simp only [halgo, List.nil_append]
          exact List.Perm.refl _
        constructor
        · show (insertEntry p.2.entries
              (lowerBound p.2.entries (normV p.2.ignoreCase pv))
              ⟨normV p.2.ignoreCase pv, id⟩).Perm
            (expEntries (fd0.ignoreCase.getD false) p.1
              (mapSet s.data id (mergeRec old patch)))
          rw [hic0]
          refine (insertEntry_perm _ _ _).trans ?_
          refine List.Perm.trans ?_ hE2.symm
          exact hE1.cons _
        · show (insertEntry p.2.entries
              (lowerBound p.2.entries (normV p.2.ignoreCase pv))
              ⟨normV p.2.ignoreCase pv, id⟩).Pairwise entryLe
          rw [hic0]
          exact insert_lb_sorted hsort hhom hntp hobj
      | some ov =>
        simp only [halgo] at hpe
        subst hpe
        have htyo : typeOk fd0.type ov = true :=
          (hrw (id, old) hmem).2 (p.1, fd0) (alGet_mem hF0) ov halgo
        have hnto : (normV (fd0.ignoreCase.getD false) ov).typeOf = fd0.type := by
          rw [normV_typeOf]
          exact typeOk_typeOf htyo
        have hEold : (expEntries (fd0.ignoreCase.getD false) p.1 s.data).Perm
            (⟨normV (fd0.ignoreCase.getD false) ov, id⟩ ::
              expEntries (fd0.ignoreCase.getD false) p.1 rest) := by
          refine (expEntries_perm _ _ h1).trans ?_
          rw [expEntries_cons]
          simp only [halgo, List.singleton_append]
          exact List.Perm.refl _
        have hentry : (⟨normV (fd0.ignoreCase.getD false) ov, id⟩ : Entry) ∈
            p.2.entries := by
          rw [hperm.mem_iff, hEold.mem_iff]
          exact List.mem_cons_self _ _
        have hrm : (removeFrom p.2.entries id
            (normV (fd0.ignoreCase.getD false) ov)
            (lowerBound p.2.entries (normV (fd0.ignoreCase.getD false) ov))).Perm
            (expEntries (fd0.ignoreCase.getD false) p.1 rest) := by
          refine (removeFrom_perm_erase hsort hhom hnto hobj hentry).trans ?_
          refine (hperm.erase _).trans ?_
          refine (hEold.erase _).trans ?_
          rw [List.erase_cons_head]
        have hsort1 : (removeFrom p.2.entries id
            (normV (fd0.ignoreCase.getD false) ov)
            (lowerBound p.2.entries
              (normV (fd0.ignoreCase.getD false) ov))).Pairwise entryLe :=
          List.Pairwise.sublist (removeFrom_sublist _ _ _ _) hsort
        have hhom1 : homogTy fd0.type (removeFrom p.2.entries id
            (normV (fd0.ignoreCase.getD false) ov)
            (lowerBound p.2.entries (normV (fd0.ignoreCase.getD false) ov))) :=
          fun e he => hhom e ((removeFrom_sublist _ _ _ _).subset he)
        constructor
        · show (insertEntry
              (removeFrom p.2.entries id (normV p.2.ignoreCase ov)
                (lowerBound p.2.entries (normV p.2.ignoreCase ov)))
              (lowerBound
                (removeFrom p.2.entries id (normV p.2.ignoreCase ov)
                  (lowerBound p.2.entries (normV p.2.ignoreCase ov)))
                (normV p.2.ignoreCase pv))
              ⟨normV p.2.ignoreCase pv, id⟩).Perm
            (expEntries (fd0.ignoreCase.getD false) p.1
              (mapSet s.data id (mergeRec old patch)))
          rw [hic0]
          refine (insertEntry_perm _ _ _).trans ?_
          refine List.Perm.trans ?_ hE2.symm
          exact hrm.cons _
        · show (insertEntry
              (removeFrom p.2.entries id (normV p.2.ignoreCase ov)
                (lowerBound p.2.entries (normV p.2.ignoreCase ov)))
              (lowerBound
                (removeFrom p.2.entries id (normV p.2.ignoreCase ov)
                  (lowerBound p.2.entries (normV p.2.ignoreCase ov)))
                (normV p.2.ignoreCase pv))
              ⟨normV p.2.ignoreCase pv, id⟩).Pairwise entryLe
          rw [hic0]
          exact insert_lb_sorted hsort1 hhom1 hntp hobj

theorem colInv_addFold {schema : Schema} (hS : SchemaWf schema) :
    ∀ (zl : List (String × Rec)) (s : ColState),
    ColInv schema s →
    (∀ p ∈ zl, validateRecord (applyDefaults schema p.2) schema false = .ok () ∧
      recKeysND p.2 = true) →
    (zl.map (·.1)).Nodup →
    (∀ p ∈ zl, alGet s.data p.1 = none) →
    ColInv schema ⟨addDataFold (defaulted schema zl) s.data,
      addIxsFold (defaulted schema zl) s.indexes⟩ := by
  intro zl
  induction zl with
  | nil =>
    intro s hinv _ _ _
    exact hinv
  | cons q tl ih =>
    intro s hinv hval hnd hfresh
    have hq := hval q (List.mem_cons_self _ _)
    have hqf := hfresh q (List.mem_cons_self _ _)
    have hstep : ColInv schema ⟨mapSet s.data q.1 (applyDefaults schema q.2),
        addToIndexes s.indexes q.1 (applyDefaults schema q.2)⟩ :=
      colInv_add hS hinv hq.1 hq.2 hqf
    rw [List.map_cons, List.nodup_cons] at hnd
    have hfresh' : ∀ p ∈ tl,
        alGet (mapSet s.data q.1 (applyDefaults schema q.2)) p.1 = none := by
      intro p hp
      rw [mapSet_fresh hqf _]
      apply alGet_append_none (hfresh p (List.mem_cons_of_mem _ hp))
      intro hcon
      apply hnd.1
      rw [← hcon]
      exact List.mem_map.mpr ⟨p, hp, rfl⟩
    have hrec := ih ⟨mapSet s.data q.1 (applyDefaults schema q.2),
        addToIndexes s.indexes q.1 (applyDefaults schema q.2)⟩ hstep
      (fun p hp => hval p (List.mem_cons_of_mem _ hp)) hnd.2 hfresh'
    exact hrec

theorem validateAll_ok_inv {schema : Schema} :
    ∀ {zl : List (String × Rec)} {out : List (String × Rec)},
    validateAll schema zl = .ok out →
    (∀ p ∈ zl, validateRecord (applyDefaults schema p.2) schema false = .ok ()) ∧
    out = defaulted schema zl := by
  intro zl
  induction zl with
  | nil =>
    intro out h
    injection h with h2
    refine ⟨fun p hp => absurd hp (List.not_mem_nil p), h2.symm⟩
  | cons q tl ih =>
    intro out h
    simp only [validateAll] at h
    cases hv : validateRecord (applyDefaults schema q.2) schema false with
    | error e =>
      rw [hv] at h
      exact absurd h (by simp)
    | ok u =>
      cases u
      rw [hv] at h
      cases hta : validateAll schema tl with
      | error e =>
        rw [hta] at h
        exact absurd h (by simp [Except.map])
      | ok tout =>
        rw [hta] at h
        obtain ⟨hall, hout⟩ := ih hta
        have h2 : (q.1, applyDefaults schema q.2) :: tout = out := by
          have h3 : Except.ok ((q.1, applyDefaults schema q.2) :: tout) =
              (Except.ok out : Except String (List (String × Rec))) := h
          injection h3
        refine ⟨?_, ?_⟩
        · intro p hp
          rcases List.mem_cons.mp hp with hp1 | hp1
          · rw [hp1]; exact hv
          · exact hall p hp1
        · rw [← h2, hout]
          rfl

theorem colInv_applyMem {schema : Schema} (hS : SchemaWf schema) {s : ColState}
    (hinv : ColInv schema s) (op : Op) (hop : opWf s op = true) :
    ColInv schema (applyMem schema s op) := by
  cases op with
  | add id r =>
    simp only [opWf, Bool.and_eq_true, decide_eq_true_eq] at hop
    simp only [applyMem, memAdd]
    cases hv : validateRecord (applyDefaults schema r) schema false with
    | error e =>
      simp only [hv]
      exact hinv
    | ok u =>
      cases u
      simp only [hv]
      exact colInv_add hS hinv hv hop.2 hop.1
  | addMany ids rs =>
    simp only [opWf, Bool.and_eq_true, decide_eq_true_eq] at hop
    obtain ⟨⟨⟨hidnd, hfr⟩, hlen⟩, hkeys⟩ := hop
    simp only [applyMem, memAddMany]
    cases hva : validateAll schema (ids.zip rs) with
    | error e =>
      simp only [hva]
      exact hinv
    | ok validated =>
      obtain ⟨hall, hvout⟩ := validateAll_ok_inv hva
      subst hvout
      simp only [hva]
      rw [memFold_eq]
      apply colInv_addFold hS (ids.zip rs) s hinv
      · intro p hp
        refine ⟨hall p hp, ?_⟩
        have hp2 : p.2 ∈ rs := (List.of_mem_zip hp).2
        rw [List.all_eq_true] at hkeys
        exact hkeys p.2 hp2
      · have hmz : (ids.zip rs).map (·.1) = ids :=
          List.map_fst_zip ids rs (le_of_eq hlen)
        rw [hmz]
        exact hidnd
      · intro p hp
        have hp1 : p.1 ∈ ids := (List.of_mem_zip hp).1
        rw [List.all_eq_true] at hfr
        have := hfr p.1 hp1
        simpa using this
  | update id patch =>
    simp only [opWf] at hop
    simp only [applyMem, memUpdate]
    cases hv : validateRecord patch schema true with
    | error e =>
      simp only [hv]
      exact hinv
    | ok u =>
      cases u
      cases hg : alGet s.data id with
      | none =>
        simp only [hv, hg]
        exact hinv
      | some old =>
        simp only [hv, hg]
        exact colInv_update hS hinv hv hop hg
  | remove id =>
    simp only [applyMem, memRemove]
    cases hg : alGet s.data id with
    | none =>
      simp only [hg]
      exact hinv
    | some old =>
      simp only [hg]
      exact colInv_remove hS hinv hg
  | clear => exact colInv_clear hinv

theorem colInv_initMem (schema : Schema) : ColInv schema (initMem schema) := by
  rw [initMem_eq]
  refine ⟨List.nodup_nil, ?_, ?_, ?_⟩
  · intro p hp
    exact absurd hp (List.not_mem_nil p)
  · show (buildIndexes schema).map ixShape = (indexedDefs schema).map expShape
    rw [buildIndexes_eq, List.map_map]
    apply List.map_congr_left
    intro fd _
    rfl
  · show ∀ p ∈ buildIndexes schema, _
    intro p hp fd hfd
    rw [buildIndexes_eq] at hp
    simp only [List.mem_map] at hp
    obtain ⟨q, hq, hqe⟩ := hp
    subst hqe
    exact ⟨List.Perm.refl _, List.Pairwise.nil⟩

theorem colInv_runMem {schema : Schema} (hS : SchemaWf schema) :
    ∀ (ops : List Op) (s : ColState), ColInv schema s →
    opsWf schema s ops = true → ColInv schema (runMem schema s ops) := by
  intro ops
  induction ops with
  | nil => intro s hinv _; exact hinv
  | cons op rest ih =>
    intro s hinv hwf
    simp only [opsWf, Bool.and_eq_true] at hwf
    exact ih (applyMem schema s op) (colInv_applyMem hS hinv op hwf.1) hwf.2

/-- The normalized value an exact (wildcard-free, operator-free) query
denotes for a field, when the query is exact at all; follows the
dispatch order of `Index.find`. -/
def exactTargetF (fd : FieldDef) (q : String) : Option Value :=
  if fd.type = .number then
    match matchRangeOp q with
    | some _ => none
    | none => (parseNum q).map Value.num
  else if fd.type = .boolean then
    if q = "true" then some (.bool true)
    else if q = "false" then some (.bool false)
    else none
  else
    if jsStartsWith q "%" || jsEndsWith q "%" then none
    else some (.str (if fd.ignoreCase.getD false then jsToLower q else q))

theorem exactTargetF_typeOf {fd : FieldDef} {q : String} {t : Value}
    (h : exactTargetF fd q = some t) (hobj : fd.type ≠ .object) :
    t.typeOf = fd.type := by
  unfold exactTargetF at h
  cases hty : fd.type with
  | number =>
    rw [hty] at h
    rw [if_pos rfl] at h
    cases hmr : matchRangeOp q with
    | some op =>
      simp only [hmr] at h
      cases h
    | none =>
      simp only [hmr] at h
      cases hpn : parseNum q with
      | none =>
        simp only [hpn, Option.map_none'] at h
        cases h
      | some n =>
        simp only [hpn, Option.map_some'] at h
        injection h with h2
        rw [← h2]
        rfl
  | boolean =>
    rw [hty] at h
    rw [if_neg (by decide), if_pos rfl] at h
    by_cases h1 : q = "true"
    · rw [if_pos h1] at h
      injection h with h2
      rw [← h2]
      rfl
    · rw [if_neg h1] at h
      by_cases h2 : q = "false"
      · rw [if_pos h2] at h
        injection h with h3
        rw [← h3]
        rfl
      · rw [if_neg h2] at h
        cases h
  | string =>
    rw [hty] at h
    rw [if_neg (by decide), if_neg (by decide)] at h
    by_cases hw : (jsStartsWith q "%" || jsEndsWith q "%") = true
    · rw [if_pos hw] at h
      cases h
    · rw [if_neg hw] at h
      injection h with h2
      rw [← h2]
      rfl
  | object => exact absurd hty hobj

theorem find_exact {ix : Index} {fd : FieldDef} {q : String} {t : Value}
    (hft : ix.fieldType = fd.type) (hic : ix.ignoreCase = fd.ignoreCase.getD false)
    (ht : exactTargetF fd q = some t) :
    ix.find q = .ok (exactQuery ix.entries t) := by
  unfold exactTargetF at ht
  unfold Index.find
  rw [hft, hic]
  cases hty : fd.type with
  | number =>
    rw [hty] at ht
    rw [if_pos rfl]
    rw [if_pos rfl] at ht
    cases hmr : matchRangeOp q with
    | some op =>
      simp only [hmr] at ht
      cases ht
    | none =>
      simp only [hmr]
      simp only [hmr] at ht
      cases hpn : parseNum q with
      | none =>
        simp only [hpn, Option.map_none'] at ht
        cases ht
      | some n =>
        simp only [hpn]
        simp only [hpn, Option.map_some'] at ht
        injection ht with ht2
        rw [ht2]
  | boolean =>
    rw [hty] at ht
    rw [if_neg (by decide), if_pos rfl]
    rw [if_neg (by decide), if_pos rfl] at ht
    by_cases h1 : q = "true"
    · rw [if_pos h1] at ht ⊢
      injection ht with ht2
      rw [ht2]
    · rw [if_neg h1] at ht ⊢
      by_cases h2 : q = "false"
      · rw [if_pos h2] at ht ⊢
        injection ht with ht2
        rw [ht2]
      · rw [if_neg h2] at ht
        cases ht
  | string =>
    rw [hty] at ht
    rw [if_neg (by decide), if_neg (by decide)]
    rw [if_neg (by decide), if_neg (by decide)] at ht
    by_cases hw : (jsStartsWith q "%" || jsEndsWith q "%") = true
    · rw [if_pos hw] at ht
      cases ht
    · rw [if_neg hw] at ht
      injection ht with ht1
      have hs : jsStartsWith q "%" = false := by
        cases hx : jsStartsWith q "%"
        · rfl
        · exact absurd (by rw [hx]; rfl) hw
      have he : jsEndsWith q "%" = false := by
        cases hx : jsEndsWith q "%"
        · rfl
        · exact absurd (by rw [hx]; simp) hw
      simp only [hs, he, Bool.false_and]
      rw [if_neg (by simp), if_neg (by simp), if_neg (by simp)]
      rw [ht1]
  | object =>
    rw [hty] at ht
    rw [if_neg (by decide), if_neg (by decide)]
    rw [if_neg (by decide), if_neg (by decide)] at ht
    by_cases hw : (jsStartsWith q "%" || jsEndsWith q "%") = true
    · rw [if_pos hw] at ht
      cases ht
    · rw [if_neg hw] at ht
      injection ht with ht1
      have hs : jsStartsWith q "%" = false := by
        cases hx : jsStartsWith q "%"
        · rfl
        · exact absurd (by rw [hx]; rfl) hw
      have he : jsEndsWith q "%" = false := by
        cases hx : jsEndsWith q "%"
        · rfl
        · exact absurd (by rw [hx]; simp) hw
      simp only [hs, he, Bool.false_and]
      rw [if_neg (by simp), if_neg (by simp), if_neg (by simp)]
      rw [ht1]

theorem exact_find_inv {schema : Schema} (hS : SchemaWf schema) {s : ColState}
    (hinv : ColInv schema s) {F : String} {fd : FieldDef}
    (hF : alGet schema F = some fd) (hidx : fd.index.getD false = true)
    {q : String} {t : Value} (ht : exactTargetF fd q = some t) :
    ∃ docs, memFind s [(F, q)] = .ok docs ∧
      ∀ id r, (id, r) ∈ docs ↔ ((id, r) ∈ s.data ∧
        ∃ v, alGet r F = some v ∧ normV (fd.ignoreCase.getD false) v = t) := by
  obtain ⟨hnd, hrw, hsh, hix⟩ := hinv
  obtain ⟨ix, hgx⟩ := index_exists_of_indexed hsh hF hidx
  obtain ⟨fd0, hF0, hidx0, hft0, hic0⟩ := shape_conform hS.1 hsh (F, ix) (alGet_mem hgx)
  have hF0' : alGet schema F = some fd0 := hF0
  have hfdeq : fd0 = fd := by
    have h := hF0'.symm.trans hF
    injection h
  subst hfdeq
  obtain ⟨hperm, hsort⟩ := hix (F, ix) (alGet_mem hgx) fd0 hF0'
  have hffind : ix.find q = .ok (exactQuery ix.entries t) := find_exact hft0 hic0 ht
  have hobj : fd0.type ≠ .object := indexed_not_object hS hF hidx
  have httype : t.typeOf = fd0.type := exactTargetF_typeOf ht hobj
  have hhom : homogTy fd0.type ix.entries :=
    homog_of_perm hperm (homog_expEntries hrw hF _)
  have hEq : exactQuery ix.entries t =
      (ix.entries.filter (fun e => decide (e.value = t))).map (·.id) :=
    exactQuery_eq_filter hsort hhom httype hobj
  have hloop : findLoop s.indexes [(F, q)] none =
      .ok (jsSetOfList (exactQuery ix.entries t)) := by
    simp only [findLoop, hgx, hffind]
    by_cases hr : (jsSetOfList (exactQuery ix.entries t)).length = 0
    · rw [if_pos hr]
      rw [List.length_eq_zero] at hr
      rw [hr]
    · rw [if_neg hr]
      rfl
  refine ⟨(jsSetOfList (exactQuery ix.entries t)).map
    (fun id => (memGet s id).getD undefinedDoc), ?_, ?_⟩
  · simp [memFind, hloop, Except.map]
  · intro id r
    constructor
    · intro hmemdoc
      simp only [List.mem_map] at hmemdoc
      obtain ⟨id', hid', hde⟩ := hmemdoc
      have hidq : id' ∈ exactQuery ix.entries t := (jsSetOfList_mem _ _).mp hid'
      rw [hEq] at hidq
      simp only [List.mem_map, List.mem_filter, decide_eq_true_eq] at hidq
      obtain ⟨e, ⟨hee, hev⟩, heid⟩ := hidq
      have hxE := hperm.mem_iff.mp hee
      simp only [expEntries, List.mem_filterMap] at hxE
      obtain ⟨d, hd, hde2⟩ := hxE
      cases hdv : alGet d.2 F with
      | none =>
        rw [hdv] at hde2
        cases hde2
      | some v =>
        rw [hdv] at hde2
        simp only [Option.map_some'] at hde2
        injection hde2 with hde3
        have hid'd : d.1 = id' := by
          rw [← heid, ← hde3]
        have halgd : alGet s.data id' = some d.2 := by
          rw [← hid'd]
          exact alGet_of_mem_nodup hnd (show (d.1, d.2) ∈ s.data from hd)
        have hmg : memGet s id' = some (id', d.2) := by
          simp [memGet, halgd, toDocument]
        rw [hmg] at hde
        simp only [Option.getD_some] at hde
        have hii : id' = id := congrArg Prod.fst hde
        have hrr : d.2 = r := congrArg Prod.snd hde
        refine ⟨?_, v, ?_, ?_⟩
        · rw [← hii, ← hrr, ← hid'd]
          exact hd
        · rw [← hrr]
          exact hdv
        · rw [← hev, ← hde3]
    · rintro ⟨hmemd, v, hgv, hnv⟩
      have halg : alGet s.data id = some r := alGet_of_mem_nodup hnd hmemd
      have hentry : (⟨t, id⟩ : Entry) ∈ ix.entries := by
        rw [hperm.mem_iff]
        simp only [expEntries, List.mem_filterMap]
        refine ⟨(id, r), hmemd, ?_⟩
        show (alGet r F).map _ = _
        rw [hgv]
        simp only [Option.map_some']
        rw [hnv]
      have hidq : id ∈ exactQuery ix.entries t := by
        rw [hEq]
        simp only [List.mem_map, List.mem_filter, decide_eq_true_eq]
        exact ⟨⟨t, id⟩, ⟨hentry, rfl⟩, rfl⟩
      simp only [List.mem_map]
      refine ⟨id, (jsSetOfList_mem _ _).mpr hidq, ?_⟩
      simp [memGet, halg, toDocument]

/-- C1: for every schema field `F` declared with `index: true`, every
well-formed sequence of operations run from the empty collection, and
every exact-value query `q` (no wildcard, no range operator), `find`
with `{F: q}` succeeds and returns exactly the documents of the
currently-stored records whose `F` value — after the index's
normalization, which lower-cases when the field's index setting
requests case folding — equals the (equally folded) query target. -/
theorem C1_exact_find_correct (schema : Schema) (hS : SchemaWf schema)
    (ops : List Op) (hops : opsWf schema (initMem schema) ops = true)
    (F : String) (fd : FieldDef) (hF : alGet schema F = some fd)
    (hidx : fd.index.getD false = true)
    (q : String) (t : Value) (ht : exactTargetF fd q = some t) :
    ∃ docs, memFind (runMem schema (initMem schema) ops) [(F, q)] = .ok docs ∧
      ∀ id r, (id, r) ∈ docs ↔
        ((id, r) ∈ (runMem schema (initMem schema) ops).data ∧
          ∃ v, alGet r F = some v ∧
            normV (fd.ignoreCase.getD false) v = t) :=
  exact_find_inv hS
    (colInv_runMem hS ops (initMem schema) (colInv_initMem schema) hops)
    hF hidx ht

/-- The C1 witness schema: one indexed, case-folded string field. -/
def sch1 : Schema :=
  [("a", { type := FType.string, index := some true, ignoreCase := some true })]

unseal lbAux collectRun String.ltb in
/-- A C1 witness: two adds, then the exact query `a = "x"` (which, with
case folding, matches the record that stored `"X"`). -/
theorem C1_exact_find_correct_witness :
    ∃ docs, memFind (runMem sch1 (initMem sch1)
        [Op.add "i1" [("a", Value.str "X")], Op.add "i2" [("a", Value.str "y")]])
        [("a", "x")] = .ok docs ∧
      ∀ id r, (id, r) ∈ docs ↔
        ((id, r) ∈ (runMem sch1 (initMem sch1)
          [Op.add "i1" [("a", Value.str "X")],
            Op.add "i2" [("a", Value.str "y")]]).data ∧
          ∃ v, alGet r "a" = some v ∧
            normV ((some true : Option Bool).getD false) v = Value.str "x") :=
  C1_exact_find_correct sch1 (by decide)
    [Op.add "i1" [("a", Value.str "X")], Op.add "i2" [("a", Value.str "y")]]
    (by decide) "a"
    { type := FType.string, index := some true, ignoreCase := some true }
    (by decide) (by decide) "x" (Value.str "x") (by decide)
